import Mathlib

/-!
# LogSentry key/value store: a shallow embedding of `src/kvstore`

The C++ classes of `src/kvstore` (`MemTable`, `LRUCache`, `BloomFilter`, `WAL`,
`SSTable`, `Compaction`, `KVStore`) are embedded as Lean structures with one
function per member function, state passed explicitly.

Conventions.
* A `std::string` is a list of bytes (`Bytes`); `operator<` on strings is the
  lexicographic order on unsigned bytes (`bytesLt`).
* `size_t` / `uint64_t` arithmetic is arithmetic on `Nat` modulo `2^64`,
  `uint32_t` arithmetic is modulo `2^32`.
* A `bool f(..., std::string& value)` member returns `Option Bytes`: `some v`
  when the C++ function returns `true` after assigning `v`, `none` when it
  returns `false` (the C++ functions embedded here leave `value` untouched then).
* What the source leaves to the platform (the `std::hash` function, `sizeof`,
  the result of the floating-point sizing in the bloom filter constructor,
  the signedness of `char`) is collected in `Platform`.  What the environment
  decides during a call (clock readings, whether a write or an open succeeds,
  the content of uninitialised memory) is collected in `Env`.
* Files are byte sequences held in a `FileSystem` (path to content).  A write
  to a stream is modelled as reaching the file at once.
-/

namespace kvstore

/-! ## Strings and integers -/

/-- A `std::string` (also: the content of a file): a sequence of bytes. -/
abbrev Bytes := List (Fin 256)

/-- The `operator<` of `std::string`: lexicographic comparison of unsigned bytes. -/
def bytesLt : Bytes → Bytes → Bool
  | [], [] => false
  | [], _ :: _ => true
  | _ :: _, [] => false
  | a :: as, b :: bs => decide (a < b) || (decide (a = b) && bytesLt as bs)

/-- The `operator>` of `std::string`. -/
def bytesGt (a b : Bytes) : Bool := bytesLt b a

/-- The `operator<=` of `std::string`. -/
def bytesLe (a b : Bytes) : Bool := !bytesLt b a

/-- The `operator>=` of `std::string`. -/
def bytesGe (a b : Bytes) : Bool := !bytesLt a b

/-- Two to the 64: the modulus of `size_t` and `uint64_t`. -/
def U64 : Nat := 2 ^ 64

/-- Two to the 32: the modulus of `uint32_t`. -/
def U32 : Nat := 2 ^ 32

/-- Addition of two `size_t` values. -/
def uadd (a b : Nat) : Nat := (a + b) % U64

/-- Subtraction of two `size_t` values (wraps below zero). -/
def usub (a b : Nat) : Nat := (a + U64 - b % U64) % U64

/-- What the C++ source leaves to the compiler and the standard library. -/
structure Platform where
  /-- The function `std::hash<std::string>` (its value is taken modulo `2^64`). -/
  hash : Bytes → Nat
  /-- The number of bits `m` that `BloomFilter::BloomFilter(n, 0.01)` computes in floating point. -/
  bloom_bits : Nat → Nat
  /-- The `num_hashes_` that `BloomFilter::BloomFilter(n, 0.01)` computes in floating point. -/
  bloom_hashes : Nat → Nat
  /-- The value of `sizeof(Entry)`. -/
  sizeof_Entry : Nat
  /-- The value of `sizeof(CacheEntry)`. -/
  sizeof_CacheEntry : Nat
  /-- Whether plain `char` is a signed type. -/
  char_signed : Bool
  /-- Whether `std::vector<bool>::resize(m, false)` on an empty vector returns;
  it throws `std::length_error` when `m` exceeds `max_size()`. -/
  vector_resize_ok : Nat → Bool

/-! ## Containers -/

/-- Lookup in an association list: the first pair with the given key. -/
def assocFind {K V : Type} [DecidableEq K] : List (K × V) → K → Option V
  | [], _ => none
  | (k, v) :: rest, key => if k = key then some v else assocFind rest key

/-- Removal of a key from an association list. -/
def assocErase {K V : Type} [DecidableEq K] : List (K × V) → K → List (K × V)
  | [], _ => []
  | (k, v) :: rest, key => if k = key then assocErase rest key else (k, v) :: assocErase rest key

/-- The assignment `m[key] = v` of a `std::unordered_map`. -/
def assocSet {K V : Type} [DecidableEq K] (m : List (K × V)) (key : K) (v : V) : List (K × V) :=
  (key, v) :: assocErase m key

/-- A `std::map<std::string, V>`: an association list kept in ascending key order. -/
abbrev StdMap (V : Type) := List (Bytes × V)

/-- The member `find` of `std::map`, as the mapped value if the key is present. -/
def StdMap.find {V : Type} (m : StdMap V) (key : Bytes) : Option V := assocFind m key

/-- The assignment `m[key] = v` of a `std::map`: replaces the mapped value of a
present key, inserts an absent key at its place in the key order. -/
def StdMap.assign {V : Type} : StdMap V → Bytes → V → StdMap V
  | [], key, v => [(key, v)]
  | (k, w) :: rest, key, v =>
    if bytesLt key k then (key, v) :: (k, w) :: rest
    else if key = k then (key, v) :: rest
    else (k, w) :: StdMap.assign rest key v

/-- The member `erase(key)` of `std::map`. -/
def StdMap.erase {V : Type} (m : StdMap V) (key : Bytes) : StdMap V := assocErase m key

/-! ## MemTable (`memtable.h`, `memtable.cpp`) -/

/-- The struct `Entry`; `timestamp` is the clock reading of the constructor, in milliseconds. -/
structure Entry where
  value : Bytes
  is_deleted : Bool
  timestamp : Nat
deriving DecidableEq

/-- The class `MemTable`. -/
structure MemTable where
  table_ : StdMap Entry
  size_bytes_ : Nat
deriving DecidableEq

/-- The constructor `MemTable()`. -/
def MemTable.new : MemTable := { table_ := [], size_bytes_ := 0 }

/-- `MemTable::EstimateSize`. -/
def MemTable.EstimateSize (P : Platform) (key : Bytes) (entry : Entry) : Nat :=
  (key.length + entry.value.length + P.sizeof_Entry) % U64

/-- `MemTable::Put`; `now` is the clock reading of the `Entry` constructor. -/
def MemTable.Put (P : Platform) (t : MemTable) (key value : Bytes) (now : Nat) : MemTable :=
  let size1 := match StdMap.find t.table_ key with
    | some old => usub t.size_bytes_ (MemTable.EstimateSize P key old)
    | none => t.size_bytes_
  let entry : Entry := { value := value, is_deleted := false, timestamp := now }
  { table_ := StdMap.assign t.table_ key entry,
    size_bytes_ := uadd size1 (MemTable.EstimateSize P key entry) }

/-- `MemTable::Get`: the value of a present, live entry. -/
def MemTable.Get (t : MemTable) (key : Bytes) : Option Bytes :=
  match StdMap.find t.table_ key with
  | some e => if e.is_deleted then none else some e.value
  | none => none

/-- `MemTable::Delete`: stores a tombstone with an empty value. -/
def MemTable.Delete (P : Platform) (t : MemTable) (key : Bytes) (now : Nat) : MemTable :=
  let size1 := match StdMap.find t.table_ key with
    | some old => usub t.size_bytes_ (MemTable.EstimateSize P key old)
    | none => t.size_bytes_
  let entry : Entry := { value := [], is_deleted := true, timestamp := now }
  { table_ := StdMap.assign t.table_ key entry,
    size_bytes_ := uadd size1 (MemTable.EstimateSize P key entry) }

/-- `MemTable::Clear`. -/
def MemTable.Clear (_t : MemTable) : MemTable := { table_ := [], size_bytes_ := 0 }

/-- `MemTable::Size`. -/
def MemTable.Size (t : MemTable) : Nat := t.table_.length

/-- `MemTable::SizeBytes`. -/
def MemTable.SizeBytes (t : MemTable) : Nat := t.size_bytes_

/-- `MemTable::IsEmpty`. -/
def MemTable.IsEmpty (t : MemTable) : Bool := t.table_.isEmpty

/-- The iteration from `Begin()` to `End()`: the entries in ascending key order. -/
def MemTable.entries (t : MemTable) : List (Bytes × Entry) := t.table_

/-! ## LRUCache (`lru_cache.h`, `lru_cache.cpp`) -/

/-- The struct `LRUCache::CacheEntry`. -/
structure CacheEntry where
  key : Bytes
  value : Bytes
  size : Nat
deriving DecidableEq

/-- The class `LRUCache`.  A node of the `std::list` is a pair of its address and
its `CacheEntry`; a list iterator is the address of a node; `next_node_` is the
next address never handed out so far. -/
structure LRUCache where
  capacity_ : Nat
  current_size_ : Nat
  hits_ : Nat
  misses_ : Nat
  lru_list_ : List (Nat × CacheEntry)
  cache_map_ : List (Bytes × Nat)
  next_node_ : Nat
deriving DecidableEq

/-- The constructor `LRUCache(capacity_bytes)`. -/
def LRUCache.new (capacity_bytes : Nat) : LRUCache :=
  { capacity_ := capacity_bytes, current_size_ := 0, hits_ := 0, misses_ := 0,
    lru_list_ := [], cache_map_ := [], next_node_ := 0 }

/-- Dereferencing a list iterator.  An iterator whose node is not in the list has
no defined referent in C++; the embedding yields an empty entry for it. -/
def LRUCache.deref (l : List (Nat × CacheEntry)) (it : Nat) : CacheEntry :=
  match assocFind l it with
  | some e => e
  | none => { key := [], value := [], size := 0 }

/-- `lru_list_.erase(it)`: unlinks the node at address `it`. -/
def LRUCache.listErase : List (Nat × CacheEntry) → Nat → List (Nat × CacheEntry)
  | [], _ => []
  | (a, e) :: rest, it => if a = it then rest else (a, e) :: LRUCache.listErase rest it

/-- `lru_list_.splice(lru_list_.begin(), lru_list_, it)`: moves the node to the front. -/
def LRUCache.spliceFront (l : List (Nat × CacheEntry)) (it : Nat) : List (Nat × CacheEntry) :=
  match assocFind l it with
  | some e => (it, e) :: LRUCache.listErase l it
  | none => l

/-- `LRUCache::EstimateSize`. -/
def LRUCache.EstimateSize (P : Platform) (key value : Bytes) : Nat :=
  (key.length + value.length + P.sizeof_CacheEntry) % U64

/-- `LRUCache::Get`. -/
def LRUCache.Get (c : LRUCache) (key : Bytes) : LRUCache × Option Bytes :=
  match assocFind c.cache_map_ key with
  | none => ({ c with misses_ := uadd c.misses_ 1 }, none)
  | some it =>
    let l := LRUCache.spliceFront c.lru_list_ it
    ({ c with hits_ := uadd c.hits_ 1, lru_list_ := l }, some (LRUCache.deref l it).value)

/-- `LRUCache::Evict`. -/
def LRUCache.Evict (c : LRUCache) : LRUCache :=
  match c.lru_list_.getLast? with
  | none => c
  | some (_, entry) =>
    { c with current_size_ := usub c.current_size_ entry.size,
             cache_map_ := assocErase c.cache_map_ entry.key,
             lru_list_ := c.lru_list_.dropLast }

/-- The loop `while (current_size_ + entry_size > capacity_ && !lru_list_.empty()) Evict();`
of `LRUCache::Put`, run for at most `fuel` rounds. -/
def LRUCache.evictLoop : Nat → LRUCache → Nat → LRUCache
  | 0, c, _ => c
  | fuel + 1, c, entry_size =>
    if uadd c.current_size_ entry_size > c.capacity_ && !c.lru_list_.isEmpty then
      LRUCache.evictLoop fuel (LRUCache.Evict c) entry_size
    else c

/-- The removal shared by `LRUCache::Put` and `LRUCache::Invalidate`:
`if (it != cache_map_.end()) { current_size_ -= it->second->size; lru_list_.erase(it->second); cache_map_.erase(it); }`. -/
def LRUCache.removeKey (c : LRUCache) (key : Bytes) : LRUCache :=
  match assocFind c.cache_map_ key with
  | none => c
  | some it =>
    { c with current_size_ := usub c.current_size_ (LRUCache.deref c.lru_list_ it).size,
             lru_list_ := LRUCache.listErase c.lru_list_ it,
             cache_map_ := assocErase c.cache_map_ key }

/-- `LRUCache::Put`.  Every round of the eviction loop unlinks one node, so
`lru_list_.length` rounds of fuel let the loop run to its end. -/
def LRUCache.Put (P : Platform) (c : LRUCache) (key value : Bytes) : LRUCache :=
  let entry_size := LRUCache.EstimateSize P key value
  let c1 := LRUCache.removeKey c key
  let c2 := LRUCache.evictLoop c1.lru_list_.length c1 entry_size
  let entry : CacheEntry := { key := key, value := value, size := entry_size }
  { c2 with lru_list_ := (c2.next_node_, entry) :: c2.lru_list_,
            cache_map_ := assocSet c2.cache_map_ key c2.next_node_,
            current_size_ := uadd c2.current_size_ entry_size,
            next_node_ := c2.next_node_ + 1 }

/-- `LRUCache::Invalidate`. -/
def LRUCache.Invalidate (c : LRUCache) (key : Bytes) : LRUCache := LRUCache.removeKey c key

/-- `LRUCache::Clear`. -/
def LRUCache.Clear (c : LRUCache) : LRUCache :=
  { c with lru_list_ := [], cache_map_ := [], current_size_ := 0 }

/-! ## BloomFilter (`bloom_filter.h`, `bloom_filter.cpp`) -/

/-- The class `BloomFilter`: the bit vector and the number of hash functions. -/
structure BloomFilter where
  bits_ : List Bool
  num_hashes_ : Nat
deriving DecidableEq

/-- The object that the constructor `BloomFilter(expected_elements, 0.01)` builds
when it returns: `bits_.resize(m, false)` with the `m` and the `num_hashes_`
that the floating-point sizing produces.  Whether the constructor returns is
told by `BloomFilter.newEnding`. -/
def BloomFilter.new (P : Platform) (expected_elements : Nat) : BloomFilter :=
  { bits_ := List.replicate (P.bloom_bits expected_elements) false,
    num_hashes_ := P.bloom_hashes expected_elements }

/-- The string literal `"salt"`. -/
def BloomFilter.salt : Bytes := [115, 97, 108, 116]

/-- `BloomFilter::Hash`: the values `h1 + i * h2` for `i < num_hashes_`, in `uint64_t`. -/
def BloomFilter.Hash (P : Platform) (f : BloomFilter) (key : Bytes) : List Nat :=
  let h1 := P.hash key % U64
  let h2 := P.hash (key ++ BloomFilter.salt) % U64
  (List.range f.num_hashes_).map (fun i => (h1 + i * h2) % U64)

/-- `BloomFilter::Size`. -/
def BloomFilter.Size (f : BloomFilter) : Nat := f.bits_.length

/-- `BloomFilter::NumHashes`. -/
def BloomFilter.NumHashes (f : BloomFilter) : Nat := f.num_hashes_

/-- `BloomFilter::Add`: `bits_[h % bits_.size()] = true` for every hash `h`. -/
def BloomFilter.Add (P : Platform) (f : BloomFilter) (key : Bytes) : BloomFilter :=
  (BloomFilter.Hash P f key).foldl
    (fun g h => { g with bits_ := g.bits_.set (h % g.bits_.length) true }) f

/-- `BloomFilter::MayContain`: whether `bits_[h % bits_.size()]` is set for every hash `h`. -/
def BloomFilter.MayContain (P : Platform) (f : BloomFilter) (key : Bytes) : Bool :=
  (BloomFilter.Hash P f key).all (fun h => f.bits_.getD (h % f.bits_.length) false)

/-- The `n` low-order bytes of `v`, least significant first: the object
representation of an `n`-byte unsigned integer on a little-endian machine. -/
def leBytes : Nat → Nat → Bytes
  | 0, _ => []
  | n + 1, v => ⟨v % 256, Nat.mod_lt v (by decide)⟩ :: leBytes n (v / 256)

/-- The unsigned integer whose little-endian object representation is given. -/
def leValue : Bytes → Nat
  | [] => 0
  | b :: bs => b.val + 256 * leValue bs

/-- The byte `data[offset + j]` that `BloomFilter::Serialize` builds: bit `i` is
set when `bits_[8 * j + i]` is. -/
def BloomFilter.packByte (bits : List Bool) (j : Nat) : Fin 256 :=
  ⟨((List.range 8).foldl (fun acc i => if bits.getD (8 * j + i) false then acc + 2 ^ i else acc) 0) % 256,
    Nat.mod_lt _ (by decide)⟩

/-- `BloomFilter::Serialize`: the size, the number of hashes, then the packed bits. -/
def BloomFilter.Serialize (f : BloomFilter) : Bytes :=
  leBytes 8 f.bits_.length ++ leBytes 8 f.num_hashes_ ++
    (List.range ((f.bits_.length + 7) / 8)).map (BloomFilter.packByte f.bits_)

/-- `BloomFilter::Deserialize`: `BloomFilter bf(1); return bf;`, the argument
unread; the filter returned when the constructor returns
(`BloomFilter.DeserializeEnding`). -/
def BloomFilter.Deserialize (P : Platform) (_data : Bytes) : BloomFilter :=
  BloomFilter.new P 1

/-! ## Files -/

/-- The files of the machine: path to content. -/
abbrev FileSystem := List (Bytes × Bytes)

/-- The content of the file at `path`, if there is one. -/
def FileSystem.read (fs : FileSystem) (path : Bytes) : Option Bytes := assocFind fs path

/-- Creates or replaces the file at `path`. -/
def FileSystem.write (fs : FileSystem) (path content : Bytes) : FileSystem :=
  assocSet fs path content

/-- Creates the file at `path`, empty, unless it exists. -/
def FileSystem.create (fs : FileSystem) (path : Bytes) : FileSystem :=
  match assocFind fs path with
  | some _ => fs
  | none => assocSet fs path []

/-- Appends to the file at `path`. -/
def FileSystem.append (fs : FileSystem) (path content : Bytes) : FileSystem :=
  assocSet fs path ((assocFind fs path).getD [] ++ content)

/-- Removes the file at `path`. -/
def FileSystem.remove (fs : FileSystem) (path : Bytes) : FileSystem := assocErase fs path

/-- The first `n` bytes of a stream and the rest, when `n` bytes are left to read. -/
def takeExact (n : Nat) (input : Bytes) : Option (Bytes × Bytes) :=
  if n ≤ input.length then some (input.take n, input.drop n) else none

/-! ## WAL (`wal.h`, `wal.cpp`) -/

/-- The struct `WALRecord`; `type` is the integer value of the `WALRecordType`. -/
structure WALRecord where
  type : Nat
  key : Bytes
  value : Bytes
  timestamp : Nat
  checksum : Nat
deriving DecidableEq

/-- `WALRecordType::PUT`. -/
def WALRecordType.PUT : Nat := 1

/-- `WALRecordType::DELETE`. -/
def WALRecordType.DELETE : Nat := 2

/-- The class `WAL`: the file name, the state of the output stream `file_`
(`is_open()`, `good()`) and the size counter. -/
structure WAL where
  filename_ : Bytes
  is_open_ : Bool
  good_ : Bool
  current_size_ : Nat
deriving DecidableEq

/-- The constructor `WAL(filename)`: opens the file for appending, creating it
when it is missing; `open_ok` tells whether the open succeeds. -/
def WAL.new (fs : FileSystem) (filename : Bytes) (open_ok : Bool) : WAL × FileSystem :=
  if open_ok then
    ({ filename_ := filename, is_open_ := true, good_ := true, current_size_ := 0 },
      FileSystem.create fs filename)
  else
    ({ filename_ := filename, is_open_ := false, good_ := false, current_size_ := 0 }, fs)

/-- The value of a `char` converted to `uint32_t`. -/
def WAL.charValue (P : Platform) (c : Fin 256) : Nat :=
  if P.char_signed && decide (128 ≤ c.val) then U32 - 256 + c.val else c.val

/-- `WAL::ComputeChecksum`: the sum, in `uint32_t`, of the key and value
characters, the type and the timestamp. -/
def WAL.ComputeChecksum (P : Platform) (record : WALRecord) : Nat :=
  let s1 := record.key.foldl (fun acc c => (acc + WAL.charValue P c) % U32) 0
  let s2 := record.value.foldl (fun acc c => (acc + WAL.charValue P c) % U32) s1
  let s3 := (s2 + record.type) % U32
  (s3 + record.timestamp) % U32

/-- `WAL::VerifyChecksum`. -/
def WAL.VerifyChecksum (P : Platform) (record : WALRecord) : Bool :=
  decide (record.checksum = WAL.ComputeChecksum P record)

/-- The bytes that `WAL::WriteRecord` hands to the stream. -/
def WAL.encode (record : WALRecord) : Bytes :=
  let key_len := record.key.length % U32
  let value_len := record.value.length % U32
  leBytes 1 record.type ++ leBytes 4 key_len ++ record.key.take key_len ++
    leBytes 4 value_len ++ record.value.take value_len ++
    leBytes 8 record.timestamp ++ leBytes 4 record.checksum

/-- `WAL::WriteRecord`.  The file content of the model is what the stream
`file_` was given, the bytes that it still holds in its buffer included; what
of it has reached the disk is told by `WAL.onDisk`.  `write_ok` tells whether
the stream is still good after the writes of the call.  A stream that is not
good ignores writes and stays not good; a write that leaves the stream not
good adds nothing to the file. -/
def WAL.WriteRecord (w : WAL) (fs : FileSystem) (record : WALRecord) (write_ok : Bool) :
    (WAL × FileSystem) × Bool :=
  let key_len := record.key.length % U32
  let value_len := record.value.length % U32
  let size := uadd w.current_size_ ((1 + 4 + key_len + 4 + value_len + 8 + 4) % U64)
  if w.is_open_ && w.good_ && write_ok then
    (({ w with current_size_ := size }, FileSystem.append fs w.filename_ (WAL.encode record)), true)
  else
    (({ w with good_ := false, current_size_ := size }, fs), false)

/-- `WAL::Append`; `now` is the clock reading in milliseconds. -/
def WAL.Append (P : Platform) (w : WAL) (fs : FileSystem) (type : Nat) (key value : Bytes)
    (now : Nat) (write_ok : Bool) : (WAL × FileSystem) × Bool :=
  let record0 : WALRecord :=
    { type := type, key := key, value := value, timestamp := now % U64, checksum := 0 }
  let record := { record0 with checksum := WAL.ComputeChecksum P record0 }
  WAL.WriteRecord w fs record write_ok

/-- `WAL::ReadRecord` on the unread rest of the input stream: the record and the
rest after it when the stream is still good after the last read, `none` when
the function returns `false`. -/
def WAL.ReadRecord (input : Bytes) : Option (WALRecord × Bytes) :=
  match takeExact 1 input with
  | none => none
  | some (type, r1) =>
  match takeExact 4 r1 with
  | none => none
  | some (key_len, r2) =>
  match takeExact (leValue key_len) r2 with
  | none => none
  | some (key, r3) =>
  match takeExact 4 r3 with
  | none => none
  | some (value_len, r4) =>
  match takeExact (leValue value_len) r4 with
  | none => none
  | some (value, r5) =>
  match takeExact 8 r5 with
  | none => none
  | some (timestamp, r6) =>
  match takeExact 4 r6 with
  | none => none
  | some (checksum, r7) =>
    some ({ type := leValue type, key := key, value := value,
            timestamp := leValue timestamp, checksum := leValue checksum }, r7)

/-- The loop of `WAL::ReadAll`, run for at most `fuel` records. -/
def WAL.readLoop (P : Platform) : Nat → Bytes → List WALRecord
  | 0, _ => []
  | fuel + 1, input =>
    match WAL.ReadRecord input with
    | none => []
    | some (record, rest) =>
      if WAL.VerifyChecksum P record then record :: WAL.readLoop P fuel rest
      else WAL.readLoop P fuel rest

/-- `WAL::ReadAll` on the file as the reader finds it (`fs` is the disk).  A
record takes at least 21 bytes, so as many rounds as the file has bytes read
the file to its end. -/
def WAL.ReadAll (P : Platform) (w : WAL) (fs : FileSystem) : List WALRecord :=
  match FileSystem.read fs w.filename_ with
  | none => []
  | some content => WAL.readLoop P content.length content

/-- `WAL::Clear`: closes the stream and opens the file again, truncating it;
`open_ok` tells whether the open succeeds. -/
def WAL.Clear (w : WAL) (fs : FileSystem) (open_ok : Bool) : WAL × FileSystem :=
  if open_ok then
    ({ w with is_open_ := true, good_ := true, current_size_ := 0 },
      FileSystem.write fs w.filename_ [])
  else
    ({ w with is_open_ := false, good_ := false, current_size_ := 0 }, fs)

/-- `WAL::Size`. -/
def WAL.Size (w : WAL) : Nat := w.current_size_

/-! ## SSTable (`sstable.h`, `sstable.cpp`) -/

/-- The struct `SSTableEntry`. -/
structure SSTableEntry where
  key : Bytes
  value : Bytes
  is_deleted : Bool
  timestamp : Nat
deriving DecidableEq

/-- The struct `SSTableIndex`. -/
structure SSTableIndex where
  key : Bytes
  offset : Nat
  size : Nat
deriving DecidableEq

/-- What the environment decides during one call of a `KVStore` member. -/
structure Env where
  /-- The readings of `std::chrono::system_clock::now()` during the call, in
  milliseconds, in the order they are taken. -/
  clock : Nat → Nat
  /-- Whether the device takes the write of the WAL record appended at this rank in the call. -/
  write_ok : Nat → Bool
  /-- Whether opening the file at a path for writing succeeds. -/
  open_ok : Bytes → Bool
  /-- The content of memory that the code reads without having written it. -/
  junk : SSTableEntry

/-- A default-initialised `SSTableEntry entry;`: empty strings, the two scalar
members not initialised. -/
def SSTableEntry.uninit (junk : SSTableEntry) : SSTableEntry :=
  { key := [], value := [], is_deleted := junk.is_deleted, timestamp := junk.timestamp }

/-- The class `SSTable`; `file_` is the content of the file behind the input
stream, `none` when the file could not be opened. -/
structure SSTable where
  filename_ : Bytes
  file_ : Option Bytes
  index_ : List SSTableIndex
  bloom_filter_ : Option BloomFilter
  first_key_ : Bytes
  last_key_ : Bytes
  file_size_ : Nat
  num_entries_ : Nat
  creation_time_ : Nat
  compression_enabled_ : Bool
deriving DecidableEq

/-- `SSTable::LoadIndex`: `return true;`, nothing is loaded. -/
def SSTable.LoadIndex (t : SSTable) : SSTable × Bool := (t, true)

/-- `SSTable::LoadBloomFilter`: `return true;`, nothing is loaded. -/
def SSTable.LoadBloomFilter (t : SSTable) : SSTable × Bool := (t, true)

/-- The constructor `SSTable(filename)`. -/
def SSTable.new (fs : FileSystem) (filename : Bytes) : SSTable :=
  let t : SSTable :=
    { filename_ := filename, file_ := FileSystem.read fs filename, index_ := [],
      bloom_filter_ := none, first_key_ := [], last_key_ := [], file_size_ := 0,
      num_entries_ := 0, creation_time_ := 0, compression_enabled_ := false }
  if t.file_.isSome then (SSTable.LoadBloomFilter (SSTable.LoadIndex t).1).1 else t

/-- `SSTable::MayContain`. -/
def SSTable.MayContain (P : Platform) (t : SSTable) (key : Bytes) : Bool :=
  if bytesLt key t.first_key_ || bytesGt key t.last_key_ then false
  else match t.bloom_filter_ with
    | some bf => BloomFilter.MayContain P bf key
    | none => true

/-- The conversion of a `size_t` value to `int`. -/
def toInt32 (n : Nat) : Int :=
  if n % U32 < 2 ^ 31 then ((n % U32 : Nat) : Int) else ((n % U32 : Nat) : Int) - (U32 : Int)

/-- The loop of `SSTable::BinarySearch`, run for at most `fuel` rounds. -/
def SSTable.searchLoop (index : List SSTableIndex) (key : Bytes) : Nat → Int → Int → Bool
  | 0, _, _ => false
  | fuel + 1, left, right =>
    if left ≤ right then
      let mid := left + (right - left) / 2
      match index.get? mid.toNat with
      | none => false
      | some idx =>
        if idx.key = key then true
        else if bytesLt idx.key key then SSTable.searchLoop index key fuel (mid + 1) right
        else SSTable.searchLoop index key fuel left (mid - 1)
    else false

/-- `SSTable::BinarySearch`: whether the index holds the key.  The function
seeks to the record and returns without reading it: `entry` stays as the
caller passed it. -/
def SSTable.BinarySearch (t : SSTable) (key : Bytes) : Bool :=
  SSTable.searchLoop t.index_ key (t.index_.length + 1) 0 (toInt32 (usub t.index_.length 1))

/-- `SSTable::Get`; `junk` is the content of the uninitialised `entry`. -/
def SSTable.Get (P : Platform) (t : SSTable) (key : Bytes) (junk : SSTableEntry) : Option Bytes :=
  if !SSTable.MayContain P t key then none
  else
    let entry := SSTableEntry.uninit junk
    if SSTable.BinarySearch t key && !entry.is_deleted then some entry.value else none

/-- One framed data record at the head of the input:
`u32 key_len | key | u32 value_len | value | u8 deleted | u64 timestamp`. -/
def SSTable.decodeEntry (input : Bytes) : Option (SSTableEntry × Bytes) :=
  match takeExact 4 input with
  | none => none
  | some (key_len, r1) =>
  match takeExact (leValue key_len) r1 with
  | none => none
  | some (key, r2) =>
  match takeExact 4 r2 with
  | none => none
  | some (value_len, r3) =>
  match takeExact (leValue value_len) r3 with
  | none => none
  | some (value, r4) =>
  match takeExact 1 r4 with
  | none => none
  | some (deleted, r5) =>
  match takeExact 8 r5 with
  | none => none
  | some (timestamp, r6) =>
    some ({ key := key, value := value, is_deleted := decide (leValue deleted ≠ 0),
            timestamp := leValue timestamp }, r6)

/-- The reads of `SSTable::Scan` after `file_.seekg(offset)`.  When the stream
is not open or ends before the record does, the variables read keep an
indeterminate content, given by `junk`.  The model is exact where the reads
succeed; after a failed read the stream of the source stays failed for the
reads that follow. -/
def SSTable.readEntry (file : Option Bytes) (offset : Nat) (junk : SSTableEntry) : SSTableEntry :=
  match file with
  | none => junk
  | some content =>
    match SSTable.decodeEntry (content.drop offset) with
    | some (entry, _) => entry
    | none => junk

/-- The loop of `SSTable::Scan` over the index. -/
def SSTable.scanLoop (file : Option Bytes) (junk : SSTableEntry) (start_key end_key : Bytes)
    (limit : Nat) : List SSTableIndex → List SSTableEntry → List SSTableEntry
  | [], results => results
  | idx :: rest, results =>
    if bytesLt idx.key start_key then SSTable.scanLoop file junk start_key end_key limit rest results
    else if bytesGt idx.key end_key then results
    else if limit ≤ results.length then results
    else SSTable.scanLoop file junk start_key end_key limit rest
      (results ++ [SSTable.readEntry file idx.offset junk])

/-- `SSTable::Scan`. -/
def SSTable.Scan (t : SSTable) (start_key end_key : Bytes) (limit : Nat) (junk : SSTableEntry) :
    List SSTableEntry :=
  SSTable.scanLoop t.file_ junk start_key end_key limit t.index_ []

/-- `SSTable::WriteHeader`: magic, number of entries, flags. -/
def SSTable.WriteHeader (num_entries : Nat) (compression bloom_filter : Bool) : Bytes :=
  leBytes 4 0x53535401 ++ leBytes 8 num_entries ++
    leBytes 1 ((if compression then 1 else 0) + (if bloom_filter then 2 else 0))

/-- The bytes of one data record written by `SSTable::Create`. -/
def SSTable.encodeEntry (entry : SSTableEntry) : Bytes :=
  let key_len := entry.key.length % U32
  let value_len := entry.value.length % U32
  leBytes 4 key_len ++ entry.key.take key_len ++ leBytes 4 value_len ++
    entry.value.take value_len ++ leBytes 1 (if entry.is_deleted then 1 else 0) ++
    leBytes 8 entry.timestamp

/-- The `idx.size` that `SSTable::Create` computes for an entry. -/
def SSTable.entrySize (entry : SSTableEntry) : Nat :=
  (4 + entry.key.length % U32 + 4 + entry.value.length % U32 + 1 + 8) % U32

/-- The index that `SSTable::Create` builds: `current_offset` starts at zero and
grows by the size of every record. -/
def SSTable.buildIndex : List SSTableEntry → Nat → List SSTableIndex
  | [], _ => []
  | entry :: rest, current_offset =>
    { key := entry.key, offset := current_offset, size := SSTable.entrySize entry } ::
      SSTable.buildIndex rest (uadd current_offset (SSTable.entrySize entry))

/-- `SSTable::WriteIndex`. -/
def SSTable.WriteIndex (index : List SSTableIndex) : Bytes :=
  leBytes 4 (index.length % U32) ++
    (index.map (fun idx => leBytes 4 (idx.key.length % U32) ++ idx.key.take (idx.key.length % U32) ++
      leBytes 8 idx.offset ++ leBytes 4 idx.size)).flatten

/-- The bloom block that `SSTable::Create` writes when the filter constructor
returns. -/
def SSTable.bloomBlock (P : Platform) (entries : List SSTableEntry) : Bytes :=
  let bf := entries.foldl (fun f entry => BloomFilter.Add P f entry.key) (BloomFilter.new P entries.length)
  let bf_data := BloomFilter.Serialize bf
  leBytes 4 (bf_data.length % U32) ++ bf_data.take (bf_data.length % U32)

/-- The content of the file that `SSTable::Create` writes. -/
def SSTable.fileContent (P : Platform) (entries : List SSTableEntry)
    (use_compression use_bloom_filter : Bool) : Bytes :=
  SSTable.WriteHeader entries.length use_compression use_bloom_filter ++
    (entries.map SSTable.encodeEntry).flatten ++
    SSTable.WriteIndex (SSTable.buildIndex entries 0) ++
    (if use_bloom_filter then SSTable.bloomBlock P entries else [])

/-- `SSTable::Create` as it runs when it returns; `open_ok` tells whether the
output file opens.  With `use_bloom_filter` the call returns only when the
filter constructor does: how it ends is told by `SSTable.CreateEnding`. -/
def SSTable.Create (P : Platform) (fs : FileSystem) (filename : Bytes) (entries : List SSTableEntry)
    (use_compression use_bloom_filter : Bool) (open_ok : Bool) : FileSystem × Bool :=
  if !open_ok then (fs, false)
  else (FileSystem.write fs filename
    (SSTable.fileContent P entries use_compression use_bloom_filter), true)

/-! ## Compaction (`compaction.h`, `compaction.cpp`) -/

/-- The merge of `Compaction::CompactSSTables`: an entry replaces the one held for
its key when its timestamp is greater. -/
def Compaction.mergeEntry (merged : StdMap SSTableEntry) (entry : SSTableEntry) :
    StdMap SSTableEntry :=
  match StdMap.find merged entry.key with
  | none => StdMap.assign merged entry.key entry
  | some old =>
    if entry.timestamp > old.timestamp then StdMap.assign merged entry.key entry else merged

/-- The entries that `Compaction::CompactSSTables` hands to `SSTable::Create`,
given the tables it opened. -/
def Compaction.outputEntries (tables : List SSTable) (junk : SSTableEntry) : List SSTableEntry :=
  let merged := tables.foldl
    (fun m t => (SSTable.Scan t [] [126] (U64 - 1) junk).foldl Compaction.mergeEntry m) []
  (merged.map Prod.snd).filter (fun entry => !entry.is_deleted)

/-- `Compaction::CompactSSTables` as it runs when it returns; how it ends is told
by `Compaction.CompactSSTablesEnding`. -/
def Compaction.CompactSSTables (P : Platform) (fs : FileSystem) (env : Env)
    (input_files : List Bytes) (output_file : Bytes) (compression : Bool) : FileSystem × Bool :=
  let tables := input_files.map (SSTable.new fs)
  SSTable.Create P fs output_file (Compaction.outputEntries tables env.junk) compression true
    (env.open_ok output_file)

/-- `Compaction::SelectFilesForCompaction`: the statement that would add a file
name is commented out in the source, so that `files` is returned empty. -/
def Compaction.SelectFilesForCompaction (sstables : List SSTable) (threshold : Nat) : List Bytes :=
  if sstables.length < threshold then []
  else (List.range (min threshold sstables.length)).foldl (fun files _ => files) []

/-! ## KVStore (`kvstore.h`, `kvstore.cpp`) -/

/-- The struct `Config`. -/
structure Config where
  data_dir : Bytes
  memtable_size_mb : Nat
  compaction_threshold : Nat
  cache_size_mb : Nat
  enable_compression : Bool
  enable_bloom_filter : Bool
deriving DecidableEq

/-- The class `KVStore`, with the file system it runs on (`fs_`) carried along. -/
structure KVStore where
  config_ : Config
  memtable_ : MemTable
  immutable_memtable_ : Option MemTable
  sstables_ : List SSTable
  wal_ : WAL
  cache_ : LRUCache
  should_flush_ : Bool
  next_sstable_id_ : Nat
  fs_ : FileSystem
deriving DecidableEq

/-- The decimal digits of `n`, most significant first, at most `fuel + 1` of them. -/
def decimalDigits : Nat → Nat → Bytes → Bytes
  | 0, n, acc => ⟨(48 + n % 10) % 256, Nat.mod_lt _ (by decide)⟩ :: acc
  | fuel + 1, n, acc =>
    if n / 10 = 0 then ⟨(48 + n % 10) % 256, Nat.mod_lt _ (by decide)⟩ :: acc
    else decimalDigits fuel (n / 10) (⟨(48 + n % 10) % 256, Nat.mod_lt _ (by decide)⟩ :: acc)

/-- `std::to_string` of a `size_t` (at most twenty digits). -/
def to_string (n : Nat) : Bytes := decimalDigits 19 n []

/-- `KVStore::GetSSTablePath`: `data_dir + "/" + std::to_string(id) + ".sst"`. -/
def KVStore.GetSSTablePath (config : Config) (id : Nat) : Bytes :=
  config.data_dir ++ [47] ++ to_string id ++ [46, 115, 115, 116]

/-- The path `data_dir + "/wal.log"`. -/
def KVStore.walPath (config : Config) : Bytes :=
  config.data_dir ++ [47, 119, 97, 108, 46, 108, 111, 103]

/-- The paths that `fs::directory_iterator(dir)` yields: `dir`, a slash and a
file name. -/
def listDirectory (fs : FileSystem) (dir : Bytes) : List Bytes :=
  (fs.map Prod.fst).filter (fun p =>
    (dir ++ [47]).isPrefixOf p && decide (dir.length + 1 < p.length) &&
      !(p.drop (dir.length + 1)).contains 47)

/-- `fs::path(p).filename().string()`: what follows the last slash. -/
def pathFilename (p : Bytes) : Bytes :=
  (p.reverse.takeWhile (fun c => c ≠ 47)).reverse

/-- `path.extension() == ".sst"`: the file name ends in `.sst` and is longer than that. -/
def hasSstExtension (p : Bytes) : Bool :=
  let name := pathFilename p
  decide (4 < name.length) && decide (name.drop (name.length - 4) = [46, 115, 115, 116])

/-- Insertion of a string into an ascending list of strings. -/
def sortedInsert (x : Bytes) : List Bytes → List Bytes
  | [] => [x]
  | y :: ys => if bytesLt y x then y :: sortedInsert x ys else x :: y :: ys

/-- `std::sort` on a vector of strings. -/
def sortStrings (l : List Bytes) : List Bytes := l.foldr sortedInsert []

/-- `std::stoull(s)`: leading white space, an optional sign, decimal digits;
`none` when the function throws (no digit, or a value out of range). -/
def stoull (s : Bytes) : Option Nat :=
  let s1 := s.dropWhile (fun c => c = 32 || (9 ≤ c.val && c.val ≤ 13))
  let negative := s1.head? = some 45
  let s2 := if s1.head? = some 43 || s1.head? = some 45 then s1.drop 1 else s1
  let digits := s2.takeWhile (fun c => 48 ≤ c.val && c.val ≤ 57)
  let v := digits.foldl (fun acc d => acc * 10 + (d.val - 48)) 0
  if digits.isEmpty then none
  else if U64 ≤ v then none
  else some (if negative then usub 0 v else v)

/-- The loop of `KVStore::LoadSSTables` over the sorted file names; `none` when
`std::stoull` throws. -/
def KVStore.loadLoop (fs : FileSystem) :
    List Bytes → List SSTable → Nat → Option (List SSTable × Nat)
  | [], sstables, next_id => some (sstables, next_id)
  | file :: rest, sstables, next_id =>
    let filename := pathFilename file
    match stoull (filename.takeWhile (fun c => c ≠ 46)) with
    | none => none
    | some id =>
      KVStore.loadLoop fs rest (sstables ++ [SSTable.new fs file]) (max next_id (uadd id 1))

/-- `KVStore::LoadSSTables`: the tables and the next id; `none` when it throws. -/
def KVStore.LoadSSTables (config : Config) (fs : FileSystem) (next_id : Nat) :
    Option (List SSTable × Nat) :=
  KVStore.loadLoop fs (sortStrings ((listDirectory fs config.data_dir).filter hasSstExtension))
    [] next_id

/-- The loop of `KVStore::RecoverFromWAL`; the record of rank `i` takes the clock
reading of rank `i`. -/
def KVStore.recoverLoop (P : Platform) (clock : Nat → Nat) :
    List WALRecord → Nat → MemTable → MemTable
  | [], _, memtable => memtable
  | record :: rest, i, memtable =>
    if record.type = WALRecordType.PUT then
      KVStore.recoverLoop P clock rest (i + 1) (MemTable.Put P memtable record.key record.value (clock i))
    else if record.type = WALRecordType.DELETE then
      KVStore.recoverLoop P clock rest (i + 1) (MemTable.Delete P memtable record.key (clock i))
    else KVStore.recoverLoop P clock rest (i + 1) memtable

/-- `KVStore::RecoverFromWAL`. -/
def KVStore.RecoverFromWAL (P : Platform) (wal : WAL) (fs : FileSystem) (memtable : MemTable)
    (env : Env) : MemTable :=
  KVStore.recoverLoop P env.clock (WAL.ReadAll P wal fs) 0 memtable

/-- The constructor `KVStore(config)` on the file system `fs`; `none` when
`LoadSSTables` throws. -/
def KVStore.new (P : Platform) (config : Config) (fs : FileSystem) (env : Env) : Option KVStore :=
  let (wal, fs1) := WAL.new fs (KVStore.walPath config) (env.open_ok (KVStore.walPath config))
  let cache := LRUCache.new ((config.cache_size_mb * 1024 * 1024) % U64)
  match KVStore.LoadSSTables config fs1 0 with
  | none => none
  | some (sstables, next_id) =>
    some { config_ := config,
           memtable_ := KVStore.RecoverFromWAL P wal fs1 MemTable.new env,
           immutable_memtable_ := none,
           sstables_ := sstables,
           wal_ := wal,
           cache_ := cache,
           should_flush_ := false,
           next_sstable_id_ := next_id,
           fs_ := fs1 }

/-- `KVStore::MaybeCompact`.  The predicate of `std::remove_if` returns `true`
at the first file of a non-empty selection, whatever the table. -/
def KVStore.MaybeCompact (P : Platform) (s : KVStore) (env : Env) : KVStore :=
  if s.sstables_.length < s.config_.compaction_threshold then s
  else
    let files_to_compact :=
      Compaction.SelectFilesForCompaction s.sstables_ s.config_.compaction_threshold
    if files_to_compact.isEmpty then s
    else
      let output_file := KVStore.GetSSTablePath s.config_ s.next_sstable_id_
      let s1 := { s with next_sstable_id_ := uadd s.next_sstable_id_ 1 }
      match Compaction.CompactSSTables P s1.fs_ env files_to_compact output_file
          s1.config_.enable_compression with
      | (fs1, true) =>
        let kept := s1.sstables_.filter (fun _ => files_to_compact.isEmpty)
        { s1 with sstables_ := kept ++ [SSTable.new fs1 output_file],
                  fs_ := files_to_compact.foldl FileSystem.remove fs1 }
      | (fs1, false) => { s1 with fs_ := fs1 }

/-- `KVStore::Compact`. -/
def KVStore.Compact (P : Platform) (s : KVStore) (env : Env) : KVStore := KVStore.MaybeCompact P s env

/-- The entries that `KVStore::FlushMemTable` builds from the immutable memtable. -/
def KVStore.flushEntries (m : MemTable) : List SSTableEntry :=
  (MemTable.entries m).map (fun kv =>
    { key := kv.1, value := kv.2.value, is_deleted := kv.2.is_deleted,
      timestamp := kv.2.timestamp % U64 })

/-- `KVStore::FlushMemTable` as it runs when `SSTable::Create` returns; how it
ends is told by `KVStore.FlushMemTableEnding`. -/
def KVStore.FlushMemTable (P : Platform) (s : KVStore) (env : Env) : KVStore :=
  if MemTable.IsEmpty s.memtable_ then s
  else
    let immutable := s.memtable_
    let (wal1, fs1) := WAL.Clear s.wal_ s.fs_ (env.open_ok s.wal_.filename_)
    let entries := KVStore.flushEntries immutable
    let filename := KVStore.GetSSTablePath s.config_ s.next_sstable_id_
    let (fs2, created) := SSTable.Create P fs1 filename entries s.config_.enable_compression
      s.config_.enable_bloom_filter (env.open_ok filename)
    let s1 : KVStore :=
      { s with memtable_ := MemTable.new,
               immutable_memtable_ := none,
               wal_ := wal1,
               next_sstable_id_ := uadd s.next_sstable_id_ 1,
               sstables_ := if created then s.sstables_ ++ [SSTable.new fs2 filename] else s.sstables_,
               fs_ := fs2 }
    KVStore.MaybeCompact P s1 env

/-- `KVStore::Put` as it runs when it returns (`KVStore.PutEnding` tells how it
ends): the WAL takes clock reading 0, the memtable clock reading 1. -/
def KVStore.Put (P : Platform) (s : KVStore) (key value : Bytes) (env : Env) : KVStore × Bool :=
  match WAL.Append P s.wal_ s.fs_ WALRecordType.PUT key value (env.clock 0) (env.write_ok 0) with
  | ((wal1, fs1), false) => ({ s with wal_ := wal1, fs_ := fs1 }, false)
  | ((wal1, fs1), true) =>
    let s1 : KVStore :=
      { s with wal_ := wal1, fs_ := fs1,
               memtable_ := MemTable.Put P s.memtable_ key value (env.clock 1),
               cache_ := LRUCache.Invalidate s.cache_ key }
    let memtable_size := MemTable.SizeBytes s1.memtable_
    let threshold := (s1.config_.memtable_size_mb * 1024 * 1024) % U64
    if threshold ≤ memtable_size then
      (KVStore.FlushMemTable P { s1 with should_flush_ := true } env, true)
    else (s1, true)

/-- The visit of the SSTables in `KVStore::Get`, newest first:
`(*it)->MayContain(key) && (*it)->Get(key, value)`. -/
def KVStore.searchTables (P : Platform) (junk : SSTableEntry) (key : Bytes) :
    List SSTable → Option Bytes
  | [] => none
  | t :: rest =>
    match (if SSTable.MayContain P t key then SSTable.Get P t key junk else none) with
    | some v => some v
    | none => KVStore.searchTables P junk key rest

/-- `KVStore::Get`. -/
def KVStore.Get (P : Platform) (s : KVStore) (key : Bytes) (env : Env) : KVStore × Option Bytes :=
  match LRUCache.Get s.cache_ key with
  | (c1, some v) => ({ s with cache_ := c1 }, some v)
  | (c1, none) =>
    match MemTable.Get s.memtable_ key with
    | some v => ({ s with cache_ := LRUCache.Put P c1 key v }, some v)
    | none =>
      match s.immutable_memtable_.bind (fun m => MemTable.Get m key) with
      | some v => ({ s with cache_ := LRUCache.Put P c1 key v }, some v)
      | none =>
        match KVStore.searchTables P env.junk key s.sstables_.reverse with
        | some v => ({ s with cache_ := LRUCache.Put P c1 key v }, some v)
        | none => ({ s with cache_ := c1 }, none)

/-- `KVStore::Delete`. -/
def KVStore.Delete (P : Platform) (s : KVStore) (key : Bytes) (env : Env) : KVStore × Bool :=
  match WAL.Append P s.wal_ s.fs_ WALRecordType.DELETE key [] (env.clock 0) (env.write_ok 0) with
  | ((wal1, fs1), false) => ({ s with wal_ := wal1, fs_ := fs1 }, false)
  | ((wal1, fs1), true) =>
    ({ s with wal_ := wal1, fs_ := fs1,
              memtable_ := MemTable.Delete P s.memtable_ key (env.clock 1),
              cache_ := LRUCache.Invalidate s.cache_ key }, true)

/-- The loop of `KVStore::PutBatch`; the entry of rank `i` takes the clock
readings `2 i` and `2 i + 1` and the write of rank `i`.  The flag is `false`
when an append failed and the function returned there. -/
def KVStore.batchLoop (P : Platform) (env : Env) :
    List (Bytes × Bytes) → Nat → KVStore → KVStore × Bool
  | [], _, s => (s, true)
  | (key, value) :: rest, i, s =>
    match WAL.Append P s.wal_ s.fs_ WALRecordType.PUT key value (env.clock (2 * i))
        (env.write_ok i) with
    | ((wal1, fs1), false) => ({ s with wal_ := wal1, fs_ := fs1 }, false)
    | ((wal1, fs1), true) =>
      KVStore.batchLoop P env rest (i + 1)
        { s with wal_ := wal1, fs_ := fs1,
                 memtable_ := MemTable.Put P s.memtable_ key value (env.clock (2 * i + 1)),
                 cache_ := LRUCache.Invalidate s.cache_ key }

/-- `KVStore::PutBatch` as it runs when it returns (`KVStore.PutBatchEnding` tells
how it ends). -/
def KVStore.PutBatch (P : Platform) (s : KVStore) (entries : List (Bytes × Bytes)) (env : Env) :
    KVStore × Bool :=
  match KVStore.batchLoop P env entries 0 s with
  | (s1, false) => (s1, false)
  | (s1, true) =>
    let memtable_size := MemTable.SizeBytes s1.memtable_
    let threshold := (s1.config_.memtable_size_mb * 1024 * 1024) % U64
    if threshold ≤ memtable_size then (KVStore.FlushMemTable P s1 env, true) else (s1, true)

/-- The first part of `KVStore::Scan`: the live entries that the scans of the
tables return, merged in the order of `sstables_`. -/
def KVStore.scanTables (junk : SSTableEntry) (start_key end_key : Bytes) (limit : Nat)
    (sstables : List SSTable) : StdMap Bytes :=
  sstables.foldl (fun merged sstable =>
    (SSTable.Scan sstable start_key end_key limit junk).foldl (fun m entry =>
      if !entry.is_deleted then StdMap.assign m entry.key entry.value else m) merged) []

/-- The second part of `KVStore::Scan`: the memtable entries of the range
override the merged map, a tombstone erasing its key. -/
def KVStore.scanMemtable (start_key end_key : Bytes) (m : MemTable) (merged : StdMap Bytes) :
    StdMap Bytes :=
  (MemTable.entries m).foldl (fun merged kv =>
    if bytesGe kv.1 start_key && bytesLe kv.1 end_key then
      if !kv.2.is_deleted then StdMap.assign merged kv.1 kv.2.value
      else StdMap.erase merged kv.1
    else merged) merged

/-- `KVStore::Scan`. -/
def KVStore.Scan (s : KVStore) (start_key end_key : Bytes) (limit : Nat) (env : Env) :
    List (Bytes × Bytes) :=
  let merged := KVStore.scanTables env.junk start_key end_key limit s.sstables_
  (KVStore.scanMemtable start_key end_key s.memtable_ merged).take limit

/-- `KVStore::Flush` as it runs when it returns (`KVStore.FlushEnding` tells how
it ends). -/
def KVStore.Flush (P : Platform) (s : KVStore) (env : Env) : KVStore :=
  if !MemTable.IsEmpty s.memtable_ then KVStore.FlushMemTable P s env else s

/-- The destructor `~KVStore()`: `Flush()`; what is left behind is the file system. -/
def KVStore.close (P : Platform) (s : KVStore) (env : Env) : FileSystem :=
  (KVStore.Flush P s env).fs_

/-! ## Runs of the store, and what the claims speak of -/

/-- The stores that the public interface produces by calls that return: the
result of the constructor and of every member call on such a store. -/
inductive KVStore.Reachable (P : Platform) : KVStore → Prop
  | init (config : Config) (fs : FileSystem) (env : Env) (s : KVStore) :
      KVStore.new P config fs env = some s → KVStore.Reachable P s
  | put (s : KVStore) (key value : Bytes) (env : Env) :
      KVStore.Reachable P s → KVStore.Reachable P (KVStore.Put P s key value env).1
  | get (s : KVStore) (key : Bytes) (env : Env) :
      KVStore.Reachable P s → KVStore.Reachable P (KVStore.Get P s key env).1
  | delete (s : KVStore) (key : Bytes) (env : Env) :
      KVStore.Reachable P s → KVStore.Reachable P (KVStore.Delete P s key env).1
  | putBatch (s : KVStore) (entries : List (Bytes × Bytes)) (env : Env) :
      KVStore.Reachable P s → KVStore.Reachable P (KVStore.PutBatch P s entries env).1
  | flush (s : KVStore) (env : Env) :
      KVStore.Reachable P s → KVStore.Reachable P (KVStore.Flush P s env)
  | compact (s : KVStore) (env : Env) :
      KVStore.Reachable P s → KVStore.Reachable P (KVStore.Compact P s env)

/-- What holds of every reachable store: no immutable memtable is left behind,
and no table has an index. -/
def KVStore.Inv (s : KVStore) : Prop :=
  s.immutable_memtable_ = none ∧ ∀ t ∈ s.sstables_, t.index_ = []

/-- A number of `Get(key)` calls in a row, one per environment. -/
def KVStore.getMany (P : Platform) (s : KVStore) (key : Bytes) : List Env → KVStore
  | [] => s
  | env :: rest => KVStore.getMany P (KVStore.Get P s key env).1 key rest

/-- A platform for the examples: 48-byte `Entry`, 72-byte `CacheEntry`, signed
`char`, and for `BloomFilter(n, 0.01)` the sizing that the formula of the
specification gives at that rate: `9.585 n` bits, rounded down, and 7 hash
functions, in a vector that takes every size.  What the constructor of the
source computes on x86-64 is in `x86Platform`. -/
def examplePlatform : Platform :=
  { hash := fun k => k.foldl (fun acc c => acc * 31 + c.val) 7,
    bloom_bits := fun n => n * 9585 / 1000,
    bloom_hashes := fun _ => 7,
    sizeof_Entry := 48,
    sizeof_CacheEntry := 72,
    char_signed := true,
    vector_resize_ok := fun _ => true }

/-- An environment for the examples: every write and open succeeds. -/
def exampleEnv : Env :=
  { clock := fun i => 1000 + i,
    write_ok := fun _ => true,
    open_ok := fun _ => true,
    junk := { key := [], value := [], is_deleted := false, timestamp := 0 } }

/-- The `Config` of `kvstore.h` (data directory `./data`) with the bloom filter
switched off, `enable_bloom_filter = false`; the header has `true`, which is
`headerConfig`. -/
def defaultConfig : Config :=
  { data_dir := [46, 47, 100, 97, 116, 97],
    memtable_size_mb := 64,
    compaction_threshold := 4,
    cache_size_mb := 128,
    enable_compression := true,
    enable_bloom_filter := false }

/-- `defaultConfig` with `memtable_size_mb = 0`: every `Put` reaches the threshold. -/
def zeroThresholdConfig : Config := { defaultConfig with memtable_size_mb := 0 }

/-- The store that the constructor builds in an empty file system under
`defaultConfig`: it has created an empty `./data/wal.log`. -/
def freshStore : KVStore :=
  { config_ := defaultConfig,
    memtable_ := MemTable.new,
    immutable_memtable_ := none,
    sstables_ := [],
    wal_ := { filename_ := KVStore.walPath defaultConfig, is_open_ := true, good_ := true,
              current_size_ := 0 },
    cache_ := LRUCache.new (128 * 1024 * 1024),
    should_flush_ := false,
    next_sstable_id_ := 0,
    fs_ := [(KVStore.walPath defaultConfig, [])] }

/-- The store that the constructor builds in an empty file system under
`zeroThresholdConfig`. -/
def zeroThresholdStore : KVStore := { freshStore with config_ := zeroThresholdConfig }

/-- A record whose fields fit the widths of the log format. -/
def WALRecord.WellFormed (r : WALRecord) : Prop :=
  r.type < 256 ∧ r.key.length < U32 ∧ r.value.length < U32 ∧ r.timestamp < U64 ∧ r.checksum < U32

/-- The bytes of a log that holds the given records. -/
def WAL.encodeAll (rs : List WALRecord) : Bytes := (rs.map WAL.encode).flatten

/-- The content of the log file, empty when the file is missing. -/
def WAL.content (w : WAL) (fs : FileSystem) : Bytes := (FileSystem.read fs w.filename_).getD []

/-- Two memtables that answer every `Get` alike. -/
def MemTable.sameGets (m m2 : MemTable) : Prop := ∀ k, MemTable.Get m k = MemTable.Get m2 k

/-- A write call of the interface: `Put(key, value)` or `Delete(key)`. -/
inductive WriteOp
  | put (key value : Bytes)
  | delete (key : Bytes)
deriving DecidableEq

/-- The call of the member that a `WriteOp` names. -/
def KVStore.applyWrite (P : Platform) (s : KVStore) (op : WriteOp) (env : Env) : KVStore × Bool :=
  match op with
  | .put key value => KVStore.Put P s key value env
  | .delete key => KVStore.Delete P s key env

/-- A sequence of write calls, each in its environment. -/
def KVStore.runWrites (P : Platform) : KVStore → List (WriteOp × Env) → KVStore
  | s, [] => s
  | s, (op, env) :: rest => KVStore.runWrites P (KVStore.applyWrite P s op env).1 rest

/-- Whether `KVStore::Put` finds the memtable at or over the threshold after its
insertion, and so flushes. -/
def KVStore.putReachesThreshold (P : Platform) (s : KVStore) (key value : Bytes) (env : Env) :
    Bool :=
  decide ((s.config_.memtable_size_mb * 1024 * 1024) % U64 ≤
    MemTable.SizeBytes (MemTable.Put P s.memtable_ key value (env.clock 1)))

/-- Whether a write call flushes the memtable: only a `Put` that reaches the threshold does. -/
def KVStore.writeFlushes (P : Platform) (s : KVStore) (op : WriteOp) (env : Env) : Bool :=
  match op with
  | .put key value => KVStore.putReachesThreshold P s key value env
  | .delete _ => false

/-- Whether every call of the sequence returns `true` and none of them flushes. -/
def KVStore.quietWrites (P : Platform) : KVStore → List (WriteOp × Env) → Bool
  | _, [] => true
  | s, (op, env) :: rest =>
    (KVStore.applyWrite P s op env).2 && !KVStore.writeFlushes P s op env &&
      KVStore.quietWrites P (KVStore.applyWrite P s op env).1 rest

/-- Whether the key and the value of a write fit a 32-bit length prefix. -/
def WriteOp.fits : WriteOp → Bool
  | .put key value => decide (key.length < U32) && decide (value.length < U32)
  | .delete key => decide (key.length < U32)

/-- The paths of the `.sst` files of a directory, in directory order. -/
def sstFiles (fs : FileSystem) (dir : Bytes) : List Bytes :=
  (listDirectory fs dir).filter hasSstExtension

/-- The memtable that replaying a list of records builds (clock readings all zero). -/
def KVStore.replay (P : Platform) (rs : List WALRecord) : MemTable :=
  KVStore.recoverLoop P (fun _ => 0) rs 0 MemTable.new

/-- What the writes of a quiet run keep true: the log file holds the encodings of
`rs`, the memtable answers like the replay of `rs`, the cache is empty and the
`.sst` files of the directory are `files`. -/
structure KVStore.LogInv (P : Platform) (config : Config) (files : List Bytes) (s : KVStore)
    (rs : List WALRecord) : Prop where
  inv : KVStore.Inv s
  cfg : s.config_ = config
  path : s.wal_.filename_ = KVStore.walPath config
  content : WAL.content s.wal_ s.fs_ = WAL.encodeAll rs
  wf : ∀ r ∈ rs, WALRecord.WellFormed r
  gets : MemTable.sameGets s.memtable_ (KVStore.replay P (rs.filter (WAL.VerifyChecksum P)))
  cache : s.cache_.cache_map_ = []
  sst : sstFiles s.fs_ config.data_dir = files

/-- The record that `WAL::Append` writes. -/
def WAL.recordOf (P : Platform) (type : Nat) (key value : Bytes) (now : Nat) : WALRecord :=
  { type := type, key := key, value := value, timestamp := now % U64,
    checksum := WAL.ComputeChecksum P
      { type := type, key := key, value := value, timestamp := now % U64, checksum := 0 } }

/-- The record that a write call appends to the log. -/
def WriteOp.record (P : Platform) (op : WriteOp) (env : Env) : WALRecord :=
  match op with
  | .put key value => WAL.recordOf P WALRecordType.PUT key value (env.clock 0)
  | .delete key => WAL.recordOf P WALRecordType.DELETE key [] (env.clock 0)

/-- What the cache keeps true with respect to a map `truth` from keys to values:
the node addresses are distinct and below `next_node_`, and every entry of the
lookup map points at a node of the list that carries the entry's key and the
value that `truth` gives for it. -/
def LRUCache.Sound (c : LRUCache) (truth : Bytes → Option Bytes) : Prop :=
  (c.lru_list_.map Prod.fst).Nodup ∧
  (∀ n ∈ c.lru_list_, n.1 < c.next_node_) ∧
  (∀ k it, assocFind c.cache_map_ k = some it →
    ∃ e, (it, e) ∈ c.lru_list_ ∧ e.key = k ∧ truth k = some e.value)

/-- A call of the interface. -/
inductive Op
  | put (key value : Bytes)
  | delete (key : Bytes)
  | putBatch (entries : List (Bytes × Bytes))
  | get (key : Bytes)
  | flush
  | compact

/-- The store after a call. -/
def KVStore.step (P : Platform) (s : KVStore) (op : Op) (env : Env) : KVStore :=
  match op with
  | .put key value => (KVStore.Put P s key value env).1
  | .delete key => (KVStore.Delete P s key env).1
  | .putBatch entries => (KVStore.PutBatch P s entries env).1
  | .get key => (KVStore.Get P s key env).1
  | .flush => KVStore.Flush P s env
  | .compact => KVStore.Compact P s env

/-- The entries of a batch whose append to the log succeeds: those before the
first failing append of `KVStore::PutBatch`. -/
def KVStore.batchWritten (P : Platform) (env : Env) :
    List (Bytes × Bytes) → Nat → KVStore → List (Bytes × Bytes)
  | [], _, _ => []
  | (key, value) :: rest, i, s =>
    match WAL.Append P s.wal_ s.fs_ WALRecordType.PUT key value (env.clock (2 * i))
        (env.write_ok i) with
    | ((_, _), false) => []
    | ((wal1, fs1), true) =>
      (key, value) :: KVStore.batchWritten P env rest (i + 1)
        { s with wal_ := wal1, fs_ := fs1,
                 memtable_ := MemTable.Put P s.memtable_ key value (env.clock (2 * i + 1)),
                 cache_ := LRUCache.Invalidate s.cache_ key }

/-- The successful writes of a call, oldest first: the key, and the value put
(`none` for a delete). -/
def KVStore.writesOf (P : Platform) (s : KVStore) (op : Op) (env : Env) :
    List (Bytes × Option Bytes) :=
  match op with
  | .put key value => if (KVStore.Put P s key value env).2 then [(key, some value)] else []
  | .delete key => if (KVStore.Delete P s key env).2 then [(key, none)] else []
  | .putBatch entries =>
    (KVStore.batchWritten P env entries 0 s).map (fun kv => (kv.1, some kv.2))
  | .get _ => []
  | .flush => []
  | .compact => []

/-- The store after a sequence of calls. -/
def KVStore.run (P : Platform) : KVStore → List (Op × Env) → KVStore
  | s, [] => s
  | s, (op, env) :: rest => KVStore.run P (KVStore.step P s op env) rest

/-- The successful writes of a sequence of calls, oldest first. -/
def KVStore.history (P : Platform) : KVStore → List (Op × Env) → List (Bytes × Option Bytes)
  | _, [] => []
  | s, (op, env) :: rest =>
    KVStore.writesOf P s op env ++ KVStore.history P (KVStore.step P s op env) rest

/-- The value that the most recent of the given writes to `key` left, and what
`base` gives when none of them is to `key`. -/
def overlay (base : Bytes → Option Bytes) (writes : List (Bytes × Option Bytes)) (key : Bytes) :
    Option Bytes :=
  match assocFind writes.reverse key with
  | some w => w
  | none => base key

/-- The value of the most recent successful write to `key` (`none` after a
delete): the last write to `key` in the history of the run, and before any
such write what the memtable of the store held when it was opened. -/
def latestWrite (initial : MemTable) (history : List (Bytes × Option Bytes)) (key : Bytes) :
    Option Bytes :=
  overlay (MemTable.Get initial) history key

/-- What a run keeps true with respect to a map `truth` from keys to values: the
store is as every reachable store, the cache is sound for `truth`, and an entry
of the memtable is what `truth` says of its key. -/
def KVStore.Sound (s : KVStore) (truth : Bytes → Option Bytes) : Prop :=
  KVStore.Inv s ∧ LRUCache.Sound s.cache_ truth ∧
  ∀ k e, StdMap.find s.memtable_.table_ k = some e →
    truth k = if e.is_deleted then none else some e.value

/-- Calls for the examples: `Put("k", "v")`, then `Get("k")`, which caches the value. -/
def exampleCalls : List (Op × Env) :=
  [(Op.put [107] [118], exampleEnv), (Op.get [107], exampleEnv)]

/-- The bits after setting the bit `h % size` for every `h` of a list. -/
def BloomFilter.setBits (bits : List Bool) (hs : List Nat) : List Bool :=
  hs.foldl (fun b h => b.set (h % b.length) true) bits

/-- A `std::map` whose keys ascend strictly. -/
def StdMap.Sorted {V : Type} (m : StdMap V) : Prop :=
  List.Pairwise (fun a b => bytesLt a.1 b.1 = true) m

/-- The path `/tmp/test.sst` of `tests/test_sstable.cpp`. -/
def testSstPath : Bytes := [47, 116, 109, 112, 47, 116, 101, 115, 116, 46, 115, 115, 116]

/-- The key `test_key` of `tests/test_sstable.cpp`. -/
def testKey : Bytes := [116, 101, 115, 116, 95, 107, 101, 121]

/-- The value `test_value` of `tests/test_sstable.cpp`. -/
def testValue : Bytes := [116, 101, 115, 116, 95, 118, 97, 108, 117, 101]

/-- The entry list of `SSTableTest.CreateAndRead`: one live entry. -/
def testEntries : List SSTableEntry :=
  [{ key := testKey, value := testValue, is_deleted := false, timestamp := 12345 }]

/-- The calls `Put(k_i, v_i); Flush()` for four keys, under `exampleEnv`. -/
def fourFlushes : List (Op × Env) :=
  [(Op.put [97] [1], exampleEnv), (Op.flush, exampleEnv),
   (Op.put [98] [2], exampleEnv), (Op.flush, exampleEnv),
   (Op.put [99] [3], exampleEnv), (Op.flush, exampleEnv),
   (Op.put [100] [4], exampleEnv), (Op.flush, exampleEnv)]

/-- The fresh store after `fourFlushes`. -/
def fourTablesStore : KVStore := KVStore.run examplePlatform freshStore fourFlushes

/-- The arguments of one call `WAL::Append(type, key, value)`, with the clock
reading taken by the call and whether the device takes its write. -/
structure AppendCall where
  type : Nat
  key : Bytes
  value : Bytes
  now : Nat
  write_ok : Bool
deriving DecidableEq

/-- The type, key and value of a record. -/
def WALRecord.payload (r : WALRecord) : Nat × Bytes × Bytes := (r.type, r.key, r.value)

/-- The type, key and value of a call. -/
def AppendCall.payload (c : AppendCall) : Nat × Bytes × Bytes := (c.type, c.key, c.value)

instance WALRecord.decidableWellFormed (r : WALRecord) : Decidable (WALRecord.WellFormed r) := by
  unfold WALRecord.WellFormed
  infer_instance

/-- The log `wal.log` as an open, good stream. -/
def exampleWal : WAL :=
  { filename_ := [119, 97, 108, 46, 108, 111, 103], is_open_ := true, good_ := true,
    current_size_ := 0 }

/-- A record for `Put("a", "1")` whose stored checksum is zero, which is not its checksum. -/
def badRecord : WALRecord :=
  { type := WALRecordType.PUT, key := [97], value := [49], timestamp := 5, checksum := 0 }

/-- The record that `Append(PUT, "b", "2")` writes at time 6. -/
def goodRecord : WALRecord := WAL.recordOf examplePlatform WALRecordType.PUT [98] [50] 6

/-- The record that `Append(PUT, "c", "3")` writes at time 7. -/
def goodRecord2 : WALRecord := WAL.recordOf examplePlatform WALRecordType.PUT [99] [51] 7

/-- The entries that `Compaction::CompactSSTables` reads from its input tables:
what `Scan("", "~", SIZE_MAX)` returns, table after table. -/
def Compaction.inputEntries (tables : List SSTable) (junk : SSTableEntry) : List SSTableEntry :=
  (tables.map (fun t => SSTable.Scan t [] [126] (U64 - 1) junk)).flatten

/-- The map `merged` of `Compaction::CompactSSTables` after the entries `seen`
went through the merge: its keys ascend, every mapped entry is an entry seen for
its key with the greatest timestamp seen for that key, and every key seen is
mapped. -/
structure Compaction.MergeInv (merged : StdMap SSTableEntry) (seen : List SSTableEntry) : Prop where
  sorted : StdMap.Sorted merged
  winner : ∀ k e, (k, e) ∈ merged →
    e.key = k ∧ e ∈ seen ∧ ∀ e2 ∈ seen, e2.key = k → e2.timestamp ≤ e.timestamp
  present : ∀ e2 ∈ seen, ∃ e, StdMap.find merged e2.key = some e

/-- A reader in the state that loading would leave for a table of the given
entries: the index that `SSTable::Create` builds, over a stream that holds the
data records from offset zero, and the key range of the entries.  The
constructor of the source does not build this state (its `LoadIndex` loads
nothing); it serves to run `Scan` and the merge on tables that yield entries. -/
def SSTable.loaded (entries : List SSTableEntry) : SSTable :=
  { filename_ := [],
    file_ := some (entries.map SSTable.encodeEntry).flatten,
    index_ := SSTable.buildIndex entries 0,
    bloom_filter_ := none,
    first_key_ := (entries.head?.map (fun e => e.key)).getD [],
    last_key_ := (entries.getLast?.map (fun e => e.key)).getD [],
    file_size_ := 0,
    num_entries_ := entries.length,
    creation_time_ := 0,
    compression_enabled_ := false }

/-- A live entry. -/
def liveEntry (key value : Bytes) (timestamp : Nat) : SSTableEntry :=
  { key := key, value := value, is_deleted := false, timestamp := timestamp }

/-- A tombstone. -/
def tombstone (key : Bytes) (timestamp : Nat) : SSTableEntry :=
  { key := key, value := [], is_deleted := true, timestamp := timestamp }

/-- A call that changes a memtable; `now` is the clock reading of the `Entry`
constructor in the call. -/
inductive MemOp
  | put (key value : Bytes) (now : Nat)
  | delete (key : Bytes) (now : Nat)
  | clear
deriving DecidableEq

/-- The memtable after a call. -/
def MemTable.applyOp (P : Platform) (t : MemTable) : MemOp → MemTable
  | .put key value now => MemTable.Put P t key value now
  | .delete key now => MemTable.Delete P t key now
  | .clear => MemTable.Clear t

/-- The memtable after a sequence of calls. -/
def MemTable.runOps (P : Platform) (t : MemTable) (ops : List MemOp) : MemTable :=
  ops.foldl (MemTable.applyOp P) t

/-- The entry that a sequence of calls leaves for a key, over what `base` held:
the one of the last `Put` or `Delete` of the key, nothing after a `Clear`. -/
def MemTable.expected (base : Bytes → Option Entry) : List MemOp → Bytes → Option Entry
  | [], k => base k
  | .put key value now :: rest, k =>
    MemTable.expected
      (fun x => if x = key then some { value := value, is_deleted := false, timestamp := now }
        else base x) rest k
  | .delete key now :: rest, k =>
    MemTable.expected
      (fun x => if x = key then some { value := [], is_deleted := true, timestamp := now }
        else base x) rest k
  | .clear :: rest, k => MemTable.expected (fun _ => none) rest k

/-- The keys written by a sequence of calls since its last `Clear`, most recent first. -/
def MemTable.writtenKeys (ops : List MemOp) : List Bytes :=
  ops.foldl (fun keys op =>
    match op with
    | .put key _ _ => key :: keys
    | .delete key _ => key :: keys
    | .clear => []) []

/-- The sum over the entries of a table of `key.size() + value.size() + sizeof(Entry)`. -/
def MemTable.footprint (P : Platform) (m : StdMap Entry) : Nat :=
  (m.map (fun kv => kv.1.length + kv.2.value.length + P.sizeof_Entry)).sum

/-- An environment in which the device refuses every write to the log. -/
def failingWriteEnv : Env := { exampleEnv with write_ok := fun _ => false }

/-- An environment in which only the log file can be opened for writing: no
table file can be created. -/
def noTableEnv : Env :=
  { exampleEnv with open_ok := fun path => decide (path = KVStore.walPath defaultConfig) }

/-- The fresh store after `Put("a", "1")`: the entry is in the memtable and its
record in the log. -/
def storeWithA : KVStore := (KVStore.Put examplePlatform freshStore [97] [49] exampleEnv).1

/-- `LRUCache::Size`. -/
def LRUCache.Size (c : LRUCache) : Nat := c.current_size_

/-- `LRUCache::Capacity`. -/
def LRUCache.Capacity (c : LRUCache) : Nat := c.capacity_

/-- `LRUCache::HitCount`. -/
def LRUCache.HitCount (c : LRUCache) : Nat := c.hits_

/-- `LRUCache::MissCount`. -/
def LRUCache.MissCount (c : LRUCache) : Nat := c.misses_

/-- The entries of the cache in recency order, the most recently used first. -/
def LRUCache.recency (c : LRUCache) : List CacheEntry := c.lru_list_.map Prod.snd

/-- The lookup map and the recency list are linked: the nodes of the list have
distinct addresses, and every iterator held by the map is the address of a node
of the list that carries the key it is filed under. -/
def LRUCache.Linked (c : LRUCache) : Prop :=
  (c.lru_list_.map Prod.fst).Nodup ∧
  ∀ k it, assocFind c.cache_map_ k = some it → ∃ e, (it, e) ∈ c.lru_list_ ∧ e.key = k

/-- The cache after `n` calls of `Evict`. -/
def LRUCache.evictN : Nat → LRUCache → LRUCache
  | 0, c => c
  | n + 1, c => LRUCache.evictN n (LRUCache.Evict c)

/-- A call of the cache interface. -/
inductive CacheOp
  | put (key value : Bytes)
  | get (key : Bytes)
  | invalidate (key : Bytes)
  | clear
deriving DecidableEq

/-- The cache after a call. -/
def LRUCache.applyOp (P : Platform) (c : LRUCache) : CacheOp → LRUCache
  | .put key value => LRUCache.Put P c key value
  | .get key => (LRUCache.Get c key).1
  | .invalidate key => LRUCache.Invalidate c key
  | .clear => LRUCache.Clear c

/-- The cache after a sequence of calls. -/
def LRUCache.runOps (P : Platform) (c : LRUCache) (ops : List CacheOp) : LRUCache :=
  ops.foldl (LRUCache.applyOp P) c

/-- The size `key.size() + value.size() + sizeof(CacheEntry)` of the entry that a
`Put` call inserts; zero for the other calls. -/
def CacheOp.putSize (P : Platform) : CacheOp → Nat
  | .put key value => key.length + value.length + P.sizeof_CacheEntry
  | _ => 0

/-- The sum of the sizes stored in the nodes of the recency list. -/
def LRUCache.storedSize (l : List (Nat × CacheEntry)) : Nat := (l.map (fun n => n.2.size)).sum

/-- The size counter is the sum of the sizes stored in the list, no stored size
exceeds `bound`, and the counter is within the capacity unless the list holds
at most one node. -/
structure LRUCache.Bounded (bound : Nat) (c : LRUCache) : Prop where
  size : c.current_size_ = LRUCache.storedSize c.lru_list_
  entries : ∀ n ∈ c.lru_list_, n.2.size ≤ bound
  fits : c.current_size_ ≤ c.capacity_ ∨ c.lru_list_.length ≤ 1

/-- The cache after `Put("a", "1")`, `Put("b", "2")`, `Put("c", "3")` with a
capacity of 250 bytes, entries of 74 bytes: `c` is the most recently used. -/
def threeEntryCache : LRUCache :=
  LRUCache.runOps examplePlatform (LRUCache.new 250)
    [CacheOp.put [97] [49], CacheOp.put [98] [50], CacheOp.put [99] [51]]

/-- What `threeEntryCache` holds for each key. -/
def threeEntryTruth (k : Bytes) : Option Bytes :=
  if k = [97] then some [49] else if k = [98] then some [50] else if k = [99] then some [51]
  else none

/-- A directory `./data` that holds the tables of ids 2 and 10, each written by
`SSTable::Create` from one entry. -/
def twoAndTenFs : FileSystem :=
  [(KVStore.GetSSTablePath defaultConfig 2,
      SSTable.fileContent examplePlatform [liveEntry [97] [49] 1] true false),
   (KVStore.GetSSTablePath defaultConfig 10,
      SSTable.fileContent examplePlatform [liveEntry [97] [50] 2] true false)]

/-- The `size_t` value of the subexpression `-1 * expected_elements` of the
constructor `BloomFilter(expected_elements, false_positive_rate)`: the `int`
constant `-1` is converted to `size_t` for the multiplication. -/
def BloomFilter.minusOneTimes (expected_elements : Nat) : Nat :=
  ((U64 - 1) * (expected_elements % U64)) % U64

/-- The part of `KVStore::MaybeCompact` inside `if (!files_to_compact.empty())`,
for a given selection. -/
def KVStore.compactSelection (P : Platform) (s : KVStore) (env : Env)
    (files_to_compact : List Bytes) : KVStore :=
  let output_file := KVStore.GetSSTablePath s.config_ s.next_sstable_id_
  let s1 := { s with next_sstable_id_ := uadd s.next_sstable_id_ 1 }
  match Compaction.CompactSSTables P s1.fs_ env files_to_compact output_file
      s1.config_.enable_compression with
  | (fs1, true) =>
    let kept := s1.sstables_.filter (fun _ => files_to_compact.isEmpty)
    { s1 with sstables_ := kept ++ [SSTable.new fs1 output_file],
              fs_ := files_to_compact.foldl FileSystem.remove fs1 }
  | (fs1, false) => { s1 with fs_ := fs1 }

/-- Two table files that hold the key `k` with the same timestamp: `a.sst` with
the value `old`, `b.sst` with the value `new`. -/
def tieFs : FileSystem :=
  (SSTable.Create examplePlatform
    (SSTable.Create examplePlatform [] [97, 46, 115, 115, 116]
      [liveEntry [107] [111, 108, 100] 5] true true true).1
    [98, 46, 115, 115, 116] [liveEntry [107] [110, 101, 119] 5] true true true).1

/-- The value `v` with its bit `i` flipped. -/
def flipBit (v i : Nat) : Nat := v ^^^ 2 ^ i

/-- The byte `c` with its bit `i` flipped. -/
def flipByte (c : Fin 256) (i : Nat) : Fin 256 :=
  ⟨(c.val ^^^ 2 ^ i) % 256, Nat.mod_lt _ (by decide)⟩

/-- The sum of the characters of a string as `WAL::ComputeChecksum` adds them. -/
def WAL.sumChars (P : Platform) (l : Bytes) : Nat := (l.map (WAL.charValue P)).sum

/-- Modelled from the spec: the memtable that `lsm_engine.cpp` uses through the
members `put`, `get`, `should_flush`, `get_all_sorted`, `entry_count` and
`size_bytes`.  The header `memtable.h` of the sources declares another
interface (`Put`, `Get`, `Delete`, ...) and no source file defines these
members.  Following the specification it is an ordered map from a key to the
most recent value put for the key. -/
abbrev LsmMemTable := StdMap Bytes

/-- Modelled from the spec: `put(key, value)` of the memtable of `lsm_engine.cpp`,
whose definition is not among the sources: it replaces the entry of the key. -/
def LsmMemTable.put (m : LsmMemTable) (key value : Bytes) : LsmMemTable :=
  StdMap.assign m key value

/-- Modelled from the spec: `get(key, value)` of the memtable of `lsm_engine.cpp`,
whose definition is not among the sources: the value stored for the key. -/
def LsmMemTable.get (m : LsmMemTable) (key : Bytes) : Option Bytes := StdMap.find m key

/-- Modelled from the spec: `get_all_sorted()` of the memtable of `lsm_engine.cpp`,
whose definition is not among the sources: the entries in key order. -/
def LsmMemTable.get_all_sorted (m : LsmMemTable) : List (Bytes × Bytes) := m

/-- Modelled from the spec: `entry_count()` of the memtable of `lsm_engine.cpp`,
whose definition is not among the sources. -/
def LsmMemTable.entry_count (m : LsmMemTable) : Nat := m.length

/-- Modelled from the spec: the table reader that `lsm_engine.cpp` uses through
`SSTable::create(filename, entries, level)`, `might_contain(key)` and
`get(key)` returning an optional value.  The header `sstable.h` of the sources
declares another interface and no source file defines these members.  A reader
opened on a file that `create` wrote holds the entries written. -/
structure LsmTable where
  filename : Bytes
  entries : List (Bytes × Bytes)
  level : Nat
deriving DecidableEq

/-- Modelled from the spec: `get(key)` of the table of `lsm_engine.cpp`, whose
definition is not among the sources: the value stored for the key, if any. -/
def LsmTable.get (t : LsmTable) (key : Bytes) : Option Bytes := assocFind t.entries key

/-- What `lsm_engine.cpp` leaves to the classes it uses. -/
structure LsmParams where
  /-- `MemTable::should_flush()`: the threshold is not among the sources. -/
  should_flush : LsmMemTable → Bool
  /-- Whether `might_contain(key)` answers `true` for a key that the table does
  not hold (a false positive of its filter). -/
  false_positive : LsmTable → Bytes → Bool

/-- Modelled from the spec: `might_contain(key)` of the table of `lsm_engine.cpp`,
whose definition is not among the sources: `true` for every key stored (no
false negative), and for the other keys what the filter answers. -/
def LsmTable.might_contain (L : LsmParams) (t : LsmTable) (key : Bytes) : Bool :=
  (assocFind t.entries key).isSome || L.false_positive t key

/-- The class `LSMEngine` (`lsm_engine.h`), without its thread and mutex; `wal_`
is the sequence of records appended to the log since it was last cleared. -/
structure LSMEngine where
  db_path_ : Bytes
  active_memtable_ : LsmMemTable
  immutable_memtable_ : Option LsmMemTable
  wal_ : List (Bytes × Bytes)
  sstables_ : List LsmTable
  next_sstable_id_ : Nat

/-- The engine that the constructor `LSMEngine(db_path)` builds on an empty
directory. -/
def LSMEngine.new (db_path : Bytes) : LSMEngine :=
  { db_path_ := db_path, active_memtable_ := [], immutable_memtable_ := none, wal_ := [],
    sstables_ := [], next_sstable_id_ := 0 }

/-- The string literal `"__TOMBSTONE__"`. -/
def LSMEngine.tombstoneValue : Bytes := [95, 95, 84, 79, 77, 66, 83, 84, 79, 78, 69, 95, 95]

/-- `LSMEngine::generate_sstable_filename`: the string
`db_path_ + "/sstable_" + std::to_string(next_sstable_id_++) + ".sst"`. -/
def LSMEngine.generate_sstable_filename (e : LSMEngine) : Bytes × LSMEngine :=
  (e.db_path_ ++ [47, 115, 115, 116, 97, 98, 108, 101, 95] ++ to_string e.next_sstable_id_ ++
      [46, 115, 115, 116],
    { e with next_sstable_id_ := (e.next_sstable_id_ + 1) % U32 })

/-- `LSMEngine::flush_memtable`. -/
def LSMEngine.flush_memtable (e : LSMEngine) : LSMEngine :=
  let immutable := e.active_memtable_
  let entries := LsmMemTable.get_all_sorted immutable
  let (filename, e1) := LSMEngine.generate_sstable_filename e
  { e1 with active_memtable_ := [],
            immutable_memtable_ := none,
            sstables_ := e1.sstables_ ++ [{ filename := filename, entries := entries, level := 0 }],
            wal_ := [] }

/-- `LSMEngine::put`. -/
def LSMEngine.put (L : LsmParams) (e : LSMEngine) (key value : Bytes) : LSMEngine :=
  let e1 := { e with wal_ := e.wal_ ++ [(key, value)],
                     active_memtable_ := LsmMemTable.put e.active_memtable_ key value }
  if L.should_flush e1.active_memtable_ then LSMEngine.flush_memtable e1 else e1

/-- The loop of `LSMEngine::get` over the tables, newest first. -/
def LSMEngine.searchTables (L : LsmParams) (key : Bytes) : List LsmTable → Option Bytes
  | [] => none
  | t :: rest =>
    if LsmTable.might_contain L t key then
      match LsmTable.get t key with
      | some v => some v
      | none => LSMEngine.searchTables L key rest
    else LSMEngine.searchTables L key rest

/-- `LSMEngine::get`: `some v` when it returns `true` with `value = v`. -/
def LSMEngine.get (L : LsmParams) (e : LSMEngine) (key : Bytes) : Option Bytes :=
  match LsmMemTable.get e.active_memtable_ key with
  | some v => some v
  | none =>
    match e.immutable_memtable_.bind (fun m => LsmMemTable.get m key) with
    | some v => some v
    | none => LSMEngine.searchTables L key e.sstables_.reverse

/-- `LSMEngine::remove`: `put(key, "__TOMBSTONE__")`. -/
def LSMEngine.remove (L : LsmParams) (e : LSMEngine) (key : Bytes) : LSMEngine :=
  LSMEngine.put L e key LSMEngine.tombstoneValue

/-- Parameters under which the memtable is never flushed and no filter gives a
false positive. -/
def exampleLsmParams : LsmParams :=
  { should_flush := fun _ => false, false_positive := fun _ _ => false }

/-- The lookup map and the recency list of a cache agree: the cache is sound for
some assignment of values (distinct node addresses, every iterator of the map
at a node that carries its key), every node of the list is filed in the map
under its key, every stored size is the estimate for the node's key and
value, and the size counter is the sum of the stored sizes in `size_t`. -/
structure LRUCache.Consistent (P : Platform) (c : LRUCache) : Prop where
  sound : ∃ truth, LRUCache.Sound c truth
  listed : ∀ n ∈ c.lru_list_, assocFind c.cache_map_ n.2.key = some n.1
  sizes : ∀ n ∈ c.lru_list_, n.2.size = LRUCache.EstimateSize P n.2.key n.2.value
  total : c.current_size_ = LRUCache.storedSize c.lru_list_ % U64

/-- The id that `KVStore::LoadSSTables` reads from the path of a table file:
`std::stoull` on the file name up to its first dot. -/
def sstableId (file : Bytes) : Option Nat :=
  stoull ((pathFilename file).takeWhile (fun c => c ≠ 46))

/-- Every table of the store has a file name whose id is below `next_sstable_id_`. -/
def KVStore.IdInv (s : KVStore) : Prop :=
  ∀ t ∈ s.sstables_, ∃ id, sstableId t.filename_ = some id ∧ id < s.next_sstable_id_

/-- What a call that does not flush leaves alone. -/
def KVStore.sameTables (s s2 : KVStore) : Prop :=
  s2.config_ = s.config_ ∧ s2.sstables_ = s.sstables_ ∧ s2.next_sstable_id_ = s.next_sstable_id_

/-- What a call does to the tables and the next id: nothing, or it takes the
next id, adds at most the table of that id and moves the next id one up. -/
def KVStore.IdStep (s s2 : KVStore) : Prop :=
  KVStore.sameTables s s2 ∨
  (s2.config_ = s.config_ ∧ s2.next_sstable_id_ = uadd s.next_sstable_id_ 1 ∧
    (s2.sstables_ = s.sstables_ ∨
      ∃ t, s2.sstables_ = s.sstables_ ++ [t] ∧
        t.filename_ = KVStore.GetSSTablePath s.config_ s.next_sstable_id_))

/-- How a call ends: it returns a result, an exception leaves it with the
state `state` behind, or the process is killed. -/
inductive Ending (ρ σ : Type)
  | returned (result : ρ)
  | thrown (state : σ)
  | killed
deriving DecidableEq

/-- How the constructor `BloomFilter(expected_elements)` ends.  After computing
`m` it divides `m / expected_elements` in `size_t`, a division by zero when
there is no element, and then calls `bits_.resize(m, false)`, which throws
when the vector refuses the size. -/
def BloomFilter.newEnding (P : Platform) (expected_elements : Nat) : Ending BloomFilter Unit :=
  if expected_elements = 0 then Ending.killed
  else if P.vector_resize_ok (P.bloom_bits expected_elements) then
    Ending.returned (BloomFilter.new P expected_elements)
  else Ending.thrown ()

/-- How `BloomFilter::Deserialize` ends: as the constructor call `BloomFilter bf(1)`
does, the argument unread. -/
def BloomFilter.DeserializeEnding (P : Platform) (_data : Bytes) : Ending BloomFilter Unit :=
  BloomFilter.newEnding P 1

/-- How `SSTable::Create` ends.  The filter is built after the header, the
records and the index have been written: when its constructor throws, the
stream `out` is closed by its destructor and the file holds these three
parts; `bf.Add` divides by `bits_.size()`, a division by zero for a filter
without bits that has a hash function.  In every other case the call returns
what `SSTable.Create` gives. -/
def SSTable.CreateEnding (P : Platform) (fs : FileSystem) (filename : Bytes)
    (entries : List SSTableEntry) (use_compression use_bloom_filter : Bool) (open_ok : Bool) :
    Ending (FileSystem × Bool) FileSystem :=
  if open_ok && use_bloom_filter then
    match BloomFilter.newEnding P entries.length with
    | Ending.returned bf =>
      if bf.bits_.isEmpty && decide (bf.num_hashes_ ≠ 0) then Ending.killed
      else Ending.returned
        (SSTable.Create P fs filename entries use_compression use_bloom_filter open_ok)
    | Ending.thrown _ =>
      Ending.thrown (FileSystem.write fs filename
        (SSTable.WriteHeader entries.length use_compression use_bloom_filter ++
          (entries.map SSTable.encodeEntry).flatten ++
          SSTable.WriteIndex (SSTable.buildIndex entries 0)))
    | Ending.killed => Ending.killed
  else Ending.returned
    (SSTable.Create P fs filename entries use_compression use_bloom_filter open_ok)

/-- How `Compaction::CompactSSTables` ends: as its call
`SSTable::Create(output_file, output_entries, compression, true)` does. -/
def Compaction.CompactSSTablesEnding (P : Platform) (fs : FileSystem) (env : Env)
    (input_files : List Bytes) (output_file : Bytes) (compression : Bool) :
    Ending (FileSystem × Bool) FileSystem :=
  let tables := input_files.map (SSTable.new fs)
  SSTable.CreateEnding P fs output_file (Compaction.outputEntries tables env.junk) compression true
    (env.open_ok output_file)

/-- How `KVStore::FlushMemTable` ends.  When `SSTable::Create` throws, the
memtable has been moved to `immutable_memtable_`, the log has been cleared
and the id counter has been incremented; `immutable_memtable_.reset()` is
not reached.  When `Create` returns, the call returns `KVStore.FlushMemTable`. -/
def KVStore.FlushMemTableEnding (P : Platform) (s : KVStore) (env : Env) :
    Ending KVStore KVStore :=
  if MemTable.IsEmpty s.memtable_ then Ending.returned s
  else
    let immutable := s.memtable_
    let (wal1, fs1) := WAL.Clear s.wal_ s.fs_ (env.open_ok s.wal_.filename_)
    let entries := KVStore.flushEntries immutable
    let filename := KVStore.GetSSTablePath s.config_ s.next_sstable_id_
    match SSTable.CreateEnding P fs1 filename entries s.config_.enable_compression
        s.config_.enable_bloom_filter (env.open_ok filename) with
    | Ending.returned _ => Ending.returned (KVStore.FlushMemTable P s env)
    | Ending.thrown fs2 =>
      Ending.thrown
        { s with memtable_ := MemTable.new,
                 immutable_memtable_ := some immutable,
                 wal_ := wal1,
                 next_sstable_id_ := uadd s.next_sstable_id_ 1,
                 fs_ := fs2 }
    | Ending.killed => Ending.killed

/-- How `KVStore::Put` ends: the exception of a flush leaves `Put` after the
write has reached the log, the memtable and the cache. -/
def KVStore.PutEnding (P : Platform) (s : KVStore) (key value : Bytes) (env : Env) :
    Ending (KVStore × Bool) KVStore :=
  match WAL.Append P s.wal_ s.fs_ WALRecordType.PUT key value (env.clock 0) (env.write_ok 0) with
  | ((wal1, fs1), false) => Ending.returned ({ s with wal_ := wal1, fs_ := fs1 }, false)
  | ((wal1, fs1), true) =>
    let s1 : KVStore :=
      { s with wal_ := wal1, fs_ := fs1,
               memtable_ := MemTable.Put P s.memtable_ key value (env.clock 1),
               cache_ := LRUCache.Invalidate s.cache_ key }
    let memtable_size := MemTable.SizeBytes s1.memtable_
    let threshold := (s1.config_.memtable_size_mb * 1024 * 1024) % U64
    if threshold ≤ memtable_size then
      match KVStore.FlushMemTableEnding P { s1 with should_flush_ := true } env with
      | Ending.returned s2 => Ending.returned (s2, true)
      | Ending.thrown s2 => Ending.thrown s2
      | Ending.killed => Ending.killed
    else Ending.returned (s1, true)

/-- How `KVStore::PutBatch` ends. -/
def KVStore.PutBatchEnding (P : Platform) (s : KVStore) (entries : List (Bytes × Bytes))
    (env : Env) : Ending (KVStore × Bool) KVStore :=
  match KVStore.batchLoop P env entries 0 s with
  | (s1, false) => Ending.returned (s1, false)
  | (s1, true) =>
    let memtable_size := MemTable.SizeBytes s1.memtable_
    let threshold := (s1.config_.memtable_size_mb * 1024 * 1024) % U64
    if threshold ≤ memtable_size then
      match KVStore.FlushMemTableEnding P s1 env with
      | Ending.returned s2 => Ending.returned (s2, true)
      | Ending.thrown s2 => Ending.thrown s2
      | Ending.killed => Ending.killed
    else Ending.returned (s1, true)

/-- How `KVStore::Flush` ends. -/
def KVStore.FlushEnding (P : Platform) (s : KVStore) (env : Env) : Ending KVStore KVStore :=
  if !MemTable.IsEmpty s.memtable_ then KVStore.FlushMemTableEnding P s env
  else Ending.returned s

/-- The platform of an x86-64 build with GCC and libstdc++, as far as the
model needs it: the conversion of the negative double that the sizing of
`BloomFilter(n, 0.01)` produces gives `2^63` for every `n` from 1 on that a
memory can hold, and `std::vector<bool>` refuses every size above
`2^63 - 64`.  The `num_hashes_` computed from that `m`, the quotient `m / n`
times `ln 2` rounded up, is given to sixteen digits and is never read: the
constructor does not return.  The hash function, the sizes and the signed
`char` are those of `examplePlatform`. -/
def x86Platform : Platform :=
  { examplePlatform with
    bloom_bits := fun n => if n = 0 then 0 else 2 ^ 63,
    bloom_hashes := fun n =>
      if n = 0 then 0
      else ((2 ^ 63 / n) * 6931471805599453 + 9999999999999999) / 10000000000000000,
    vector_resize_ok := fun m => decide (m ≤ 2 ^ 63 - 64) }

/-- The `Config` that `kvstore.h` gives by default: as `defaultConfig`, with
`enable_bloom_filter = true`. -/
def headerConfig : Config := { defaultConfig with enable_bloom_filter := true }

/-- The store that the constructor builds in an empty file system under
`headerConfig`. -/
def headerStore : KVStore := { freshStore with config_ := headerConfig }

/-- The store `headerStore` after `Put("k", "old")`. -/
def storeWithOld : KVStore :=
  (KVStore.Put x86Platform headerStore [107] [111, 108, 100] exampleEnv).1

/-- The store `storeWithOld` after a `Flush()` that `SSTable::Create` left through
the exception of the filter constructor, the exception caught by the caller. -/
def thrownFlushStore : KVStore :=
  match KVStore.FlushEnding x86Platform storeWithOld exampleEnv with
  | Ending.thrown s => s
  | _ => storeWithOld

/-- The files as a reader of the disk finds them while the output stream of
the log has handed over only the first `flushed` bytes of the log file: the
file ends there.  The file content of the model is what the stream was given;
the stream hands its buffer over when it is full, in `file_.flush()` and in
`file_.close()`. -/
def WAL.onDisk (w : WAL) (fs : FileSystem) (flushed : Nat) : FileSystem :=
  fs.map (fun pc => if pc.1 = w.filename_ then (pc.1, pc.2.take flushed) else pc)

/-- The store `headerStore` after `Put("a", "1")`. -/
def storeWithUnflushedA : KVStore :=
  (KVStore.Put x86Platform headerStore [97] [49] exampleEnv).1

/-- The store `thrownFlushStore` after `Delete("k")`. -/
def deletedAfterThrow : KVStore :=
  (KVStore.Delete x86Platform thrownFlushStore [107] exampleEnv).1

/-- The store `thrownFlushStore` after `Put("k", "v")` and `Delete("k")`. -/
def putDeletedAfterThrow : KVStore :=
  (KVStore.Delete x86Platform
    (KVStore.Put x86Platform thrownFlushStore [107] [118] exampleEnv).1 [107] exampleEnv).1

/-- The file system after `SSTable::Create("/tmp/test.sst", entries, true, false)`
on the entry list of `SSTableTest.CreateAndRead`: the bloom filter is not
asked for. -/
def testFsPlain : FileSystem :=
  (SSTable.Create x86Platform [] testSstPath testEntries true false true).1

/-- The file system after `SSTable::Create("/tmp/test.sst", entries, true, false)`
on the one live entry `("a", "1")`. -/
def liveAFs : FileSystem :=
  (SSTable.Create x86Platform [] testSstPath [liveEntry [97] [49] 1] true false true).1

/-- The records that successive calls of `WAL::ReadRecord` decode from the input,
in file order, up to the first call that fails; at most `fuel` of them. -/
def WAL.decodeAll : Nat → Bytes → List WALRecord
  | 0, _ => []
  | fuel + 1, input =>
    match WAL.ReadRecord input with
    | none => []
    | some (record, rest) => record :: WAL.decodeAll fuel rest

theorem assocFind_assocErase_self {K V : Type} [DecidableEq K] (m : List (K × V)) (key : K) :
    assocFind (assocErase m key) key = none := by
  induction m with
  | nil => rfl
  | cons kv rest ih =>
    obtain ⟨k, v⟩ := kv
    by_cases h : k = key
    · simp [assocErase, h, ih]
    · simp [assocErase, assocFind, h, ih]

theorem assocFind_assocErase_ne {K V : Type} [DecidableEq K] (m : List (K × V)) (key other : K)
    (h : other ≠ key) : assocFind (assocErase m key) other = assocFind m other := by
  have h2 : ¬ key = other := fun e => h e.symm
  induction m with
  | nil => rfl
  | cons kv rest ih =>
    obtain ⟨k, v⟩ := kv
    by_cases hk : k = key
    · subst hk
      simp [assocErase, assocFind, h2, ih]
    · by_cases ho : k = other
      · subst ho
        simp [assocErase, assocFind, hk]
      · simp [assocErase, assocFind, hk, ho, ih]

theorem assocFind_assocSet_self {K V : Type} [DecidableEq K] (m : List (K × V)) (key : K) (v : V) :
    assocFind (assocSet m key v) key = some v := by
  simp [assocSet, assocFind]

theorem assocFind_assocSet_ne {K V : Type} [DecidableEq K] (m : List (K × V)) (key other : K)
    (v : V) (h : other ≠ key) : assocFind (assocSet m key v) other = assocFind m other := by
  have h2 : ¬ key = other := fun e => h e.symm
  simp [assocSet, assocFind, h2, assocFind_assocErase_ne m key other h]

theorem StdMap.find_assign_self {V : Type} (m : StdMap V) (key : Bytes) (v : V) :
    StdMap.find (StdMap.assign m key v) key = some v := by
  induction m with
  | nil => simp [StdMap.assign, StdMap.find, assocFind]
  | cons kw rest ih =>
    obtain ⟨k, w⟩ := kw
    unfold StdMap.assign
    by_cases h1 : bytesLt key k = true
    · simp [h1, StdMap.find, assocFind]
    · by_cases h2 : key = k
      · subst h2
        simp [h1, StdMap.find, assocFind]
      · have h3 : ¬ k = key := fun e => h2 e.symm
        simp only [h1, h2, if_false, Bool.false_eq_true]
        simpa [StdMap.find, assocFind, h3] using ih

theorem StdMap.find_assign_ne {V : Type} (m : StdMap V) (key other : Bytes) (v : V)
    (h : other ≠ key) : StdMap.find (StdMap.assign m key v) other = StdMap.find m other := by
  have hk : ¬ key = other := fun e => h e.symm
  induction m with
  | nil => simp [StdMap.assign, StdMap.find, assocFind, hk]
  | cons kw rest ih =>
    obtain ⟨k, w⟩ := kw
    unfold StdMap.assign
    by_cases h1 : bytesLt key k = true
    · simp [h1, StdMap.find, assocFind, hk]
    · by_cases h2 : key = k
      · subst h2
        simp [h1, StdMap.find, assocFind, hk]
      · simp only [h1, h2, if_false, Bool.false_eq_true]
        by_cases h3 : k = other
        · simp [StdMap.find, assocFind, h3]
        · simpa [StdMap.find, assocFind, h3] using ih

/-! ## Lemmas on the memtable -/

theorem MemTable.Get_Put_self (P : Platform) (t : MemTable) (key value : Bytes) (now : Nat) :
    MemTable.Get (MemTable.Put P t key value now) key = some value := by
  simp [MemTable.Get, MemTable.Put, StdMap.find_assign_self]

theorem MemTable.Get_Put_ne (P : Platform) (t : MemTable) (key other value : Bytes) (now : Nat)
    (h : other ≠ key) :
    MemTable.Get (MemTable.Put P t key value now) other = MemTable.Get t other := by
  simp [MemTable.Get, MemTable.Put, StdMap.find_assign_ne _ _ _ _ h]

theorem MemTable.Get_Delete_self (P : Platform) (t : MemTable) (key : Bytes) (now : Nat) :
    MemTable.Get (MemTable.Delete P t key now) key = none := by
  simp [MemTable.Get, MemTable.Delete, StdMap.find_assign_self]

theorem MemTable.Get_Delete_ne (P : Platform) (t : MemTable) (key other : Bytes) (now : Nat)
    (h : other ≠ key) :
    MemTable.Get (MemTable.Delete P t key now) other = MemTable.Get t other := by
  simp [MemTable.Get, MemTable.Delete, StdMap.find_assign_ne _ _ _ _ h]

theorem MemTable.IsEmpty_Put (P : Platform) (t : MemTable) (key value : Bytes) (now : Nat) :
    MemTable.IsEmpty (MemTable.Put P t key value now) = false := by
  have h : ∀ (m : StdMap Entry) (e : Entry), (StdMap.assign m key e).isEmpty = false := by
    intro m e
    cases m with
    | nil => rfl
    | cons kw rest =>
      obtain ⟨k, w⟩ := kw
      unfold StdMap.assign
      split
      · rfl
      · split <;> rfl
  simp [MemTable.IsEmpty, MemTable.Put, h]

/-! ## Lemmas on the tables and the compaction -/

theorem SSTable.BinarySearch_index_nil (t : SSTable) (key : Bytes) (h : t.index_ = []) :
    SSTable.BinarySearch t key = false := by
  have h1 : toInt32 (usub 0 1) = -1 := by decide
  simp [SSTable.BinarySearch, h, h1, SSTable.searchLoop]

theorem SSTable.Get_index_nil (P : Platform) (t : SSTable) (key : Bytes) (junk : SSTableEntry)
    (h : t.index_ = []) : SSTable.Get P t key junk = none := by
  simp [SSTable.Get, SSTable.BinarySearch_index_nil t key h]

theorem SSTable.Scan_index_nil (t : SSTable) (start_key end_key : Bytes) (limit : Nat)
    (junk : SSTableEntry) (h : t.index_ = []) :
    SSTable.Scan t start_key end_key limit junk = [] := by
  simp [SSTable.Scan, h, SSTable.scanLoop]

theorem SSTable.index_new (fs : FileSystem) (filename : Bytes) :
    (SSTable.new fs filename).index_ = [] := by
  unfold SSTable.new
  simp only [SSTable.LoadIndex, SSTable.LoadBloomFilter]
  split <;> rfl

theorem KVStore.searchTables_index_nil (P : Platform) (junk : SSTableEntry) (key : Bytes)
    (l : List SSTable) (h : ∀ t ∈ l, t.index_ = []) :
    KVStore.searchTables P junk key l = none := by
  induction l with
  | nil => rfl
  | cons t rest ih =>
    have ht : t.index_ = [] := h t (List.mem_cons_self _ _)
    have hr : ∀ u ∈ rest, u.index_ = [] := fun u hu => h u (List.mem_cons_of_mem _ hu)
    simp [KVStore.searchTables, SSTable.Get_index_nil P t key junk ht, ih hr]

theorem Compaction.SelectFilesForCompaction_eq_nil (sstables : List SSTable) (threshold : Nat) :
    Compaction.SelectFilesForCompaction sstables threshold = [] := by
  have h : ∀ (l : List Nat), l.foldl (fun (files : List Bytes) _ => files) [] = [] := by
    intro l
    induction l with
    | nil => rfl
    | cons a rest ih => exact ih
  unfold Compaction.SelectFilesForCompaction
  split
  · rfl
  · exact h _

theorem KVStore.MaybeCompact_eq (P : Platform) (s : KVStore) (env : Env) :
    KVStore.MaybeCompact P s env = s := by
  unfold KVStore.MaybeCompact
  simp [Compaction.SelectFilesForCompaction_eq_nil]

theorem KVStore.cache_FlushMemTable (P : Platform) (s : KVStore) (env : Env) :
    (KVStore.FlushMemTable P s env).cache_ = s.cache_ := by
  unfold KVStore.FlushMemTable
  split
  · rfl
  · simp only [KVStore.MaybeCompact_eq]

/-! ## The invariant of the reachable stores -/

theorem KVStore.Inv_FlushMemTable (P : Platform) (s : KVStore) (env : Env) (h : KVStore.Inv s) :
    KVStore.Inv (KVStore.FlushMemTable P s env) := by
  unfold KVStore.FlushMemTable
  split
  · exact h
  · simp only [KVStore.MaybeCompact_eq]
    refine ⟨rfl, ?_⟩
    intro t ht
    simp only at ht
    split at ht
    · rcases List.mem_append.mp ht with h1 | h1
      · exact h.2 t h1
      · rw [List.mem_singleton.mp h1]
        exact SSTable.index_new _ _
    · exact h.2 t ht

theorem KVStore.Inv_Put (P : Platform) (s : KVStore) (key value : Bytes) (env : Env)
    (h : KVStore.Inv s) : KVStore.Inv (KVStore.Put P s key value env).1 := by
  unfold KVStore.Put
  split
  · exact h
  · simp only
    split
    · exact KVStore.Inv_FlushMemTable P _ env h
    · exact h

theorem KVStore.Inv_Delete (P : Platform) (s : KVStore) (key : Bytes) (env : Env)
    (h : KVStore.Inv s) : KVStore.Inv (KVStore.Delete P s key env).1 := by
  unfold KVStore.Delete
  split <;> exact h

theorem KVStore.Inv_Get (P : Platform) (s : KVStore) (key : Bytes) (env : Env)
    (h : KVStore.Inv s) : KVStore.Inv (KVStore.Get P s key env).1 := by
  unfold KVStore.Get
  repeat (first | exact h | split)

theorem KVStore.Inv_batchLoop (P : Platform) (env : Env) (entries : List (Bytes × Bytes)) :
    ∀ (i : Nat) (s : KVStore), KVStore.Inv s → KVStore.Inv (KVStore.batchLoop P env entries i s).1 := by
  induction entries with
  | nil => intro i s h; exact h
  | cons kv rest ih =>
    intro i s h
    obtain ⟨key, value⟩ := kv
    unfold KVStore.batchLoop
    split
    · exact h
    · exact ih _ _ h

theorem KVStore.Inv_PutBatch (P : Platform) (s : KVStore) (entries : List (Bytes × Bytes))
    (env : Env) (h : KVStore.Inv s) : KVStore.Inv (KVStore.PutBatch P s entries env).1 := by
  have hb := KVStore.Inv_batchLoop P env entries 0 s h
  unfold KVStore.PutBatch
  split
  · rename_i s1 heq
    rw [heq] at hb
    exact hb
  · rename_i s1 heq
    rw [heq] at hb
    simp only
    split
    · exact KVStore.Inv_FlushMemTable P _ env hb
    · exact hb

theorem KVStore.Inv_Flush (P : Platform) (s : KVStore) (env : Env) (h : KVStore.Inv s) :
    KVStore.Inv (KVStore.Flush P s env) := by
  unfold KVStore.Flush
  split
  · exact KVStore.Inv_FlushMemTable P s env h
  · exact h

theorem KVStore.loadLoop_index_nil (fs : FileSystem) (files : List Bytes) :
    ∀ (acc : List SSTable) (n : Nat) (r : List SSTable × Nat),
      (∀ t ∈ acc, t.index_ = []) → KVStore.loadLoop fs files acc n = some r →
      ∀ t ∈ r.1, t.index_ = [] := by
  induction files with
  | nil =>
    intro acc n r hacc hr
    simp only [KVStore.loadLoop, Option.some.injEq] at hr
    rw [← hr]
    exact hacc
  | cons file rest ih =>
    intro acc n r hacc hr
    unfold KVStore.loadLoop at hr
    simp only at hr
    split at hr
    · exact absurd hr (by simp)
    · refine ih _ _ r ?_ hr
      intro t ht
      rcases List.mem_append.mp ht with h1 | h1
      · exact hacc t h1
      · rw [List.mem_singleton.mp h1]
        exact SSTable.index_new _ _

theorem KVStore.Inv_new (P : Platform) (config : Config) (fs : FileSystem) (env : Env)
    (s : KVStore) (h : KVStore.new P config fs env = some s) : KVStore.Inv s := by
  unfold KVStore.new at h
  simp only at h
  split at h
  · exact absurd h (by simp)
  · rename_i sstables next_id heq
    simp only [Option.some.injEq] at h
    subst h
    refine ⟨rfl, ?_⟩
    exact KVStore.loadLoop_index_nil _ _ [] 0 (sstables, next_id) (by simp) heq

theorem KVStore.Inv_of_Reachable (P : Platform) (s : KVStore) (h : KVStore.Reachable P s) :
    KVStore.Inv s := by
  induction h with
  | init config fs env s h => exact KVStore.Inv_new P config fs env s h
  | put s key value env _ ih => exact KVStore.Inv_Put P s key value env ih
  | get s key env _ ih => exact KVStore.Inv_Get P s key env ih
  | delete s key env _ ih => exact KVStore.Inv_Delete P s key env ih
  | putBatch s entries env _ ih => exact KVStore.Inv_PutBatch P s entries env ih
  | flush s env _ ih => exact KVStore.Inv_Flush P s env ih
  | compact s env _ ih =>
    unfold KVStore.Compact
    rw [KVStore.MaybeCompact_eq]
    exact ih

theorem KVStore.Reachable_getMany (P : Platform) (key : Bytes) (envs : List Env) :
    ∀ s : KVStore, KVStore.Reachable P s → KVStore.Reachable P (KVStore.getMany P s key envs) := by
  induction envs with
  | nil => intro s h; exact h
  | cons env rest ih =>
    intro s h
    exact ih _ (KVStore.Reachable.get s key env h)

/-! ## Lemmas on `Get` -/

theorem LRUCache.Get_eq_none (c : LRUCache) (key : Bytes) (h : assocFind c.cache_map_ key = none) :
    (LRUCache.Get c key).2 = none := by
  simp [LRUCache.Get, h]

theorem LRUCache.find_Invalidate_self (c : LRUCache) (key : Bytes) :
    assocFind (LRUCache.Invalidate c key).cache_map_ key = none := by
  unfold LRUCache.Invalidate LRUCache.removeKey
  split
  · rename_i h
    exact h
  · exact assocFind_assocErase_self _ _

/-- The result of `KVStore::Get`, tier by tier. -/
theorem KVStore.Get_result (P : Platform) (s : KVStore) (key : Bytes) (env : Env) :
    (KVStore.Get P s key env).2 =
      ((LRUCache.Get s.cache_ key).2.or
        ((MemTable.Get s.memtable_ key).or
          ((s.immutable_memtable_.bind (fun m => MemTable.Get m key)).or
            (KVStore.searchTables P env.junk key s.sstables_.reverse)))) := by
  unfold KVStore.Get
  split
  · rename_i c1 v h
    simp [h]
  · rename_i c1 h
    simp only [h, Option.or]
    split
    · rename_i v h1
      simp [h1]
    · rename_i h1
      simp only [h1]
      split
      · rename_i v h2
        simp [h2]
      · rename_i h2
        simp only [h2]
        split
        · rename_i v h3
          simp [h3]
        · rename_i h3
          simp [h3]

/-- On a reachable store, a `Get` that misses the cache is answered by the active memtable alone. -/
theorem KVStore.Get_result_of_Inv (P : Platform) (s : KVStore) (key : Bytes) (env : Env)
    (h : KVStore.Inv s) :
    (KVStore.Get P s key env).2 = ((LRUCache.Get s.cache_ key).2.or (MemTable.Get s.memtable_ key)) := by
  have h1 : KVStore.searchTables P env.junk key s.sstables_.reverse = none :=
    KVStore.searchTables_index_nil P env.junk key _ (fun t ht => h.2 t (List.mem_reverse.mp ht))
  rw [KVStore.Get_result, h.1, h1]
  simp

/-! ## The example stores are stores of the program -/

theorem freshStore_constructed :
    KVStore.new examplePlatform defaultConfig [] exampleEnv = some freshStore := by decide

theorem zeroThresholdStore_constructed :
    KVStore.new examplePlatform zeroThresholdConfig [] exampleEnv = some zeroThresholdStore := by
  decide

theorem freshStore_reachable : KVStore.Reachable examplePlatform freshStore :=
  KVStore.Reachable.init defaultConfig [] exampleEnv freshStore freshStore_constructed

/-! ## C1, C2: put then get -/

/-- On a reachable store, a `Put` that returns `true` without reaching the flush
threshold is read back by the next `Get`. -/
theorem KVStore.Get_Put_below_threshold (P : Platform) (s : KVStore) (key value : Bytes)
    (env env2 : Env) (hs : KVStore.Reachable P s)
    (hput : (KVStore.Put P s key value env).2 = true)
    (hlow : MemTable.SizeBytes (MemTable.Put P s.memtable_ key value (env.clock 1)) <
      (s.config_.memtable_size_mb * 1024 * 1024) % U64) :
    (KVStore.Get P (KVStore.Put P s key value env).1 key env2).2 = some value := by
  have hinv := KVStore.Inv_Put P s key value env (KVStore.Inv_of_Reachable P s hs)
  rw [KVStore.Get_result_of_Inv P _ key env2 hinv]
  unfold KVStore.Put at hput ⊢
  split
  · rename_i h
    rw [h] at hput
    simp at hput
  · simp only
    rw [if_neg (Nat.not_le.mpr hlow)]
    simp only
    rw [LRUCache.Get_eq_none _ _ (LRUCache.find_Invalidate_self _ _)]
    simp [MemTable.Get_Put_self]

/-- On a reachable store, a `Put` that returns `true` and reaches the flush
threshold is not read back: the `Get` that follows returns `false`. -/
theorem KVStore.Get_Put_at_threshold (P : Platform) (s : KVStore) (key value : Bytes)
    (env env2 : Env) (hs : KVStore.Reachable P s)
    (hput : (KVStore.Put P s key value env).2 = true)
    (hhigh : (s.config_.memtable_size_mb * 1024 * 1024) % U64 ≤
      MemTable.SizeBytes (MemTable.Put P s.memtable_ key value (env.clock 1))) :
    (KVStore.Get P (KVStore.Put P s key value env).1 key env2).2 = none := by
  have hinv := KVStore.Inv_Put P s key value env (KVStore.Inv_of_Reachable P s hs)
  rw [KVStore.Get_result_of_Inv P _ key env2 hinv]
  unfold KVStore.Put at hput ⊢
  split
  · rename_i h
    rw [h] at hput
    simp at hput
  · simp only
    rw [if_pos hhigh]
    simp only
    rw [LRUCache.Get_eq_none _ _ (by
      rw [KVStore.cache_FlushMemTable]
      exact LRUCache.find_Invalidate_self _ _)]
    unfold KVStore.FlushMemTable
    simp only [MemTable.IsEmpty_Put, Bool.false_eq_true, if_false, KVStore.MaybeCompact_eq]
    rfl

/-- C1 (failing input): with `memtable_size_mb = 0` the store built by the
constructor accepts `Put("a", "1")` (it returns `true`), flushes, and the
`Get("a")` that follows at once returns `false`. -/
theorem C1_put_then_get_not_found :
    (KVStore.Put examplePlatform zeroThresholdStore [97] [49] exampleEnv).2 = true ∧
    (KVStore.Get examplePlatform
      (KVStore.Put examplePlatform zeroThresholdStore [97] [49] exampleEnv).1 [97] exampleEnv).2
      = none := by
  decide

/-- C2 (failing input): with `memtable_size_mb = 0`, after `Put("k", "v1")`, a
`Get("k")` and `Put("k", "v2")`, all accepted, the next `Get("k")` returns `false`. -/
theorem C2_overwrite_then_get_not_found :
    (KVStore.Put examplePlatform zeroThresholdStore [107] [118, 49] exampleEnv).2 = true ∧
    (KVStore.Put examplePlatform
      (KVStore.getMany examplePlatform
        (KVStore.Put examplePlatform zeroThresholdStore [107] [118, 49] exampleEnv).1 [107]
        [exampleEnv]) [107] [118, 50] exampleEnv).2 = true ∧
    (KVStore.Get examplePlatform
      (KVStore.Put examplePlatform
        (KVStore.getMany examplePlatform
          (KVStore.Put examplePlatform zeroThresholdStore [107] [118, 49] exampleEnv).1 [107]
          [exampleEnv]) [107] [118, 50] exampleEnv).1 [107] exampleEnv).2 = none := by
  decide

/-! ## C4: persistence across a flush or a close -/

/-- C4 (failing input): on the fresh store `Put("p", "x")` returns `true`; after
`Flush()`, and likewise after the destructor, a store constructed on the files
left behind returns `false` from `Get("p")`, although the file `./data/0.sst`
written by the flush holds the entry. -/
theorem C4_reopen_after_flush_not_found :
    (KVStore.Put examplePlatform freshStore [112] [120] exampleEnv).2 = true ∧
    FileSystem.read
      (KVStore.Flush examplePlatform
        (KVStore.Put examplePlatform freshStore [112] [120] exampleEnv).1 exampleEnv).fs_
      (KVStore.GetSSTablePath defaultConfig 0) =
      some (SSTable.fileContent examplePlatform
        [{ key := [112], value := [120], is_deleted := false, timestamp := 1001 }] true false) ∧
    (KVStore.new examplePlatform defaultConfig
      (KVStore.Flush examplePlatform
        (KVStore.Put examplePlatform freshStore [112] [120] exampleEnv).1 exampleEnv).fs_
      exampleEnv).map (fun s => (KVStore.Get examplePlatform s [112] exampleEnv).2) = some none ∧
    (KVStore.new examplePlatform defaultConfig
      (KVStore.close examplePlatform
        (KVStore.Put examplePlatform freshStore [112] [120] exampleEnv).1 exampleEnv)
      exampleEnv).map (fun s => (KVStore.Get examplePlatform s [112] exampleEnv).2) = some none := by
  decide

/-! ## The log read back by a store -/

theorem length_leBytes (n : Nat) : ∀ v : Nat, (leBytes n v).length = n := by
  induction n with
  | zero => intro v; rfl
  | succ n ih => intro v; simp [leBytes, ih]

theorem leValue_leBytes (n : Nat) : ∀ v : Nat, leValue (leBytes n v) = v % 256 ^ n := by
  induction n with
  | zero => intro v; simp [leBytes, leValue, Nat.mod_one]
  | succ n ih =>
    intro v
    simp only [leBytes, leValue, ih]
    rw [pow_succ', Nat.mod_mul]

theorem takeExact_append (n : Nat) (l rest : Bytes) (h : l.length = n) :
    takeExact n (l ++ rest) = some (l, rest) := by
  subst h
  simp [takeExact]

theorem WAL.ReadRecord_encode (r : WALRecord) (rest : Bytes) (h : WALRecord.WellFormed r) :
    WAL.ReadRecord (WAL.encode r ++ rest) = some (r, rest) := by
  obtain ⟨h1, h2, h3, h4, h5⟩ := h
  have hk : r.key.length % U32 = r.key.length := Nat.mod_eq_of_lt h2
  have hv : r.value.length % U32 = r.value.length := Nat.mod_eq_of_lt h3
  unfold WAL.ReadRecord WAL.encode
  simp only [hk, hv, List.take_length, List.append_assoc]
  rw [takeExact_append 1 _ _ (length_leBytes 1 _)]
  simp only
  rw [takeExact_append 4 _ _ (length_leBytes 4 _)]
  simp only
  have e1 : leValue (leBytes 4 r.key.length) = r.key.length := by
    rw [leValue_leBytes]; exact Nat.mod_eq_of_lt h2
  rw [e1, takeExact_append _ _ _ rfl]
  simp only
  rw [takeExact_append 4 _ _ (length_leBytes 4 _)]
  simp only
  have e2 : leValue (leBytes 4 r.value.length) = r.value.length := by
    rw [leValue_leBytes]; exact Nat.mod_eq_of_lt h3
  rw [e2, takeExact_append _ _ _ rfl]
  simp only
  rw [takeExact_append 8 _ _ (length_leBytes 8 _)]
  simp only
  have e3 := takeExact_append 4 (leBytes 4 r.checksum) rest (length_leBytes 4 _)
  rw [e3]
  simp only [leValue_leBytes]
  have a1 : r.type % 256 ^ 1 = r.type := Nat.mod_eq_of_lt (by simpa using h1)
  have a2 : r.timestamp % 256 ^ 8 = r.timestamp := Nat.mod_eq_of_lt h4
  have a3 : r.checksum % 256 ^ 4 = r.checksum := Nat.mod_eq_of_lt h5
  rw [a1, a2, a3]

theorem WAL.encodeAll_append (rs rs2 : List WALRecord) :
    WAL.encodeAll (rs ++ rs2) = WAL.encodeAll rs ++ WAL.encodeAll rs2 := by
  simp [WAL.encodeAll]

theorem WAL.readLoop_nil (P : Platform) (fuel : Nat) : WAL.readLoop P fuel [] = [] := by
  cases fuel <;> simp [WAL.readLoop, WAL.ReadRecord, takeExact]

theorem WAL.readLoop_encodeAll (P : Platform) (rs : List WALRecord) :
    ∀ fuel : Nat, rs.length ≤ fuel → (∀ r ∈ rs, WALRecord.WellFormed r) →
      WAL.readLoop P fuel (WAL.encodeAll rs) = rs.filter (WAL.VerifyChecksum P) := by
  induction rs with
  | nil => intro fuel _ _; exact WAL.readLoop_nil P fuel
  | cons r rest ih =>
    intro fuel hfuel hwf
    obtain ⟨n, rfl⟩ : ∃ n, fuel = n + 1 := ⟨fuel - 1, by simp at hfuel; omega⟩
    have hr := WAL.ReadRecord_encode r (WAL.encodeAll rest) (hwf r (List.mem_cons_self _ _))
    have hrest := ih n (by simpa using hfuel) (fun x hx => hwf x (List.mem_cons_of_mem _ hx))
    have he : WAL.encodeAll (r :: rest) = WAL.encode r ++ WAL.encodeAll rest := by
      simp [WAL.encodeAll]
    rw [he]
    unfold WAL.readLoop
    rw [hr]
    simp only [hrest, List.filter_cons]

theorem WAL.length_encode_pos (r : WALRecord) : 0 < (WAL.encode r).length := by
  simp [WAL.encode, length_leBytes]

theorem WAL.length_le_encodeAll (rs : List WALRecord) : rs.length ≤ (WAL.encodeAll rs).length := by
  induction rs with
  | nil => simp
  | cons r rest ih =>
    have he : WAL.encodeAll (r :: rest) = WAL.encode r ++ WAL.encodeAll rest := by
      simp [WAL.encodeAll]
    have := WAL.length_encode_pos r
    rw [he, List.length_append, List.length_cons]
    omega

theorem WAL.ReadAll_of_content (P : Platform) (w : WAL) (fs : FileSystem) (rs : List WALRecord)
    (hc : WAL.content w fs = WAL.encodeAll rs) (hwf : ∀ r ∈ rs, WALRecord.WellFormed r) :
    WAL.ReadAll P w fs = rs.filter (WAL.VerifyChecksum P) := by
  unfold WAL.ReadAll
  unfold WAL.content at hc
  cases hread : FileSystem.read fs w.filename_ with
  | none =>
    rw [hread] at hc
    simp only [Option.getD_none] at hc
    have : rs = [] := by
      cases rs with
      | nil => rfl
      | cons r rest =>
        have h1 := WAL.length_le_encodeAll (r :: rest)
        rw [← hc] at h1
        simp at h1
    simp [this]
  | some content =>
    rw [hread] at hc
    simp only [Option.getD_some] at hc
    simp only
    rw [hc]
    exact WAL.readLoop_encodeAll P rs _ (WAL.length_le_encodeAll rs) hwf

theorem MemTable.sameGets_Put (P : Platform) (m m2 : MemTable) (key value : Bytes) (now now2 : Nat)
    (h : MemTable.sameGets m m2) :
    MemTable.sameGets (MemTable.Put P m key value now) (MemTable.Put P m2 key value now2) := by
  intro k
  by_cases hk : k = key
  · subst hk
    rw [MemTable.Get_Put_self, MemTable.Get_Put_self]
  · rw [MemTable.Get_Put_ne _ _ _ _ _ _ hk, MemTable.Get_Put_ne _ _ _ _ _ _ hk]
    exact h k

theorem MemTable.sameGets_Delete (P : Platform) (m m2 : MemTable) (key : Bytes) (now now2 : Nat)
    (h : MemTable.sameGets m m2) :
    MemTable.sameGets (MemTable.Delete P m key now) (MemTable.Delete P m2 key now2) := by
  intro k
  by_cases hk : k = key
  · subst hk
    rw [MemTable.Get_Delete_self, MemTable.Get_Delete_self]
  · rw [MemTable.Get_Delete_ne _ _ _ _ _ hk, MemTable.Get_Delete_ne _ _ _ _ _ hk]
    exact h k

theorem KVStore.sameGets_recoverLoop (P : Platform) (clock clock2 : Nat → Nat)
    (rs : List WALRecord) :
    ∀ (i i2 : Nat) (m m2 : MemTable), MemTable.sameGets m m2 →
      MemTable.sameGets (KVStore.recoverLoop P clock rs i m)
        (KVStore.recoverLoop P clock2 rs i2 m2) := by
  induction rs with
  | nil => intro i i2 m m2 h; exact h
  | cons r rest ih =>
    intro i i2 m m2 h
    unfold KVStore.recoverLoop
    split
    · exact ih _ _ _ _ (MemTable.sameGets_Put P m m2 _ _ _ _ h)
    · split
      · exact ih _ _ _ _ (MemTable.sameGets_Delete P m m2 _ _ _ h)
      · exact ih _ _ _ _ h

theorem KVStore.recoverLoop_append (P : Platform) (clock : Nat → Nat) (rs rs2 : List WALRecord) :
    ∀ (i : Nat) (m : MemTable),
      KVStore.recoverLoop P clock (rs ++ rs2) i m =
        KVStore.recoverLoop P clock rs2 (i + rs.length) (KVStore.recoverLoop P clock rs i m) := by
  induction rs with
  | nil => intro i m; rfl
  | cons r rest ih =>
    intro i m
    have hi : i + (r :: rest).length = (i + 1) + rest.length := by simp; omega
    rw [hi]
    have h3 : ¬ (WALRecordType.DELETE = WALRecordType.PUT) := by decide
    by_cases h1 : r.type = WALRecordType.PUT
    · simp only [List.cons_append, KVStore.recoverLoop, h1, if_true]
      exact ih _ _
    · by_cases h2 : r.type = WALRecordType.DELETE
      · simp only [List.cons_append, KVStore.recoverLoop, h2, h3, if_true, if_false]
        exact ih _ _
      · simp only [List.cons_append, KVStore.recoverLoop, h1, h2, if_false]
        exact ih _ _

theorem hasSstExtension_walPath (config : Config) :
    hasSstExtension (KVStore.walPath config) = false := by
  have h : pathFilename (KVStore.walPath config) = [119, 97, 108, 46, 108, 111, 103] := by
    simp [pathFilename, KVStore.walPath, List.takeWhile]
  simp only [hasSstExtension, h]
  decide

theorem filter_keys_assocErase {V : Type} (q : Bytes → Bool) (p : Bytes) (hq : q p = false)
    (fs : List (Bytes × V)) :
    ((assocErase fs p).map Prod.fst).filter q = (fs.map Prod.fst).filter q := by
  induction fs with
  | nil => rfl
  | cons kv rest ih =>
    obtain ⟨k, v⟩ := kv
    by_cases hk : k = p
    · subst hk
      simp [assocErase, hq, ih]
    · simp [assocErase, hk, List.filter_cons, ih]

theorem sstFiles_assocSet (fs : FileSystem) (dir p content : Bytes)
    (hp : hasSstExtension p = false) : sstFiles (assocSet fs p content) dir = sstFiles fs dir := by
  unfold sstFiles listDirectory
  rw [List.filter_filter, List.filter_filter]
  simp only [assocSet, List.map_cons]
  rw [List.filter_cons]
  simp only [hp, Bool.false_and, Bool.false_eq_true, if_false]
  exact filter_keys_assocErase _ p (by simp [hp]) fs

theorem sstFiles_create (fs : FileSystem) (dir p : Bytes) (hp : hasSstExtension p = false) :
    sstFiles (FileSystem.create fs p) dir = sstFiles fs dir := by
  unfold FileSystem.create
  split
  · rfl
  · exact sstFiles_assocSet fs dir p [] hp

theorem sstFiles_append (fs : FileSystem) (dir p content : Bytes)
    (hp : hasSstExtension p = false) :
    sstFiles (FileSystem.append fs p content) dir = sstFiles fs dir :=
  sstFiles_assocSet fs dir p _ hp

theorem content_create (fs : FileSystem) (p : Bytes) :
    (FileSystem.read (FileSystem.create fs p) p).getD [] = (FileSystem.read fs p).getD [] := by
  unfold FileSystem.create FileSystem.read
  split
  · rfl
  · rename_i h
    rw [assocFind_assocSet_self, h]
    rfl

theorem content_append (fs : FileSystem) (p content : Bytes) :
    (FileSystem.read (FileSystem.append fs p content) p).getD [] =
      (FileSystem.read fs p).getD [] ++ content := by
  unfold FileSystem.append FileSystem.read
  rw [assocFind_assocSet_self]
  rfl

theorem KVStore.loadLoop_isSome (fs fs2 : FileSystem) (files : List Bytes) :
    ∀ (acc acc2 : List SSTable) (n n2 : Nat),
      (KVStore.loadLoop fs files acc n).isSome = (KVStore.loadLoop fs2 files acc2 n2).isSome := by
  induction files with
  | nil => intro acc acc2 n n2; rfl
  | cons file rest ih =>
    intro acc acc2 n n2
    unfold KVStore.loadLoop
    simp only
    split
    · rfl
    · exact ih _ _ _ _

theorem KVStore.LogInv_new (P : Platform) (config : Config) (fs : FileSystem) (env : Env)
    (s : KVStore) (rs : List WALRecord) (hnew : KVStore.new P config fs env = some s)
    (hlog : (FileSystem.read fs (KVStore.walPath config)).getD [] = WAL.encodeAll rs)
    (hwf : ∀ r ∈ rs, WALRecord.WellFormed r) :
    KVStore.LogInv P config (sstFiles fs config.data_dir) s rs := by
  have hinv := KVStore.Inv_new P config fs env s hnew
  unfold KVStore.new at hnew
  simp only at hnew
  split at hnew
  · exact absurd hnew (by simp)
  · rename_i sstables next_id heq
    simp only [Option.some.injEq] at hnew
    have hfile : (WAL.new fs (KVStore.walPath config) (env.open_ok (KVStore.walPath config))).1.filename_
        = KVStore.walPath config := by
      unfold WAL.new; split <;> rfl
    have hcontent : WAL.content
        (WAL.new fs (KVStore.walPath config) (env.open_ok (KVStore.walPath config))).1
        (WAL.new fs (KVStore.walPath config) (env.open_ok (KVStore.walPath config))).2
        = WAL.encodeAll rs := by
      unfold WAL.content
      rw [hfile, ← hlog]
      unfold WAL.new
      split
      · exact content_create fs _
      · rfl
    have hfiles : sstFiles
        (WAL.new fs (KVStore.walPath config) (env.open_ok (KVStore.walPath config))).2
        config.data_dir = sstFiles fs config.data_dir := by
      unfold WAL.new
      split
      · exact sstFiles_create fs _ _ (hasSstExtension_walPath config)
      · rfl
    subst hnew
    refine ⟨hinv, rfl, hfile, hcontent, hwf, ?_, rfl, hfiles⟩
    simp only [KVStore.RecoverFromWAL]
    rw [WAL.ReadAll_of_content P _ _ rs hcontent hwf]
    exact KVStore.sameGets_recoverLoop P _ _ _ _ _ _ _ (fun _ => rfl)

theorem WAL.VerifyChecksum_recordOf (P : Platform) (type : Nat) (key value : Bytes) (now : Nat) :
    WAL.VerifyChecksum P (WAL.recordOf P type key value now) = true := by
  simp [WAL.VerifyChecksum, WAL.recordOf, WAL.ComputeChecksum]

theorem WAL.WellFormed_recordOf (P : Platform) (type : Nat) (key value : Bytes) (now : Nat)
    (ht : type < 256) (hk : key.length < U32) (hv : value.length < U32) :
    WALRecord.WellFormed (WAL.recordOf P type key value now) := by
  refine ⟨ht, hk, hv, Nat.mod_lt _ (by decide), ?_⟩
  simp only [WAL.recordOf, WAL.ComputeChecksum]
  exact Nat.mod_lt _ (by decide)

/-- A successful `WAL::Append` appends the encoding of its record to the log file
and leaves the other files alone. -/
theorem WAL.Append_true (P : Platform) (w : WAL) (fs : FileSystem) (type : Nat)
    (key value : Bytes) (now : Nat) (write_ok : Bool)
    (h : (WAL.Append P w fs type key value now write_ok).2 = true) :
    (WAL.Append P w fs type key value now write_ok).1.1.filename_ = w.filename_ ∧
    (WAL.Append P w fs type key value now write_ok).1.2 =
      FileSystem.append fs w.filename_ (WAL.encode (WAL.recordOf P type key value now)) := by
  unfold WAL.Append WAL.WriteRecord at h ⊢
  simp only at h ⊢
  split
  · exact ⟨rfl, rfl⟩
  · rename_i hc
    simp [hc] at h

theorem LRUCache.Invalidate_of_empty (c : LRUCache) (key : Bytes) (h : c.cache_map_ = []) :
    LRUCache.Invalidate c key = c := by
  simp [LRUCache.Invalidate, LRUCache.removeKey, h, assocFind]

theorem KVStore.replay_snoc (P : Platform) (rs : List WALRecord) (r : WALRecord) :
    KVStore.replay P (rs ++ [r]) =
      KVStore.recoverLoop P (fun _ => 0) [r] (0 + rs.length) (KVStore.replay P rs) := by
  unfold KVStore.replay
  exact KVStore.recoverLoop_append P _ rs [r] 0 MemTable.new

theorem KVStore.LogInv_applyWrite (P : Platform) (config : Config) (files : List Bytes)
    (s : KVStore) (rs : List WALRecord) (op : WriteOp) (env : Env)
    (h : KVStore.LogInv P config files s rs)
    (hok : (KVStore.applyWrite P s op env).2 = true)
    (hquiet : KVStore.writeFlushes P s op env = false)
    (hfits : WriteOp.fits op = true) :
    KVStore.LogInv P config files (KVStore.applyWrite P s op env).1
      (rs ++ [WriteOp.record P op env]) := by
  cases op with
  | put key value =>
    simp only [WriteOp.fits, Bool.and_eq_true, decide_eq_true_eq] at hfits
    simp only [KVStore.writeFlushes, KVStore.putReachesThreshold, decide_eq_false_iff_not] at hquiet
    show KVStore.LogInv P config files _
      (rs ++ [WAL.recordOf P WALRecordType.PUT key value (env.clock 0)])
    have hr := WAL.WellFormed_recordOf P WALRecordType.PUT key value (env.clock 0) (by decide)
      hfits.1 hfits.2
    have hv := WAL.VerifyChecksum_recordOf P WALRecordType.PUT key value (env.clock 0)
    simp only [KVStore.applyWrite] at hok ⊢
    unfold KVStore.Put at hok ⊢
    split
    · rename_i wal1 fs1 heq
      rw [heq] at hok
      simp at hok
    · rename_i wal1 fs1 heq
      have ha := WAL.Append_true P s.wal_ s.fs_ WALRecordType.PUT key value (env.clock 0)
        (env.write_ok 0) (by rw [heq])
      rw [heq] at ha
      simp only at ha
      obtain ⟨ha1, ha2⟩ := ha
      simp only
      rw [if_neg (by rw [h.cfg]; rw [h.cfg] at hquiet; exact hquiet)]
      refine ⟨h.inv, h.cfg, ha1.trans h.path, ?_, ?_, ?_, ?_, ?_⟩
      · show WAL.content wal1 fs1 = _
        unfold WAL.content
        rw [ha1, ha2, content_append, WAL.encodeAll_append]
        have := h.content
        unfold WAL.content at this
        rw [this]
        simp [WAL.encodeAll]
      · intro x hx
        rcases List.mem_append.mp hx with h1 | h1
        · exact h.wf x h1
        · rw [List.mem_singleton.mp h1]; exact hr
      · show MemTable.sameGets (MemTable.Put P s.memtable_ key value (env.clock 1)) _
        rw [List.filter_append]
        simp only [List.filter_cons, hv, if_true, List.filter_nil]
        rw [KVStore.replay_snoc]
        simp only [KVStore.recoverLoop, WAL.recordOf, if_true]
        exact MemTable.sameGets_Put P _ _ _ _ _ _ h.gets
      · show (LRUCache.Invalidate s.cache_ key).cache_map_ = []
        rw [LRUCache.Invalidate_of_empty _ _ h.cache]
        exact h.cache
      · show sstFiles fs1 config.data_dir = files
        rw [ha2, h.path, sstFiles_append _ _ _ _ (hasSstExtension_walPath config)]
        exact h.sst
  | delete key =>
    simp only [WriteOp.fits, decide_eq_true_eq] at hfits
    show KVStore.LogInv P config files _
      (rs ++ [WAL.recordOf P WALRecordType.DELETE key [] (env.clock 0)])
    have hr := WAL.WellFormed_recordOf P WALRecordType.DELETE key [] (env.clock 0) (by decide)
      hfits (by decide)
    have hv := WAL.VerifyChecksum_recordOf P WALRecordType.DELETE key [] (env.clock 0)
    simp only [KVStore.applyWrite] at hok ⊢
    unfold KVStore.Delete at hok ⊢
    split
    · rename_i wal1 fs1 heq
      rw [heq] at hok
      simp at hok
    · rename_i wal1 fs1 heq
      have ha := WAL.Append_true P s.wal_ s.fs_ WALRecordType.DELETE key [] (env.clock 0)
        (env.write_ok 0) (by rw [heq])
      rw [heq] at ha
      simp only at ha
      obtain ⟨ha1, ha2⟩ := ha
      refine ⟨h.inv, h.cfg, ha1.trans h.path, ?_, ?_, ?_, ?_, ?_⟩
      · show WAL.content wal1 fs1 = _
        unfold WAL.content
        rw [ha1, ha2, content_append, WAL.encodeAll_append]
        have := h.content
        unfold WAL.content at this
        rw [this]
        simp [WAL.encodeAll]
      · intro x hx
        rcases List.mem_append.mp hx with h1 | h1
        · exact h.wf x h1
        · rw [List.mem_singleton.mp h1]; exact hr
      · show MemTable.sameGets (MemTable.Delete P s.memtable_ key (env.clock 1)) _
        rw [List.filter_append]
        simp only [List.filter_cons, hv, if_true, List.filter_nil]
        rw [KVStore.replay_snoc]
        have h3 : ¬ (WALRecordType.DELETE = WALRecordType.PUT) := by decide
        simp only [KVStore.recoverLoop, WAL.recordOf, h3, if_true, if_false]
        exact MemTable.sameGets_Delete P _ _ _ _ _ h.gets
      · show (LRUCache.Invalidate s.cache_ key).cache_map_ = []
        rw [LRUCache.Invalidate_of_empty _ _ h.cache]
        exact h.cache
      · show sstFiles fs1 config.data_dir = files
        rw [ha2, h.path, sstFiles_append _ _ _ _ (hasSstExtension_walPath config)]
        exact h.sst

theorem KVStore.LogInv_runWrites (P : Platform) (config : Config) (files : List Bytes)
    (ops : List (WriteOp × Env)) :
    ∀ (s : KVStore) (rs : List WALRecord), KVStore.LogInv P config files s rs →
      KVStore.quietWrites P s ops = true → (∀ op ∈ ops, WriteOp.fits op.1 = true) →
      KVStore.LogInv P config files (KVStore.runWrites P s ops)
        (rs ++ ops.map (fun oe => WriteOp.record P oe.1 oe.2)) := by
  induction ops with
  | nil => intro s rs h _ _; simpa [KVStore.runWrites] using h
  | cons oe rest ih =>
    intro s rs h hq hf
    obtain ⟨op, env⟩ := oe
    simp only [KVStore.quietWrites, Bool.and_eq_true, Bool.not_eq_true'] at hq
    obtain ⟨⟨hq1, hq2⟩, hq3⟩ := hq
    have hr := KVStore.LogInv_applyWrite P config files s rs op env h hq1 hq2
      (hf (op, env) (List.mem_cons_self _ _))
    have := ih _ _ hr hq3 (fun x hx => hf x (List.mem_cons_of_mem _ hx))
    simpa [KVStore.runWrites, List.append_assoc] using this

theorem WAL.VerifyChecksum_record (P : Platform) (op : WriteOp) (env : Env) :
    WAL.VerifyChecksum P (WriteOp.record P op env) = true := by
  cases op <;> exact WAL.VerifyChecksum_recordOf P _ _ _ _

/-! ## The cache on runs whose calls return -/

theorem assocFind_of_mem_nodup {V : Type} (l : List (Nat × V)) (it : Nat) (e : V)
    (hnd : (l.map Prod.fst).Nodup) (hm : (it, e) ∈ l) : assocFind l it = some e := by
  induction l with
  | nil => simp at hm
  | cons n rest ih =>
    obtain ⟨a, b⟩ := n
    simp only [List.map_cons, List.nodup_cons] at hnd
    rcases List.mem_cons.mp hm with h | h
    · simp only [Prod.mk.injEq] at h
      obtain ⟨rfl, rfl⟩ := h
      simp [assocFind]
    · have hne : a ≠ it := by
        intro e1
        subst e1
        exact hnd.1 (List.mem_map.mpr ⟨(a, e), h, rfl⟩)
      simp only [assocFind, hne, if_false]
      exact ih hnd.2 h

theorem mem_of_assocFind {K V : Type} [DecidableEq K] (l : List (K × V)) (k : K) (v : V)
    (h : assocFind l k = some v) : (k, v) ∈ l := by
  induction l with
  | nil => simp [assocFind] at h
  | cons n rest ih =>
    obtain ⟨a, b⟩ := n
    by_cases ha : a = k
    · subst ha
      simp only [assocFind, if_true, Option.some.injEq] at h
      subst h
      exact List.mem_cons_self _ _
    · simp only [assocFind, ha, if_false] at h
      exact List.mem_cons_of_mem _ (ih h)

theorem LRUCache.mem_listErase (l : List (Nat × CacheEntry)) (it : Nat) (n : Nat × CacheEntry)
    (h : n ∈ LRUCache.listErase l it) : n ∈ l := by
  induction l with
  | nil => simp [LRUCache.listErase] at h
  | cons m rest ih =>
    obtain ⟨a, b⟩ := m
    by_cases ha : a = it
    · simp only [LRUCache.listErase, ha, if_true] at h
      exact List.mem_cons_of_mem _ h
    · simp only [LRUCache.listErase, ha, if_false] at h
      rcases List.mem_cons.mp h with h1 | h1
      · rw [h1]; exact List.mem_cons_self _ _
      · exact List.mem_cons_of_mem _ (ih h1)

theorem LRUCache.mem_listErase_of_ne (l : List (Nat × CacheEntry)) (it : Nat)
    (n : Nat × CacheEntry) (h : n ∈ l) (hne : n.1 ≠ it) : n ∈ LRUCache.listErase l it := by
  induction l with
  | nil => simp at h
  | cons m rest ih =>
    obtain ⟨a, b⟩ := m
    by_cases ha : a = it
    · simp only [LRUCache.listErase, ha, if_true]
      rcases List.mem_cons.mp h with h1 | h1
      · rw [h1] at hne
        exact absurd ha hne
      · exact h1
    · simp only [LRUCache.listErase, ha, if_false]
      rcases List.mem_cons.mp h with h1 | h1
      · rw [h1]; exact List.mem_cons_self _ _
      · exact List.mem_cons_of_mem _ (ih h1)

theorem LRUCache.nodup_listErase (l : List (Nat × CacheEntry)) (it : Nat)
    (h : (l.map Prod.fst).Nodup) : ((LRUCache.listErase l it).map Prod.fst).Nodup := by
  induction l with
  | nil => simp [LRUCache.listErase]
  | cons m rest ih =>
    obtain ⟨a, b⟩ := m
    simp only [List.map_cons, List.nodup_cons] at h
    by_cases ha : a = it
    · simp only [LRUCache.listErase, ha, if_true]
      exact h.2
    · simp only [LRUCache.listErase, ha, if_false, List.map_cons, List.nodup_cons]
      refine ⟨?_, ih h.2⟩
      intro hm
      obtain ⟨n, hn, hn1⟩ := List.mem_map.mp hm
      exact h.1 (List.mem_map.mpr ⟨n, LRUCache.mem_listErase rest it n hn, hn1⟩)

theorem LRUCache.not_mem_listErase (l : List (Nat × CacheEntry)) (it : Nat)
    (h : (l.map Prod.fst).Nodup) : it ∉ (LRUCache.listErase l it).map Prod.fst := by
  induction l with
  | nil => simp [LRUCache.listErase]
  | cons m rest ih =>
    obtain ⟨a, b⟩ := m
    simp only [List.map_cons, List.nodup_cons] at h
    by_cases ha : a = it
    · simp only [LRUCache.listErase, ha, if_true]
      rw [← ha]
      exact h.1
    · simp only [LRUCache.listErase, ha, if_false, List.map_cons, List.mem_cons, not_or]
      exact ⟨fun e => ha e.symm, ih h.2⟩

theorem LRUCache.Sound_cacheNew (capacity : Nat) (truth : Bytes → Option Bytes) :
    LRUCache.Sound (LRUCache.new capacity) truth := by
  refine ⟨by simp [LRUCache.new], by simp [LRUCache.new], ?_⟩
  intro k it h
  simp [LRUCache.new, assocFind] at h

theorem LRUCache.Sound_cacheGet (c : LRUCache) (key : Bytes) (truth : Bytes → Option Bytes)
    (h : LRUCache.Sound c truth) : LRUCache.Sound (LRUCache.Get c key).1 truth := by
  obtain ⟨h1, h2, h3⟩ := h
  unfold LRUCache.Get
  split
  · exact ⟨h1, h2, h3⟩
  · rename_i it hfind
    obtain ⟨e, he, _, _⟩ := h3 key it hfind
    have hf : assocFind c.lru_list_ it = some e := assocFind_of_mem_nodup _ _ _ h1 he
    simp only [LRUCache.spliceFront, hf]
    refine ⟨?_, ?_, ?_⟩
    · simp only [List.map_cons, List.nodup_cons]
      exact ⟨LRUCache.not_mem_listErase _ _ h1, LRUCache.nodup_listErase _ _ h1⟩
    · intro n hn
      rcases List.mem_cons.mp hn with hn1 | hn1
      · rw [hn1]; exact h2 _ he
      · exact h2 n (LRUCache.mem_listErase _ _ _ hn1)
    · intro k it2 hk
      obtain ⟨e2, he2, hk2, ht2⟩ := h3 k it2 hk
      refine ⟨e2, ?_, hk2, ht2⟩
      by_cases hi : it2 = it
      · subst hi
        have : e2 = e := by
          have := assocFind_of_mem_nodup _ _ _ h1 he2
          rw [hf] at this
          exact (Option.some.inj this).symm
        rw [this]
        exact List.mem_cons_self _ _
      · exact List.mem_cons_of_mem _ (LRUCache.mem_listErase_of_ne _ _ _ he2 hi)

/-- A hit of the cache returns the value that `truth` gives for the key. -/
theorem LRUCache.Get_some_of_Sound (c : LRUCache) (key v : Bytes) (truth : Bytes → Option Bytes)
    (h : LRUCache.Sound c truth) (hv : (LRUCache.Get c key).2 = some v) : truth key = some v := by
  obtain ⟨h1, h2, h3⟩ := h
  unfold LRUCache.Get at hv
  split at hv
  · simp at hv
  · rename_i it hfind
    obtain ⟨e, he, _, ht⟩ := h3 key it hfind
    have hf : assocFind c.lru_list_ it = some e := assocFind_of_mem_nodup _ _ _ h1 he
    simp only [LRUCache.spliceFront, hf, LRUCache.deref, assocFind, if_true,
      Option.some.injEq] at hv
    rw [← hv]
    exact ht

/-- Removing a key keeps the cache sound for every `truth2` that agrees with
`truth` on the other keys. -/
theorem LRUCache.Sound_removeKey (c : LRUCache) (key : Bytes) (truth truth2 : Bytes → Option Bytes)
    (h : LRUCache.Sound c truth) (hagree : ∀ k, k ≠ key → truth2 k = truth k) :
    LRUCache.Sound (LRUCache.removeKey c key) truth2 := by
  obtain ⟨h1, h2, h3⟩ := h
  unfold LRUCache.removeKey
  split
  · rename_i hfind
    refine ⟨h1, h2, ?_⟩
    intro k it hk
    have hne : k ≠ key := by
      intro e
      subst e
      rw [hfind] at hk
      exact absurd hk (by simp)
    obtain ⟨e, he, hk2, ht⟩ := h3 k it hk
    exact ⟨e, he, hk2, by rw [hagree k hne]; exact ht⟩
  · rename_i it hfind
    refine ⟨LRUCache.nodup_listErase _ _ h1,
      fun n hn => h2 n (LRUCache.mem_listErase _ _ _ hn), ?_⟩
    intro k it2 hk
    have hne : k ≠ key := by
      intro e
      subst e
      rw [assocFind_assocErase_self] at hk
      exact absurd hk (by simp)
    rw [assocFind_assocErase_ne _ _ _ hne] at hk
    obtain ⟨e, he, hk2, ht⟩ := h3 k it2 hk
    refine ⟨e, ?_, hk2, by rw [hagree k hne]; exact ht⟩
    apply LRUCache.mem_listErase_of_ne _ _ _ he
    intro hi
    simp only at hi
    subst hi
    obtain ⟨e0, he0, hk0, _⟩ := h3 key it2 hfind
    have e1 := assocFind_of_mem_nodup _ _ _ h1 he
    have e2 := assocFind_of_mem_nodup _ _ _ h1 he0
    rw [e1] at e2
    have : e = e0 := Option.some.inj e2
    rw [this, hk0] at hk2
    exact hne hk2.symm

theorem LRUCache.find_removeKey_self (c : LRUCache) (key : Bytes) :
    assocFind (LRUCache.removeKey c key).cache_map_ key = none :=
  LRUCache.find_Invalidate_self c key

theorem LRUCache.find_removeKey_of_none (c : LRUCache) (key other : Bytes)
    (h : assocFind c.cache_map_ other = none) :
    assocFind (LRUCache.removeKey c key).cache_map_ other = none := by
  unfold LRUCache.removeKey
  split
  · exact h
  · by_cases hk : other = key
    · subst hk
      exact assocFind_assocErase_self _ _
    · simp only
      rw [assocFind_assocErase_ne _ _ _ hk]
      exact h

theorem LRUCache.Sound_Evict (c : LRUCache) (truth : Bytes → Option Bytes)
    (h : LRUCache.Sound c truth) : LRUCache.Sound (LRUCache.Evict c) truth := by
  obtain ⟨h1, h2, h3⟩ := h
  unfold LRUCache.Evict
  split
  · exact ⟨h1, h2, h3⟩
  · rename_i idb eb hlast
    have hsplit : c.lru_list_ = c.lru_list_.dropLast ++ [(idb, eb)] := by
      have := List.dropLast_append_getLast? (idb, eb) (by simpa using hlast)
      exact this.symm
    have hsub : ∀ n, n ∈ c.lru_list_.dropLast → n ∈ c.lru_list_ := fun n hn =>
      (List.dropLast_sublist _).subset hn
    refine ⟨?_, fun n hn => h2 n (hsub n hn), ?_⟩
    · exact h1.sublist ((List.dropLast_sublist _).map Prod.fst)
    · intro k it hk
      have hne : k ≠ eb.key := by
        intro e
        subst e
        rw [assocFind_assocErase_self] at hk
        exact absurd hk (by simp)
      simp only at hk
      rw [assocFind_assocErase_ne _ _ _ hne] at hk
      obtain ⟨e, he, hk2, ht⟩ := h3 k it hk
      refine ⟨e, ?_, hk2, ht⟩
      rw [hsplit] at he
      rcases List.mem_append.mp he with h4 | h4
      · exact h4
      · simp only [List.mem_singleton, Prod.mk.injEq] at h4
        rw [h4.2] at hk2
        exact absurd hk2.symm hne

theorem LRUCache.Sound_evictLoop (truth : Bytes → Option Bytes) (entry_size : Nat) :
    ∀ (fuel : Nat) (c : LRUCache), LRUCache.Sound c truth →
      LRUCache.Sound (LRUCache.evictLoop fuel c entry_size) truth := by
  intro fuel
  induction fuel with
  | zero => intro c h; exact h
  | succ n ih =>
    intro c h
    unfold LRUCache.evictLoop
    split
    · exact ih _ (LRUCache.Sound_Evict c truth h)
    · exact h

theorem LRUCache.find_Evict_of_none (c : LRUCache) (key : Bytes)
    (h : assocFind c.cache_map_ key = none) :
    assocFind (LRUCache.Evict c).cache_map_ key = none := by
  unfold LRUCache.Evict
  split
  · exact h
  · rename_i idb eb _
    by_cases hk : key = eb.key
    · subst hk
      exact assocFind_assocErase_self _ _
    · simp only
      rw [assocFind_assocErase_ne _ _ _ hk]
      exact h

theorem LRUCache.Sound_cachePut (P : Platform) (c : LRUCache) (key value : Bytes)
    (truth : Bytes → Option Bytes) (h : LRUCache.Sound c truth) (ht : truth key = some value) :
    LRUCache.Sound (LRUCache.Put P c key value) truth := by
  have hc1 := LRUCache.Sound_removeKey c key truth truth h (fun _ _ => rfl)
  have hc2 := LRUCache.Sound_evictLoop truth (LRUCache.EstimateSize P key value)
    (LRUCache.removeKey c key).lru_list_.length _ hc1
  unfold LRUCache.Put
  simp only
  generalize LRUCache.evictLoop (LRUCache.removeKey c key).lru_list_.length
    (LRUCache.removeKey c key) (LRUCache.EstimateSize P key value) = c2 at hc2 ⊢
  obtain ⟨h1, h2, h3⟩ := hc2
  refine ⟨?_, ?_, ?_⟩
  · simp only [List.map_cons, List.nodup_cons]
    refine ⟨?_, h1⟩
    intro hm
    obtain ⟨n, hn, hn1⟩ := List.mem_map.mp hm
    have := h2 n hn
    omega
  · intro n hn
    rcases List.mem_cons.mp hn with hn1 | hn1
    · rw [hn1]; simp
    · have := h2 n hn1
      simp only
      omega
  · intro k it hk
    by_cases hkey : k = key
    · subst hkey
      simp only at hk
      rw [assocFind_assocSet_self] at hk
      have : it = c2.next_node_ := (Option.some.inj hk).symm
      subst this
      exact ⟨_, List.mem_cons_self _ _, rfl, ht⟩
    · simp only at hk
      rw [assocFind_assocSet_ne _ _ _ _ hkey] at hk
      obtain ⟨e, he, hk2, ht2⟩ := h3 k it hk
      exact ⟨e, List.mem_cons_of_mem _ he, hk2, ht2⟩

theorem assocFind_append {K V : Type} [DecidableEq K] (l l2 : List (K × V)) (k : K) :
    assocFind (l ++ l2) k = (assocFind l k).or (assocFind l2 k) := by
  induction l with
  | nil => simp [assocFind]
  | cons n rest ih =>
    obtain ⟨a, b⟩ := n
    by_cases ha : a = k
    · simp [assocFind, ha]
    · simp [assocFind, ha, ih]

theorem overlay_nil (base : Bytes → Option Bytes) : overlay base [] = base := by
  funext k
  simp [overlay, assocFind]

theorem overlay_append (base : Bytes → Option Bytes) (ws ws2 : List (Bytes × Option Bytes)) :
    overlay base (ws ++ ws2) = overlay (overlay base ws) ws2 := by
  funext k
  simp only [overlay, List.reverse_append, assocFind_append]
  cases assocFind ws2.reverse k <;> simp

theorem overlay_singleton (base : Bytes → Option Bytes) (key : Bytes) (w : Option Bytes)
    (k : Bytes) : overlay base [(key, w)] k = if k = key then w else base k := by
  by_cases h : k = key
  · subst h
    simp [overlay, assocFind]
  · have h2 : ¬ key = k := fun e => h e.symm
    simp [overlay, assocFind, h, h2]

theorem KVStore.Sound_FlushMemTable (P : Platform) (s : KVStore) (env : Env)
    (truth : Bytes → Option Bytes) (h : KVStore.Sound s truth) :
    KVStore.Sound (KVStore.FlushMemTable P s env) truth := by
  refine ⟨KVStore.Inv_FlushMemTable P s env h.1, ?_, ?_⟩
  · unfold KVStore.FlushMemTable
    split
    · exact h.2.1
    · simp only [KVStore.MaybeCompact_eq]
      exact h.2.1
  · unfold KVStore.FlushMemTable
    split
    · exact h.2.2
    · simp only [KVStore.MaybeCompact_eq]
      intro k e hk
      simp [MemTable.new, StdMap.find, assocFind] at hk

theorem KVStore.Sound_written (s : KVStore) (key : Bytes) (e : Entry)
    (truth : Bytes → Option Bytes) (h : KVStore.Sound s truth)
    (m : MemTable) (hm : m.table_ = StdMap.assign s.memtable_.table_ key e)
    (wal1 : WAL) (fs1 : FileSystem) :
    KVStore.Sound
      { s with wal_ := wal1, fs_ := fs1, memtable_ := m,
               cache_ := LRUCache.Invalidate s.cache_ key }
      (overlay truth [(key, if e.is_deleted then none else some e.value)]) := by
  refine ⟨h.1, ?_, ?_⟩
  · apply LRUCache.Sound_removeKey _ _ truth _ h.2.1
    intro k hk
    rw [overlay_singleton, if_neg hk]
  · intro k e2 hk
    simp only at hk
    rw [hm] at hk
    rw [overlay_singleton]
    by_cases hkey : k = key
    · subst hkey
      rw [StdMap.find_assign_self] at hk
      have : e2 = e := (Option.some.inj hk).symm
      rw [this]
      simp
    · rw [StdMap.find_assign_ne _ _ _ _ hkey] at hk
      rw [if_neg hkey]
      exact h.2.2 k e2 hk

theorem KVStore.Sound_congr (s s2 : KVStore) (truth : Bytes → Option Bytes)
    (h1 : s2.immutable_memtable_ = s.immutable_memtable_) (h2 : s2.sstables_ = s.sstables_)
    (h3 : s2.cache_ = s.cache_) (h4 : s2.memtable_ = s.memtable_) (h : KVStore.Sound s truth) :
    KVStore.Sound s2 truth := by
  unfold KVStore.Sound KVStore.Inv at h ⊢
  rw [h1, h2, h3, h4]
  exact h

/-- The two outcomes of `KVStore::Put`: a failed append, which changes the log
only, or a write, followed by a flush when the threshold is reached. -/
theorem KVStore.Put_cases (P : Platform) (s : KVStore) (key value : Bytes) (env : Env) :
    ((KVStore.Put P s key value env).2 = false ∧
      ∃ wal1 fs1, (KVStore.Put P s key value env).1 = { s with wal_ := wal1, fs_ := fs1 }) ∨
    ((KVStore.Put P s key value env).2 = true ∧
      ∃ wal1 fs1,
        (KVStore.Put P s key value env).1 =
          { s with wal_ := wal1, fs_ := fs1,
                   memtable_ := MemTable.Put P s.memtable_ key value (env.clock 1),
                   cache_ := LRUCache.Invalidate s.cache_ key } ∨
        (KVStore.Put P s key value env).1 =
          KVStore.FlushMemTable P
            { s with wal_ := wal1, fs_ := fs1,
                     memtable_ := MemTable.Put P s.memtable_ key value (env.clock 1),
                     cache_ := LRUCache.Invalidate s.cache_ key,
                     should_flush_ := true } env) := by
  unfold KVStore.Put
  split
  · rename_i wal1 fs1 heq
    exact Or.inl ⟨rfl, wal1, fs1, rfl⟩
  · rename_i wal1 fs1 heq
    refine Or.inr ?_
    simp only
    split
    · exact ⟨rfl, wal1, fs1, Or.inr rfl⟩
    · exact ⟨rfl, wal1, fs1, Or.inl rfl⟩

/-- The two outcomes of `KVStore::Delete`. -/
theorem KVStore.Delete_cases (P : Platform) (s : KVStore) (key : Bytes) (env : Env) :
    ((KVStore.Delete P s key env).2 = false ∧
      ∃ wal1 fs1, (KVStore.Delete P s key env).1 = { s with wal_ := wal1, fs_ := fs1 }) ∨
    ((KVStore.Delete P s key env).2 = true ∧
      ∃ wal1 fs1,
        (KVStore.Delete P s key env).1 =
          { s with wal_ := wal1, fs_ := fs1,
                   memtable_ := MemTable.Delete P s.memtable_ key (env.clock 1),
                   cache_ := LRUCache.Invalidate s.cache_ key }) := by
  unfold KVStore.Delete
  split
  · rename_i wal1 fs1 heq
    exact Or.inl ⟨rfl, wal1, fs1, rfl⟩
  · rename_i wal1 fs1 heq
    exact Or.inr ⟨rfl, wal1, fs1, rfl⟩

theorem KVStore.Sound_Put (P : Platform) (s : KVStore) (key value : Bytes) (env : Env)
    (truth : Bytes → Option Bytes) (h : KVStore.Sound s truth) :
    KVStore.Sound (KVStore.Put P s key value env).1
      (overlay truth (KVStore.writesOf P s (Op.put key value) env)) := by
  simp only [KVStore.writesOf]
  rcases KVStore.Put_cases P s key value env with ⟨h2, wal1, fs1, h1⟩ | ⟨h2, wal1, fs1, h1 | h1⟩
  · rw [h1, h2]
    simp only [Bool.false_eq_true, if_false, overlay_nil]
    exact KVStore.Sound_congr s _ truth rfl rfl rfl rfl h
  · have hw := KVStore.Sound_written s key
      { value := value, is_deleted := false, timestamp := env.clock 1 } truth h
      (MemTable.Put P s.memtable_ key value (env.clock 1)) rfl wal1 fs1
    simp only [Bool.false_eq_true, if_false] at hw
    rw [h1, h2]
    simp only [if_true]
    exact hw
  · have hw := KVStore.Sound_written s key
      { value := value, is_deleted := false, timestamp := env.clock 1 } truth h
      (MemTable.Put P s.memtable_ key value (env.clock 1)) rfl wal1 fs1
    simp only [Bool.false_eq_true, if_false] at hw
    rw [h1, h2]
    simp only [if_true]
    apply KVStore.Sound_FlushMemTable
    exact KVStore.Sound_congr _ _ _ rfl rfl rfl rfl hw

theorem KVStore.Sound_Delete (P : Platform) (s : KVStore) (key : Bytes) (env : Env)
    (truth : Bytes → Option Bytes) (h : KVStore.Sound s truth) :
    KVStore.Sound (KVStore.Delete P s key env).1
      (overlay truth (KVStore.writesOf P s (Op.delete key) env)) := by
  simp only [KVStore.writesOf]
  rcases KVStore.Delete_cases P s key env with ⟨h2, wal1, fs1, h1⟩ | ⟨h2, wal1, fs1, h1⟩
  · rw [h1, h2]
    simp only [Bool.false_eq_true, if_false, overlay_nil]
    exact KVStore.Sound_congr s _ truth rfl rfl rfl rfl h
  · have hw := KVStore.Sound_written s key
      { value := [], is_deleted := true, timestamp := env.clock 1 } truth h
      (MemTable.Delete P s.memtable_ key (env.clock 1)) rfl wal1 fs1
    simp only [if_true] at hw
    rw [h1, h2]
    simp only [if_true]
    exact hw

theorem KVStore.Sound_Get (P : Platform) (s : KVStore) (key : Bytes) (env : Env)
    (truth : Bytes → Option Bytes) (h : KVStore.Sound s truth) :
    KVStore.Sound (KVStore.Get P s key env).1 truth := by
  obtain ⟨hinv, hc, hm⟩ := h
  have hc1 := LRUCache.Sound_cacheGet s.cache_ key truth hc
  have h1 : KVStore.searchTables P env.junk key s.sstables_.reverse = none :=
    KVStore.searchTables_index_nil P env.junk key _ (fun t ht => hinv.2 t (List.mem_reverse.mp ht))
  unfold KVStore.Get
  split
  · rename_i c1 v heq
    rw [heq] at hc1
    exact ⟨hinv, hc1, hm⟩
  · rename_i c1 heq
    rw [heq] at hc1
    split
    · rename_i v hv
      refine ⟨hinv, ?_, hm⟩
      apply LRUCache.Sound_cachePut P c1 key v truth hc1
      unfold MemTable.Get at hv
      split at hv
      · rename_i e he
        rw [hm key e he]
        split at hv
        · exact absurd hv (by simp)
        · rename_i hd
          simp only [hd, Bool.false_eq_true, if_false]
          exact hv
      · exact absurd hv (by simp)
    · split
      · rename_i v hv
        rw [hinv.1] at hv
        exact absurd hv (by simp)
      · split
        · rename_i v hv
          rw [h1] at hv
          exact absurd hv (by simp)
        · exact ⟨hinv, hc1, hm⟩

theorem KVStore.Sound_batchLoop (P : Platform) (env : Env) (entries : List (Bytes × Bytes)) :
    ∀ (i : Nat) (s : KVStore) (truth : Bytes → Option Bytes), KVStore.Sound s truth →
      KVStore.Sound (KVStore.batchLoop P env entries i s).1
        (overlay truth ((KVStore.batchWritten P env entries i s).map
          (fun kv => (kv.1, some kv.2)))) := by
  induction entries with
  | nil =>
    intro i s truth h
    simp only [KVStore.batchLoop, KVStore.batchWritten, List.map_nil, overlay_nil]
    exact h
  | cons kv rest ih =>
    intro i s truth h
    obtain ⟨key, value⟩ := kv
    unfold KVStore.batchLoop KVStore.batchWritten
    split
    · rename_i wal1 fs1 heq
      simp only [heq, List.map_nil, overlay_nil]
      exact KVStore.Sound_congr s _ truth rfl rfl rfl rfl h
    · rename_i wal1 fs1 heq
      simp only [heq, List.map_cons]
      have hw := KVStore.Sound_written s key
        { value := value, is_deleted := false, timestamp := env.clock (2 * i + 1) } truth h
        (MemTable.Put P s.memtable_ key value (env.clock (2 * i + 1))) rfl wal1 fs1
      simp only [Bool.false_eq_true, if_false] at hw
      have := ih (i + 1) _ _ hw
      rw [← overlay_append] at this
      exact this

theorem KVStore.Sound_PutBatch (P : Platform) (s : KVStore) (entries : List (Bytes × Bytes))
    (env : Env) (truth : Bytes → Option Bytes) (h : KVStore.Sound s truth) :
    KVStore.Sound (KVStore.PutBatch P s entries env).1
      (overlay truth (KVStore.writesOf P s (Op.putBatch entries) env)) := by
  have hb := KVStore.Sound_batchLoop P env entries 0 s truth h
  simp only [KVStore.writesOf]
  unfold KVStore.PutBatch
  split
  · rename_i s1 heq
    rw [heq] at hb
    exact hb
  · rename_i s1 heq
    rw [heq] at hb
    simp only
    split
    · exact KVStore.Sound_FlushMemTable P _ env _ hb
    · exact hb

theorem KVStore.Sound_step (P : Platform) (s : KVStore) (op : Op) (env : Env)
    (truth : Bytes → Option Bytes) (h : KVStore.Sound s truth) :
    KVStore.Sound (KVStore.step P s op env) (overlay truth (KVStore.writesOf P s op env)) := by
  cases op with
  | put key value => exact KVStore.Sound_Put P s key value env truth h
  | delete key => exact KVStore.Sound_Delete P s key env truth h
  | putBatch entries => exact KVStore.Sound_PutBatch P s entries env truth h
  | get key =>
    simp only [KVStore.step, KVStore.writesOf, overlay_nil]
    exact KVStore.Sound_Get P s key env truth h
  | flush =>
    simp only [KVStore.step, KVStore.writesOf, overlay_nil, KVStore.Flush]
    split
    · exact KVStore.Sound_FlushMemTable P s env truth h
    · exact h
  | compact =>
    simp only [KVStore.step, KVStore.writesOf, overlay_nil, KVStore.Compact,
      KVStore.MaybeCompact_eq]
    exact h

theorem KVStore.Sound_run (P : Platform) (ops : List (Op × Env)) :
    ∀ (s : KVStore) (truth : Bytes → Option Bytes), KVStore.Sound s truth →
      KVStore.Sound (KVStore.run P s ops) (overlay truth (KVStore.history P s ops)) := by
  induction ops with
  | nil =>
    intro s truth h
    simp only [KVStore.run, KVStore.history, overlay_nil]
    exact h
  | cons oe rest ih =>
    intro s truth h
    obtain ⟨op, env⟩ := oe
    simp only [KVStore.run, KVStore.history]
    rw [overlay_append]
    exact ih _ _ (KVStore.Sound_step P s op env truth h)

theorem KVStore.Sound_new (P : Platform) (config : Config) (fs : FileSystem) (env : Env)
    (s : KVStore) (h : KVStore.new P config fs env = some s) :
    KVStore.Sound s (MemTable.Get s.memtable_) := by
  have hinv := KVStore.Inv_new P config fs env s h
  refine ⟨hinv, ?_, ?_⟩
  · unfold KVStore.new at h
    simp only at h
    split at h
    · exact absurd h (by simp)
    · simp only [Option.some.injEq] at h
      subst h
      exact LRUCache.Sound_cacheNew _ _
  · intro k e hk
    simp [MemTable.Get, hk]

theorem KVStore.find_cache_batchLoop (P : Platform) (env : Env) (key : Bytes)
    (entries : List (Bytes × Bytes)) :
    ∀ (i : Nat) (s : KVStore),
      (key ∈ (KVStore.batchWritten P env entries i s).map Prod.fst ∨
        assocFind s.cache_.cache_map_ key = none) →
      assocFind (KVStore.batchLoop P env entries i s).1.cache_.cache_map_ key = none := by
  induction entries with
  | nil =>
    intro i s h
    simpa [KVStore.batchLoop, KVStore.batchWritten] using h
  | cons kv rest ih =>
    intro i s h
    obtain ⟨k, v⟩ := kv
    unfold KVStore.batchLoop
    unfold KVStore.batchWritten at h
    split
    · rename_i wal1 fs1 heq
      simp only [heq, List.map_nil, List.not_mem_nil, false_or] at h
      exact h
    · rename_i wal1 fs1 heq
      simp only [heq, List.map_cons, List.mem_cons] at h
      apply ih
      rcases h with (h | h) | h
      · right
        subst h
        exact LRUCache.find_Invalidate_self _ _
      · left
        exact h
      · right
        exact LRUCache.find_removeKey_of_none _ _ _ h

/-- Right after a call that wrote `key` successfully, the lookup map of the cache
has no entry for `key`. -/
theorem KVStore.find_cache_after_write (P : Platform) (s : KVStore) (op : Op) (env : Env)
    (key : Bytes) (h : key ∈ (KVStore.writesOf P s op env).map Prod.fst) :
    assocFind (KVStore.step P s op env).cache_.cache_map_ key = none := by
  cases op with
  | put k v =>
    simp only [KVStore.writesOf] at h
    simp only [KVStore.step]
    rcases KVStore.Put_cases P s k v env with ⟨h2, wal1, fs1, h1⟩ | ⟨h2, wal1, fs1, h1 | h1⟩
    · simp [h2] at h
    · simp only [h2, if_true, List.map_cons, List.map_nil, List.mem_singleton] at h
      subst h
      rw [h1]
      exact LRUCache.find_Invalidate_self _ _
    · simp only [h2, if_true, List.map_cons, List.map_nil, List.mem_singleton] at h
      subst h
      rw [h1, KVStore.cache_FlushMemTable]
      exact LRUCache.find_Invalidate_self _ _
  | delete k =>
    simp only [KVStore.writesOf] at h
    simp only [KVStore.step]
    rcases KVStore.Delete_cases P s k env with ⟨h2, wal1, fs1, h1⟩ | ⟨h2, wal1, fs1, h1⟩
    · simp [h2] at h
    · simp only [h2, if_true, List.map_cons, List.map_nil, List.mem_singleton] at h
      subst h
      rw [h1]
      exact LRUCache.find_Invalidate_self _ _
  | putBatch entries =>
    simp only [KVStore.writesOf, List.map_map] at h
    have h2 : key ∈ (KVStore.batchWritten P env entries 0 s).map Prod.fst := by
      simpa [Function.comp] using h
    have hb := KVStore.find_cache_batchLoop P env key entries 0 s (Or.inl h2)
    simp only [KVStore.step]
    unfold KVStore.PutBatch
    split
    · rename_i s1 heq
      rw [heq] at hb
      exact hb
    · rename_i s1 heq
      rw [heq] at hb
      simp only
      split
      · rw [KVStore.cache_FlushMemTable]
        exact hb
      · exact hb
  | get k => simp [KVStore.writesOf] at h
  | flush => simp [KVStore.writesOf] at h
  | compact => simp [KVStore.writesOf] at h

/-- In the example run the cache does hold the value written last. -/
theorem exampleCalls_cached :
    (LRUCache.Get (KVStore.run examplePlatform freshStore exampleCalls).cache_ [107]).2
      = some [118] := by
  decide

/-! ## C8: range scan -/

/-- C8 (failing input): on the fresh store `Put("a", "1")` returns `true` and
`Flush()` writes the live entry to `./data/0.sst`; `Scan("a", "a", 10)` then
returns no pair, although the newest entry for `"a"` is live. -/
theorem C8_scan_misses_flushed_entry :
    (KVStore.Put examplePlatform freshStore [97] [49] exampleEnv).2 = true ∧
    FileSystem.read
      (KVStore.Flush examplePlatform
        (KVStore.Put examplePlatform freshStore [97] [49] exampleEnv).1 exampleEnv).fs_
      (KVStore.GetSSTablePath defaultConfig 0) =
      some (SSTable.fileContent examplePlatform
        [{ key := [97], value := [49], is_deleted := false, timestamp := 1001 }] true false) ∧
    KVStore.Scan
      (KVStore.Flush examplePlatform
        (KVStore.Put examplePlatform freshStore [97] [49] exampleEnv).1 exampleEnv)
      [97] [97] 10 exampleEnv = [] := by
  decide

/-! ## C9: the bloom filter -/

theorem BloomFilter.length_setBits (hs : List Nat) :
    ∀ bits : List Bool, (BloomFilter.setBits bits hs).length = bits.length := by
  induction hs with
  | nil => intro bits; rfl
  | cons h rest ih =>
    intro bits
    simp only [BloomFilter.setBits, List.foldl] at ih ⊢
    rw [ih]
    simp

theorem BloomFilter.getD_setBits_of_true (hs : List Nat) :
    ∀ (bits : List Bool) (i : Nat), bits.getD i false = true →
      (BloomFilter.setBits bits hs).getD i false = true := by
  induction hs with
  | nil => intro bits i h; exact h
  | cons h rest ih =>
    intro bits i hi
    simp only [BloomFilter.setBits, List.foldl] at ih ⊢
    apply ih
    by_cases hEq : h % bits.length = i
    · subst hEq
      by_cases hlt : h % bits.length < bits.length
      · simp [List.getD_eq_getElem?_getD, List.getElem?_set, hlt]
      · simp only [List.getD_eq_getElem?_getD] at hi ⊢
        rw [List.getElem?_eq_none (by simpa using hlt)] at hi
        simp at hi
    · simp only [List.getD_eq_getElem?_getD] at hi ⊢
      rw [List.getElem?_set_ne hEq]
      exact hi

theorem BloomFilter.getD_setBits_mem (hs : List Nat) :
    ∀ (bits : List Bool) (h : Nat), 0 < bits.length → h ∈ hs →
      (BloomFilter.setBits bits hs).getD (h % bits.length) false = true := by
  induction hs with
  | nil => intro bits h _ hm; simp at hm
  | cons a rest ih =>
    intro bits h hpos hm
    have hlen : (bits.set (a % bits.length) true).length = bits.length := by simp
    rcases List.mem_cons.mp hm with rfl | hm
    · simp only [BloomFilter.setBits, List.foldl]
      apply BloomFilter.getD_setBits_of_true
      have hlt : h % bits.length < bits.length := Nat.mod_lt _ hpos
      simp [List.getD_eq_getElem?_getD, List.getElem?_set, hlt]
    · have := ih (bits.set (a % bits.length) true) h (by rw [hlen]; exact hpos) hm
      rw [hlen] at this
      simpa [BloomFilter.setBits, List.foldl] using this

theorem BloomFilter.Add_eq (P : Platform) (f : BloomFilter) (key : Bytes) :
    BloomFilter.Add P f key =
      { bits_ := BloomFilter.setBits f.bits_ (BloomFilter.Hash P f key),
        num_hashes_ := f.num_hashes_ } := by
  unfold BloomFilter.Add
  generalize BloomFilter.Hash P f key = hs
  induction hs generalizing f with
  | nil => rfl
  | cons h rest ih =>
    simp only [List.foldl]
    rw [ih]
    rfl

theorem BloomFilter.Hash_congr (P : Platform) (f g : BloomFilter) (key : Bytes)
    (h : f.num_hashes_ = g.num_hashes_) : BloomFilter.Hash P f key = BloomFilter.Hash P g key := by
  simp [BloomFilter.Hash, h]

theorem BloomFilter.MayContain_Add_of_MayContain (P : Platform) (f : BloomFilter)
    (key other : Bytes) (h : BloomFilter.MayContain P f other = true) :
    BloomFilter.MayContain P (BloomFilter.Add P f key) other = true := by
  rw [BloomFilter.Add_eq]
  simp only [BloomFilter.MayContain, List.all_eq_true] at h ⊢
  intro x hx
  simp only [BloomFilter.length_setBits]
  apply BloomFilter.getD_setBits_of_true
  exact h x (by simpa [BloomFilter.Hash] using hx)

theorem BloomFilter.MayContain_Add_self (P : Platform) (f : BloomFilter) (key : Bytes)
    (hpos : 0 < f.bits_.length) :
    BloomFilter.MayContain P (BloomFilter.Add P f key) key = true := by
  rw [BloomFilter.Add_eq]
  simp only [BloomFilter.MayContain, List.all_eq_true]
  intro x hx
  simp only [BloomFilter.length_setBits]
  apply BloomFilter.getD_setBits_mem _ _ _ hpos
  simpa [BloomFilter.Hash] using hx

theorem BloomFilter.length_Add (P : Platform) (f : BloomFilter) (key : Bytes) :
    (BloomFilter.Add P f key).bits_.length = f.bits_.length := by
  rw [BloomFilter.Add_eq]
  exact BloomFilter.length_setBits _ _

/-- C9: in a bloom filter with at least one bit, after any sequence of `Add`
calls, `MayContain(k)` is `true` for every key `k` of the sequence, whatever was
added before or after it. -/
theorem C9_bloom_no_false_negatives (P : Platform) (keys : List Bytes) :
    ∀ (f : BloomFilter) (k : Bytes), 0 < f.bits_.length → k ∈ keys →
      BloomFilter.MayContain P (keys.foldl (BloomFilter.Add P) f) k = true := by
  have hkeep : ∀ (l : List Bytes) (g : BloomFilter) (k : Bytes),
      BloomFilter.MayContain P g k = true →
      BloomFilter.MayContain P (l.foldl (BloomFilter.Add P) g) k = true := by
    intro l
    induction l with
    | nil => intro g k h; exact h
    | cons a rest ih =>
      intro g k h
      exact ih _ k (BloomFilter.MayContain_Add_of_MayContain P g a k h)
  induction keys with
  | nil => intro f k _ hk; simp at hk
  | cons a rest ih =>
    intro f k hpos hk
    rcases List.mem_cons.mp hk with rfl | hk
    · exact hkeep rest _ k (BloomFilter.MayContain_Add_self P f k hpos)
    · exact ih _ k (by rw [BloomFilter.length_Add]; exact hpos) hk

/-- C9 at a concrete input: a filter of 9 bits and 7 hashes, three keys added,
the middle one queried. -/
theorem C9_bloom_no_false_negatives_witness :
    0 < (BloomFilter.new examplePlatform 1).bits_.length ∧
    ([107, 50] : Bytes) ∈ [[107, 49], [107, 50], [107, 51]] ∧
    BloomFilter.MayContain examplePlatform
      (([[107, 49], [107, 50], [107, 51]] : List Bytes).foldl (BloomFilter.Add examplePlatform)
        (BloomFilter.new examplePlatform 1)) [107, 50] = true :=
  ⟨by decide, by decide,
    C9_bloom_no_false_negatives examplePlatform [[107, 49], [107, 50], [107, 51]]
      (BloomFilter.new examplePlatform 1) [107, 50] (by decide) (by decide)⟩

/-- The filter that `BloomFilter::Deserialize` returns has no bit set: whenever
the placeholder `BloomFilter bf(1)` has a bit and a hash function, it answers
`false` for every key, whatever the bytes given. -/
theorem BloomFilter.MayContain_Deserialize (P : Platform) (data key : Bytes)
    (_hbits : 0 < P.bloom_bits 1) (hhashes : 0 < P.bloom_hashes 1) :
    BloomFilter.MayContain P (BloomFilter.Deserialize P data) key = false := by
  obtain ⟨n, hn⟩ : ∃ n, P.bloom_hashes 1 = n + 1 := ⟨P.bloom_hashes 1 - 1, by omega⟩
  have hget : ∀ i, (List.replicate (P.bloom_bits 1) false).getD i false = false := by
    intro i
    simp only [List.getD_eq_getElem?_getD, List.getElem?_replicate]
    split <;> rfl
  simp only [BloomFilter.MayContain, BloomFilter.Deserialize, BloomFilter.new, BloomFilter.Hash,
    hn, List.range_succ_eq_map, List.map_cons, List.all_cons, hget, Bool.false_and]

/-! ## Lemmas on the key order -/

theorem bytesLt_irrefl (a : Bytes) : bytesLt a a = false := by
  induction a with
  | nil => rfl
  | cons x xs ih => simp [bytesLt, ih]

theorem bytesLt_trans : ∀ (a b c : Bytes), bytesLt a b = true → bytesLt b c = true →
    bytesLt a c = true := by
  intro a
  induction a with
  | nil =>
    intro b c hab hbc
    cases b with
    | nil => simp [bytesLt] at hab
    | cons y ys =>
      cases c with
      | nil => simp [bytesLt] at hbc
      | cons z zs => rfl
  | cons x xs ih =>
    intro b c hab hbc
    cases b with
    | nil => simp [bytesLt] at hab
    | cons y ys =>
      cases c with
      | nil => simp [bytesLt] at hbc
      | cons z zs =>
        simp only [bytesLt, Bool.or_eq_true, Bool.and_eq_true, decide_eq_true_eq] at hab hbc ⊢
        rcases hab with h1 | ⟨h1, h2⟩
        · rcases hbc with h3 | ⟨h3, _⟩
          · exact Or.inl (lt_trans h1 h3)
          · exact Or.inl (h3 ▸ h1)
        · rcases hbc with h3 | ⟨h3, h4⟩
          · exact Or.inl (h1 ▸ h3)
          · exact Or.inr ⟨h1.trans h3, ih ys zs h2 h4⟩

theorem bytesLt_total : ∀ (a b : Bytes), bytesLt a b = false → bytesLt b a = false → a = b := by
  intro a
  induction a with
  | nil =>
    intro b hab _
    cases b with
    | nil => rfl
    | cons y ys => simp [bytesLt] at hab
  | cons x xs ih =>
    intro b hab hba
    cases b with
    | nil => simp [bytesLt] at hba
    | cons y ys =>
      simp only [bytesLt, Bool.or_eq_false_iff, Bool.and_eq_false_imp, decide_eq_false_iff_not,
        decide_eq_true_eq] at hab hba
      have hxy : x = y := le_antisymm (not_lt.mp hba.1) (not_lt.mp hab.1)
      subst hxy
      rw [ih ys (hab.2 rfl) (hba.2 rfl)]

theorem StdMap.mem_assign {V : Type} (m : StdMap V) (key : Bytes) (v : V) (x : Bytes × V)
    (hx : x ∈ StdMap.assign m key v) : x = (key, v) ∨ x ∈ m := by
  induction m with
  | nil =>
    simp only [StdMap.assign, List.mem_singleton] at hx
    exact Or.inl hx
  | cons kw rest ih =>
    obtain ⟨k, w⟩ := kw
    unfold StdMap.assign at hx
    split at hx
    · rcases List.mem_cons.mp hx with h | h
      · exact Or.inl h
      · exact Or.inr h
    · split at hx
      · rcases List.mem_cons.mp hx with h | h
        · exact Or.inl h
        · exact Or.inr (List.mem_cons_of_mem _ h)
      · rcases List.mem_cons.mp hx with h | h
        · exact Or.inr (h ▸ List.mem_cons_self _ _)
        · rcases ih h with h2 | h2
          · exact Or.inl h2
          · exact Or.inr (List.mem_cons_of_mem _ h2)

theorem StdMap.Sorted_assign {V : Type} (m : StdMap V) (key : Bytes) (v : V)
    (h : StdMap.Sorted m) : StdMap.Sorted (StdMap.assign m key v) := by
  induction m with
  | nil => simp [StdMap.assign, StdMap.Sorted]
  | cons kw rest ih =>
    obtain ⟨k, w⟩ := kw
    unfold StdMap.Sorted at h ih ⊢
    rw [List.pairwise_cons] at h
    unfold StdMap.assign
    by_cases h1 : bytesLt key k = true
    · rw [if_pos h1, List.pairwise_cons, List.pairwise_cons]
      refine ⟨?_, h⟩
      intro x hx
      rcases List.mem_cons.mp hx with hx1 | hx1
      · rw [hx1]; exact h1
      · exact bytesLt_trans _ _ _ h1 (h.1 x hx1)
    · by_cases h2 : key = k
      · subst h2
        rw [if_neg h1, if_pos rfl, List.pairwise_cons]
        exact h
      · rw [if_neg h1, if_neg h2, List.pairwise_cons]
        refine ⟨?_, ih h.2⟩
        intro x hx
        rcases StdMap.mem_assign rest key v x hx with hx1 | hx1
        · rw [hx1]
          by_contra hc
          have := bytesLt_total key k (by simpa using h1) (by simpa using hc)
          exact h2 this
        · exact h.1 x hx1

theorem StdMap.find_of_mem_sorted {V : Type} (m : StdMap V) (key : Bytes) (v : V)
    (h : StdMap.Sorted m) (hm : (key, v) ∈ m) : StdMap.find m key = some v := by
  induction m with
  | nil => simp at hm
  | cons kw rest ih =>
    obtain ⟨k, w⟩ := kw
    unfold StdMap.Sorted at h ih
    rw [List.pairwise_cons] at h
    rcases List.mem_cons.mp hm with h1 | h1
    · simp only [Prod.mk.injEq] at h1
      obtain ⟨rfl, rfl⟩ := h1
      simp [StdMap.find, assocFind]
    · have hne : k ≠ key := by
        intro e
        subst e
        have := h.1 _ h1
        simp [bytesLt_irrefl] at this
      simp only [StdMap.find, assocFind, hne, if_false]
      exact ih h.2 h1

/-! ## C19, C20: created tables, the compaction trigger, memtable put -/

theorem SSTable.first_key_new (fs : FileSystem) (filename : Bytes) :
    (SSTable.new fs filename).first_key_ = [] := by
  unfold SSTable.new
  simp only [SSTable.LoadIndex, SSTable.LoadBloomFilter]
  split <;> rfl

theorem SSTable.last_key_new (fs : FileSystem) (filename : Bytes) :
    (SSTable.new fs filename).last_key_ = [] := by
  unfold SSTable.new
  simp only [SSTable.LoadIndex, SSTable.LoadBloomFilter]
  split <;> rfl

/-- A table opened by the constructor rejects every non-empty key at the range
check: its `last_key_` is the empty string. -/
theorem SSTable.MayContain_new (P : Platform) (fs : FileSystem) (filename key : Bytes)
    (h : key ≠ []) : SSTable.MayContain P (SSTable.new fs filename) key = false := by
  unfold SSTable.MayContain
  rw [SSTable.first_key_new, SSTable.last_key_new]
  cases key with
  | nil => exact absurd rfl h
  | cons c cs => simp [bytesGt, bytesLt]

/-- A table opened by the constructor finds no key, whatever file it was opened on. -/
theorem SSTable.Get_new (P : Platform) (fs : FileSystem) (filename key : Bytes)
    (junk : SSTableEntry) : SSTable.Get P (SSTable.new fs filename) key junk = none :=
  SSTable.Get_index_nil P _ key junk (SSTable.index_new fs filename)

/-- C19, at a store reached by four rounds of `Put` and `Flush` under
`defaultConfig`: the store is reachable and holds four tables, which is its
`compaction_threshold`; `SelectFilesForCompaction` returns the empty selection
and `Compact()` leaves the four tables in place. -/
theorem C19_compact_selects_nothing :
    KVStore.Reachable examplePlatform fourTablesStore ∧
    fourTablesStore.sstables_.length = 4 ∧
    fourTablesStore.config_.compaction_threshold = 4 ∧
    Compaction.SelectFilesForCompaction fourTablesStore.sstables_
      fourTablesStore.config_.compaction_threshold = [] ∧
    (KVStore.Compact examplePlatform fourTablesStore exampleEnv).sstables_.length = 4 := by
  refine ⟨?_, by decide, by decide, by decide, by decide⟩
  exact KVStore.Reachable.flush _ exampleEnv (KVStore.Reachable.put _ [100] [4] exampleEnv
    (KVStore.Reachable.flush _ exampleEnv (KVStore.Reachable.put _ [99] [3] exampleEnv
    (KVStore.Reachable.flush _ exampleEnv (KVStore.Reachable.put _ [98] [2] exampleEnv
    (KVStore.Reachable.flush _ exampleEnv (KVStore.Reachable.put _ [97] [1] exampleEnv
      freshStore_reachable)))))))

/-- C20: after `MemTable::Put(k, v)` the table maps `k` to the live entry `v`
stamped with the time of the call, whatever it held for `k` before, so that
`Get(k)` returns `v`; and `Get` of every other key returns what it returned
before the call. -/
theorem C20_memtable_put_get (P : Platform) (t : MemTable) (key value : Bytes) (now : Nat) :
    StdMap.find (MemTable.Put P t key value now).table_ key =
      some { value := value, is_deleted := false, timestamp := now } ∧
    MemTable.Get (MemTable.Put P t key value now) key = some value ∧
    ∀ other, other ≠ key →
      MemTable.Get (MemTable.Put P t key value now) other = MemTable.Get t other :=
  ⟨by simp [MemTable.Put, StdMap.find_assign_self], MemTable.Get_Put_self P t key value now,
   fun other h => MemTable.Get_Put_ne P t key other value now h⟩

/-- C20 on a table that holds a tombstone for `k` and a live entry for another key. -/
theorem C20_memtable_put_get_witness :
    MemTable.Get (MemTable.Delete examplePlatform
      (MemTable.Put examplePlatform MemTable.new [98] [7] 1) [97] 2) [97] = none ∧
    MemTable.Get (MemTable.Put examplePlatform (MemTable.Delete examplePlatform
      (MemTable.Put examplePlatform MemTable.new [98] [7] 1) [97] 2) [97] [5] 3) [97] = some [5] ∧
    MemTable.Get (MemTable.Put examplePlatform (MemTable.Delete examplePlatform
      (MemTable.Put examplePlatform MemTable.new [98] [7] 1) [97] 2) [97] [5] 3) [98] = some [7] :=
  ⟨by decide,
   (C20_memtable_put_get examplePlatform (MemTable.Delete examplePlatform
      (MemTable.Put examplePlatform MemTable.new [98] [7] 1) [97] 2) [97] [5] 3).2.1,
   by decide⟩

/-! ## C14, C15: reading the log back -/

theorem WAL.Append_false (P : Platform) (w : WAL) (fs : FileSystem) (type : Nat)
    (key value : Bytes) (now : Nat) (write_ok : Bool)
    (h : (WAL.Append P w fs type key value now write_ok).2 = false) :
    (WAL.Append P w fs type key value now write_ok).1.1.filename_ = w.filename_ ∧
    (WAL.Append P w fs type key value now write_ok).1.2 = fs := by
  unfold WAL.Append WAL.WriteRecord at h ⊢
  simp only at h ⊢
  split
  · rename_i hc
    rw [if_pos hc] at h
    simp at h
  · exact ⟨rfl, rfl⟩

theorem WAL.readLoop_valid (P : Platform) :
    ∀ (fuel : Nat) (input : Bytes), ∀ r ∈ WAL.readLoop P fuel input,
      WAL.VerifyChecksum P r = true := by
  intro fuel
  induction fuel with
  | zero => intro input r hr; simp [WAL.readLoop] at hr
  | succ n ih =>
    intro input r hr
    unfold WAL.readLoop at hr
    split at hr
    · simp at hr
    · rename_i record rest _
      split at hr
      · rename_i hv
        rcases List.mem_cons.mp hr with h | h
        · rw [h]; exact hv
        · exact ih rest r h
      · exact ih rest r hr

theorem takeExact_append_of_some (n : Nat) (x y l r : Bytes)
    (h : takeExact n x = some (l, r)) : takeExact n (x ++ y) = some (l, r ++ y) := by
  unfold takeExact at h ⊢
  split at h
  · rename_i hn
    simp only [Option.some.injEq, Prod.mk.injEq] at h
    obtain ⟨rfl, rfl⟩ := h
    rw [if_pos (by rw [List.length_append]; omega)]
    rw [List.take_append_of_le_length hn, List.drop_append_of_le_length hn]
  · simp at h

/-- A record read from a stream is read alike, with the same rest, when more
bytes follow the stream. -/
theorem WAL.ReadRecord_append_of_some (x y : Bytes) (a : WALRecord) (rest : Bytes)
    (h : WAL.ReadRecord x = some (a, rest)) : WAL.ReadRecord (x ++ y) = some (a, rest ++ y) := by
  unfold WAL.ReadRecord at h ⊢
  cases h1 : takeExact 1 x with
  | none => rw [h1] at h; simp at h
  | some p1 =>
    obtain ⟨t, r1⟩ := p1
    rw [h1] at h
    rw [takeExact_append_of_some 1 x y t r1 h1]
    simp only at h ⊢
    cases h2 : takeExact 4 r1 with
    | none => rw [h2] at h; simp at h
    | some p2 =>
      obtain ⟨kl, r2⟩ := p2
      rw [h2] at h
      rw [takeExact_append_of_some 4 r1 y kl r2 h2]
      simp only at h ⊢
      cases h3 : takeExact (leValue kl) r2 with
      | none => rw [h3] at h; simp at h
      | some p3 =>
        obtain ⟨k, r3⟩ := p3
        rw [h3] at h
        rw [takeExact_append_of_some _ r2 y k r3 h3]
        simp only at h ⊢
        cases h4 : takeExact 4 r3 with
        | none => rw [h4] at h; simp at h
        | some p4 =>
          obtain ⟨vl, r4⟩ := p4
          rw [h4] at h
          rw [takeExact_append_of_some 4 r3 y vl r4 h4]
          simp only at h ⊢
          cases h5 : takeExact (leValue vl) r4 with
          | none => rw [h5] at h; simp at h
          | some p5 =>
            obtain ⟨v, r5⟩ := p5
            rw [h5] at h
            rw [takeExact_append_of_some _ r4 y v r5 h5]
            simp only at h ⊢
            cases h6 : takeExact 8 r5 with
            | none => rw [h6] at h; simp at h
            | some p6 =>
              obtain ⟨ts, r6⟩ := p6
              rw [h6] at h
              rw [takeExact_append_of_some 8 r5 y ts r6 h6]
              simp only at h ⊢
              cases h7 : takeExact 4 r6 with
              | none => rw [h7] at h; simp at h
              | some p7 =>
                obtain ⟨cs, r7⟩ := p7
                rw [h7] at h
                rw [takeExact_append_of_some 4 r6 y cs r7 h7]
                simp only [Option.some.injEq, Prod.mk.injEq] at h ⊢
                exact ⟨h.1, by rw [h.2]⟩

/-- No record is read from a proper prefix of the encoding of a record. -/
theorem WAL.ReadRecord_prefix (r : WALRecord) (p : Nat) (hr : WALRecord.WellFormed r)
    (hp : p < (WAL.encode r).length) : WAL.ReadRecord ((WAL.encode r).take p) = none := by
  cases h : WAL.ReadRecord ((WAL.encode r).take p) with
  | none => rfl
  | some ar =>
    obtain ⟨a, rest⟩ := ar
    have h1 := WAL.ReadRecord_append_of_some _ ((WAL.encode r).drop p) a rest h
    rw [List.take_append_drop] at h1
    have h2 := WAL.ReadRecord_encode r [] hr
    rw [List.append_nil] at h2
    rw [h2] at h1
    simp only [Option.some.injEq, Prod.mk.injEq] at h1
    have h3 : ((WAL.encode r).drop p).length = 0 := by
      have := congrArg List.length h1.2
      simp only [List.length_nil, List.length_append] at this
      omega
    rw [List.length_drop] at h3
    omega

theorem WAL.readLoop_encodeAll_tail (P : Platform) (tail : Bytes)
    (ht : WAL.ReadRecord tail = none) (rs : List WALRecord) :
    ∀ fuel : Nat, rs.length ≤ fuel → (∀ r ∈ rs, WALRecord.WellFormed r) →
      WAL.readLoop P fuel (WAL.encodeAll rs ++ tail) = rs.filter (WAL.VerifyChecksum P) := by
  induction rs with
  | nil =>
    intro fuel _ _
    cases fuel with
    | zero => rfl
    | succ n => simp [WAL.encodeAll, WAL.readLoop, ht]
  | cons r rest ih =>
    intro fuel hfuel hwf
    obtain ⟨n, rfl⟩ : ∃ n, fuel = n + 1 := ⟨fuel - 1, by simp at hfuel; omega⟩
    have he : WAL.encodeAll (r :: rest) ++ tail = WAL.encode r ++ (WAL.encodeAll rest ++ tail) := by
      simp [WAL.encodeAll]
    rw [he]
    unfold WAL.readLoop
    rw [WAL.ReadRecord_encode r _ (hwf r (List.mem_cons_self _ _))]
    simp only
    rw [ih n (by simp at hfuel; omega) (fun x hx => hwf x (List.mem_cons_of_mem _ hx))]
    by_cases hv : WAL.VerifyChecksum P r = true
    · simp [hv]
    · simp [hv]

/-- C14, refuted as stated: in a log that holds a record with a wrong checksum
followed by a record with a right one, `ReadAll` returns the second record,
which is located after a checksum-failing record. -/
theorem C14_record_after_bad_checksum_returned :
    WAL.VerifyChecksum examplePlatform badRecord = false ∧
    WAL.ReadAll examplePlatform exampleWal
      [(exampleWal.filename_, WAL.encode badRecord ++ WAL.encode goodRecord)] = [goodRecord] := by
  decide

/-- C15: on a log that holds the encodings of `n` whole records with verifying
checksums followed by a proper prefix of the encoding of one more record,
`ReadAll` returns exactly the `n` records in order.  The loop ends at the partial
tail because `ReadRecord` fails there, not for lack of rounds: every number of
rounds from `n` on gives the same result. -/
theorem C15_partial_tail_dropped (P : Platform) (w : WAL) (fs : FileSystem)
    (rs : List WALRecord) (r : WALRecord) (p : Nat)
    (hwf : ∀ x ∈ rs, WALRecord.WellFormed x)
    (hvalid : ∀ x ∈ rs, WAL.VerifyChecksum P x = true)
    (hr : WALRecord.WellFormed r) (hp : p < (WAL.encode r).length)
    (hcontent : FileSystem.read fs w.filename_ =
      some (WAL.encodeAll rs ++ (WAL.encode r).take p)) :
    WAL.ReadAll P w fs = rs ∧
    WAL.ReadRecord ((WAL.encode r).take p) = none ∧
    ∀ fuel, rs.length ≤ fuel →
      WAL.readLoop P fuel (WAL.encodeAll rs ++ (WAL.encode r).take p) = rs := by
  have htail := WAL.ReadRecord_prefix r p hr hp
  have hfilter : rs.filter (WAL.VerifyChecksum P) = rs := List.filter_eq_self.mpr hvalid
  have hloop : ∀ fuel, rs.length ≤ fuel →
      WAL.readLoop P fuel (WAL.encodeAll rs ++ (WAL.encode r).take p) = rs := by
    intro fuel hfuel
    rw [WAL.readLoop_encodeAll_tail P _ htail rs fuel hfuel hwf, hfilter]
  refine ⟨?_, htail, hloop⟩
  unfold WAL.ReadAll
  rw [hcontent]
  simp only
  apply hloop
  rw [List.length_append]
  have := WAL.length_le_encodeAll rs
  omega

/-- C15 on a log of two whole records followed by the first three bytes of a
third one, a write cut off inside the key length. -/
theorem C15_partial_tail_dropped_witness :
    WAL.ReadAll examplePlatform exampleWal
      [(exampleWal.filename_,
        WAL.encodeAll [goodRecord, goodRecord2] ++ (WAL.encode goodRecord).take 3)] =
      [goodRecord, goodRecord2] :=
  (C15_partial_tail_dropped examplePlatform exampleWal
    [(exampleWal.filename_,
      WAL.encodeAll [goodRecord, goodRecord2] ++ (WAL.encode goodRecord).take 3)]
    [goodRecord, goodRecord2] goodRecord 3 (by decide) (by decide) (by decide) (by decide)
    (by decide)).1

/-! ## C16, C18: the merge of a compaction -/

theorem StdMap.mem_assign_sorted {V : Type} (m : StdMap V) (key : Bytes) (v : V) (x : Bytes × V)
    (h : StdMap.Sorted m) (hx : x ∈ StdMap.assign m key v) :
    x = (key, v) ∨ (x ∈ m ∧ x.1 ≠ key) := by
  by_cases hk : x.1 = key
  · left
    have h1 := StdMap.find_of_mem_sorted _ x.1 x.2 (StdMap.Sorted_assign m key v h) hx
    rw [hk, StdMap.find_assign_self] at h1
    obtain ⟨a, b⟩ := x
    simp only at hk h1
    simp only [Option.some.injEq] at h1
    rw [hk, h1]
  · right
    rcases StdMap.mem_assign m key v x hx with h1 | h1
    · exact absurd (by rw [h1]) hk
    · exact ⟨h1, hk⟩

theorem Compaction.MergeInv_nil : Compaction.MergeInv [] [] :=
  { sorted := List.Pairwise.nil,
    winner := by intro k e h; simp at h,
    present := by intro e h; simp at h }

theorem Compaction.MergeInv_assign (merged : StdMap SSTableEntry) (seen : List SSTableEntry)
    (entry : SSTableEntry) (h : Compaction.MergeInv merged seen)
    (hnew : ∀ e2 ∈ seen, e2.key = entry.key → e2.timestamp ≤ entry.timestamp) :
    Compaction.MergeInv (StdMap.assign merged entry.key entry) (seen ++ [entry]) := by
  refine ⟨StdMap.Sorted_assign _ _ _ h.sorted, ?_, ?_⟩
  · intro k e hm
    rcases StdMap.mem_assign_sorted merged entry.key entry (k, e) h.sorted hm with h1 | ⟨h1, h2⟩
    · simp only [Prod.mk.injEq] at h1
      obtain ⟨rfl, rfl⟩ := h1
      refine ⟨rfl, by simp, ?_⟩
      intro e2 he2 hk
      rcases List.mem_append.mp he2 with h3 | h3
      · exact hnew e2 h3 hk
      · simp only [List.mem_singleton] at h3
        rw [h3]
    · obtain ⟨w1, w2, w3⟩ := h.winner k e h1
      refine ⟨w1, List.mem_append_left _ w2, ?_⟩
      intro e2 he2 hk
      rcases List.mem_append.mp he2 with h3 | h3
      · exact w3 e2 h3 hk
      · simp only [List.mem_singleton] at h3
        subst h3
        exact absurd hk.symm h2
  · intro e2 he2
    by_cases hk : e2.key = entry.key
    · rw [hk, StdMap.find_assign_self]
      exact ⟨entry, rfl⟩
    · rw [StdMap.find_assign_ne _ _ _ _ hk]
      rcases List.mem_append.mp he2 with h3 | h3
      · exact h.present e2 h3
      · simp only [List.mem_singleton] at h3
        exact absurd (by rw [h3]) hk

theorem Compaction.MergeInv_mergeEntry (merged : StdMap SSTableEntry) (seen : List SSTableEntry)
    (entry : SSTableEntry) (h : Compaction.MergeInv merged seen) :
    Compaction.MergeInv (Compaction.mergeEntry merged entry) (seen ++ [entry]) := by
  unfold Compaction.mergeEntry
  cases hf : StdMap.find merged entry.key with
  | none =>
    simp only
    apply Compaction.MergeInv_assign merged seen entry h
    intro e2 he2 hk
    obtain ⟨e, he⟩ := h.present e2 he2
    rw [hk, hf] at he
    simp at he
  | some old =>
    simp only
    have hold := h.winner entry.key old (mem_of_assocFind _ _ _ hf)
    by_cases hgt : entry.timestamp > old.timestamp
    · rw [if_pos hgt]
      apply Compaction.MergeInv_assign merged seen entry h
      intro e2 he2 hk
      have := hold.2.2 e2 he2 hk
      omega
    · rw [if_neg hgt]
      refine ⟨h.sorted, ?_, ?_⟩
      · intro k e hm
        obtain ⟨w1, w2, w3⟩ := h.winner k e hm
        refine ⟨w1, List.mem_append_left _ w2, ?_⟩
        intro e2 he2 hk
        rcases List.mem_append.mp he2 with h3 | h3
        · exact w3 e2 h3 hk
        · simp only [List.mem_singleton] at h3
          subst h3
          have h4 := StdMap.find_of_mem_sorted merged k e h.sorted hm
          rw [← hk, hf] at h4
          simp only [Option.some.injEq] at h4
          rw [← h4]
          omega
      · intro e2 he2
        rcases List.mem_append.mp he2 with h3 | h3
        · exact h.present e2 h3
        · simp only [List.mem_singleton] at h3
          rw [h3, hf]
          exact ⟨old, rfl⟩

theorem Compaction.MergeInv_foldl (l : List SSTableEntry) :
    ∀ (merged : StdMap SSTableEntry) (seen : List SSTableEntry),
      Compaction.MergeInv merged seen →
      Compaction.MergeInv (l.foldl Compaction.mergeEntry merged) (seen ++ l) := by
  induction l with
  | nil => intro merged seen h; simpa using h
  | cons entry rest ih =>
    intro merged seen h
    have := ih _ _ (Compaction.MergeInv_mergeEntry merged seen entry h)
    simpa using this

theorem Compaction.foldl_tables (junk : SSTableEntry) (tables : List SSTable) :
    ∀ (m : StdMap SSTableEntry),
      tables.foldl (fun m t => (SSTable.Scan t [] [126] (U64 - 1) junk).foldl
        Compaction.mergeEntry m) m =
      (Compaction.inputEntries tables junk).foldl Compaction.mergeEntry m := by
  induction tables with
  | nil => intro m; rfl
  | cons t rest ih =>
    intro m
    simp only [List.foldl_cons, Compaction.inputEntries, List.map_cons, List.flatten_cons,
      List.foldl_append]
    exact ih _

/-- The merged map of a compaction satisfies the merge invariant over the
entries read from the input tables. -/
theorem Compaction.MergeInv_merged (tables : List SSTable) (junk : SSTableEntry) :
    Compaction.MergeInv
      (tables.foldl (fun m t => (SSTable.Scan t [] [126] (U64 - 1) junk).foldl
        Compaction.mergeEntry m) [])
      (Compaction.inputEntries tables junk) := by
  rw [Compaction.foldl_tables]
  have := Compaction.MergeInv_foldl (Compaction.inputEntries tables junk) [] []
    Compaction.MergeInv_nil
  simpa using this

theorem Compaction.mem_outputEntries (tables : List SSTable) (junk : SSTableEntry)
    (e : SSTableEntry) (he : e ∈ Compaction.outputEntries tables junk) :
    e.is_deleted = false ∧ e ∈ Compaction.inputEntries tables junk ∧
    ∀ e2 ∈ Compaction.inputEntries tables junk, e2.key = e.key → e2.timestamp ≤ e.timestamp := by
  unfold Compaction.outputEntries at he
  simp only [List.mem_filter, List.mem_map] at he
  obtain ⟨⟨⟨k, e1⟩, hm, rfl⟩, hlive⟩ := he
  obtain ⟨w1, w2, w3⟩ := (Compaction.MergeInv_merged tables junk).winner k e1 hm
  refine ⟨by simpa using hlive, w2, ?_⟩
  intro e2 he2 hk
  exact w3 e2 he2 (hk.trans w1)

theorem Compaction.outputEntries_sorted (tables : List SSTable) (junk : SSTableEntry) :
    List.Pairwise (fun a b => bytesLt a.key b.key = true)
      (Compaction.outputEntries tables junk) := by
  unfold Compaction.outputEntries
  apply List.Pairwise.filter
  rw [List.pairwise_map]
  have hinv := Compaction.MergeInv_merged tables junk
  refine List.Pairwise.imp_of_mem ?_ hinv.sorted
  intro a b ha hb hab
  have h1 := (hinv.winner a.1 a.2 ha).1
  have h2 := (hinv.winner b.1 b.2 hb).1
  rw [h1, h2]
  exact hab

/-- C16: the entry list that `Compaction::CompactSSTables` hands to
`SSTable::Create` ascends strictly by key, so that it holds one entry per key;
and each of its entries is an entry read from the input tables whose timestamp
is the greatest among the entries read for its key.  The entries read are those
that `Scan("", "~", SIZE_MAX)` returns on the tables, whatever state the
readers are in. -/
theorem C16_compaction_output_sorted_newest (tables : List SSTable) (junk : SSTableEntry) :
    List.Pairwise (fun a b => bytesLt a.key b.key = true)
      (Compaction.outputEntries tables junk) ∧
    (∀ e1 ∈ Compaction.outputEntries tables junk, ∀ e2 ∈ Compaction.outputEntries tables junk,
      e1.key = e2.key → e1 = e2) ∧
    (∀ e ∈ Compaction.outputEntries tables junk,
      e ∈ Compaction.inputEntries tables junk ∧
      ∀ e2 ∈ Compaction.inputEntries tables junk, e2.key = e.key →
        e2.timestamp ≤ e.timestamp) ∧
    (∀ (P : Platform) (fs : FileSystem) (env : Env) (input_files : List Bytes)
      (output_file : Bytes) (compression : Bool),
      Compaction.CompactSSTables P fs env input_files output_file compression =
        SSTable.Create P fs output_file
          (Compaction.outputEntries (input_files.map (SSTable.new fs)) env.junk)
          compression true (env.open_ok output_file)) := by
  have hs := Compaction.outputEntries_sorted tables junk
  refine ⟨hs, ?_, ?_, ?_⟩
  · have hp : List.Pairwise (fun (a b : SSTableEntry) => a.key = b.key → a = b)
        (Compaction.outputEntries tables junk) := by
      refine List.Pairwise.imp ?_ hs
      intro a b hab hk
      rw [hk, bytesLt_irrefl] at hab
      simp at hab
    have hsymm : Symmetric (fun (a b : SSTableEntry) => a.key = b.key → a = b) := by
      intro a b hab hk
      exact (hab hk.symm).symm
    intro e1 h1 e2 h2
    exact List.Pairwise.forall_of_forall hsymm (fun _ _ _ => rfl) hp h1 h2
  · intro e he
    exact (Compaction.mem_outputEntries tables junk e he).2
  · intro P fs env input_files output_file compression
    rfl

/-- C16 on two tables that both hold the key `a`: the output is the newer `a`
and `b`, ascending, the tombstone for `c` left out. -/
theorem C16_compaction_output_sorted_newest_witness :
    Compaction.outputEntries
      [SSTable.loaded [liveEntry [97] [120] 1, liveEntry [98] [122] 1],
       SSTable.loaded [liveEntry [97] [121] 2, tombstone [99] 3]] exampleEnv.junk =
      [liveEntry [97] [121] 2, liveEntry [98] [122] 1] ∧
    List.Pairwise (fun a b => bytesLt a.key b.key = true)
      (Compaction.outputEntries
        [SSTable.loaded [liveEntry [97] [120] 1, liveEntry [98] [122] 1],
         SSTable.loaded [liveEntry [97] [121] 2, tombstone [99] 3]] exampleEnv.junk) :=
  ⟨by decide,
   (C16_compaction_output_sorted_newest
      [SSTable.loaded [liveEntry [97] [120] 1, liveEntry [98] [122] 1],
       SSTable.loaded [liveEntry [97] [121] 2, tombstone [99] 3]] exampleEnv.junk).1⟩

/-- C18: when every entry read from the input tables for a key with the greatest
timestamp read for that key is a tombstone, the entry list that
`Compaction::CompactSSTables` hands to `SSTable::Create` holds no entry for the
key. -/
theorem C18_compaction_no_resurrection (tables : List SSTable) (junk : SSTableEntry)
    (key : Bytes)
    (h : ∀ e ∈ Compaction.inputEntries tables junk, e.key = key →
      (∀ e2 ∈ Compaction.inputEntries tables junk, e2.key = key →
        e2.timestamp ≤ e.timestamp) → e.is_deleted = true) :
    ∀ e ∈ Compaction.outputEntries tables junk, e.key ≠ key := by
  intro e he hk
  obtain ⟨hlive, hin, hmax⟩ := Compaction.mem_outputEntries tables junk e he
  have hdel := h e hin hk (fun e2 he2 hk2 => hmax e2 he2 (hk2.trans hk.symm))
  rw [hlive] at hdel
  exact Bool.false_ne_true hdel

/-- C18 on an older table with a live `k` and a newer table with a tombstone for
`k`, next to a live `m`: the two tables are read in either order, and the
output holds `m` alone. -/
theorem C18_compaction_no_resurrection_witness :
    (∀ e ∈ Compaction.outputEntries
        [SSTable.loaded [tombstone [107] 2, liveEntry [109] [51] 2],
         SSTable.loaded [liveEntry [107] [49] 1]] exampleEnv.junk, e.key ≠ [107]) ∧
    Compaction.outputEntries
      [SSTable.loaded [tombstone [107] 2, liveEntry [109] [51] 2],
       SSTable.loaded [liveEntry [107] [49] 1]] exampleEnv.junk = [liveEntry [109] [51] 2] ∧
    Compaction.outputEntries
      [SSTable.loaded [liveEntry [107] [49] 1],
       SSTable.loaded [tombstone [107] 2, liveEntry [109] [51] 2]] exampleEnv.junk =
      [liveEntry [109] [51] 2] :=
  ⟨C18_compaction_no_resurrection
      [SSTable.loaded [tombstone [107] 2, liveEntry [109] [51] 2],
       SSTable.loaded [liveEntry [107] [49] 1]] exampleEnv.junk [107] (by decide),
   by decide, by decide⟩

/-! ## C21, C22, C23, C24: the memtable -/

theorem StdMap.find_eq_none_of_lt {V : Type} (m : StdMap V) (key : Bytes)
    (h : ∀ x ∈ m, bytesLt key x.1 = true) : StdMap.find m key = none := by
  induction m with
  | nil => rfl
  | cons kw rest ih =>
    obtain ⟨k, w⟩ := kw
    have hk : k ≠ key := by
      intro e
      have := h (k, w) (List.mem_cons_self _ _)
      rw [e] at this
      simp [bytesLt_irrefl] at this
    simp only [StdMap.find, assocFind, hk, if_false]
    exact ih (fun x hx => h x (List.mem_cons_of_mem _ hx))

theorem StdMap.filter_eq_nil_of_lt {V : Type} (m : StdMap V) (key : Bytes)
    (h : ∀ x ∈ m, bytesLt key x.1 = true) :
    m.filter (fun kv => decide (kv.1 = key)) = [] := by
  rw [List.filter_eq_nil_iff]
  intro x hx
  have := h x hx
  intro he
  simp only [decide_eq_true_eq] at he
  rw [he, bytesLt_irrefl] at this
  simp at this

/-- In a sorted map, after `m[key] = v` the entries with that key are `(key, v)` alone. -/
theorem StdMap.filter_assign {V : Type} (m : StdMap V) (key : Bytes) (v : V)
    (h : StdMap.Sorted m) :
    (StdMap.assign m key v).filter (fun kv => decide (kv.1 = key)) = [(key, v)] := by
  induction m with
  | nil => simp [StdMap.assign]
  | cons kw rest ih =>
    obtain ⟨k, w⟩ := kw
    unfold StdMap.Sorted at h ih
    rw [List.pairwise_cons] at h
    unfold StdMap.assign
    by_cases h1 : bytesLt key k = true
    · rw [if_pos h1, List.filter_cons_of_pos (by simp)]
      rw [StdMap.filter_eq_nil_of_lt ((k, w) :: rest) key]
      intro x hx
      rcases List.mem_cons.mp hx with hx1 | hx1
      · rw [hx1]; exact h1
      · exact bytesLt_trans _ _ _ h1 (h.1 x hx1)
    · by_cases h2 : key = k
      · subst h2
        rw [if_neg h1, if_pos rfl, List.filter_cons_of_pos (by simp)]
        rw [StdMap.filter_eq_nil_of_lt rest key h.1]
      · rw [if_neg h1, if_neg h2, List.filter_cons_of_neg (by simpa using fun e => h2 e.symm)]
        exact ih h.2

/-- In a sorted map, `m[key] = v` adds an element exactly when the key was absent. -/
theorem StdMap.length_assign {V : Type} (m : StdMap V) (key : Bytes) (v : V)
    (h : StdMap.Sorted m) :
    (StdMap.assign m key v).length =
      if (StdMap.find m key).isSome then m.length else m.length + 1 := by
  induction m with
  | nil => simp [StdMap.assign, StdMap.find, assocFind]
  | cons kw rest ih =>
    obtain ⟨k, w⟩ := kw
    unfold StdMap.Sorted at h ih
    rw [List.pairwise_cons] at h
    unfold StdMap.assign
    by_cases h1 : bytesLt key k = true
    · have hnone : StdMap.find ((k, w) :: rest) key = none := by
        apply StdMap.find_eq_none_of_lt
        intro x hx
        rcases List.mem_cons.mp hx with hx1 | hx1
        · rw [hx1]; exact h1
        · exact bytesLt_trans _ _ _ h1 (h.1 x hx1)
      rw [if_pos h1, hnone]
      simp
    · by_cases h2 : key = k
      · subst h2
        rw [if_neg h1, if_pos rfl]
        simp [StdMap.find, assocFind]
      · have h3 : ¬ k = key := fun e => h2 e.symm
        rw [if_neg h1, if_neg h2]
        simp only [List.length_cons, StdMap.find, assocFind, h3, if_false]
        have := ih h.2
        simp only [StdMap.find] at this
        rw [this]
        split <;> rfl

/-- In a sorted map, `m[key] = e` changes the footprint by the contribution of
the new entry less that of the entry replaced. -/
theorem MemTable.footprint_assign (P : Platform) (m : StdMap Entry) (key : Bytes) (e : Entry)
    (h : StdMap.Sorted m) :
    MemTable.footprint P (StdMap.assign m key e) +
        (match StdMap.find m key with
          | some old => key.length + old.value.length + P.sizeof_Entry
          | none => 0) =
      MemTable.footprint P m + (key.length + e.value.length + P.sizeof_Entry) := by
  induction m with
  | nil => simp [StdMap.assign, StdMap.find, assocFind, MemTable.footprint]
  | cons kw rest ih =>
    obtain ⟨k, w⟩ := kw
    unfold StdMap.Sorted at h ih
    rw [List.pairwise_cons] at h
    unfold StdMap.assign
    by_cases h1 : bytesLt key k = true
    · have hnone : StdMap.find ((k, w) :: rest) key = none := by
        apply StdMap.find_eq_none_of_lt
        intro x hx
        rcases List.mem_cons.mp hx with hx1 | hx1
        · rw [hx1]; exact h1
        · exact bytesLt_trans _ _ _ h1 (h.1 x hx1)
      rw [if_pos h1, hnone]
      simp only [MemTable.footprint, List.map_cons, List.sum_cons]
      omega
    · by_cases h2 : key = k
      · subst h2
        rw [if_neg h1, if_pos rfl]
        simp only [StdMap.find, assocFind, if_true, MemTable.footprint, List.map_cons,
          List.sum_cons]
        ring
      · have h3 : ¬ k = key := fun e => h2 e.symm
        rw [if_neg h1, if_neg h2]
        have := ih h.2
        simp only [StdMap.find, assocFind, h3, if_false, MemTable.footprint, List.map_cons,
          List.sum_cons] at this ⊢
        omega

theorem MemTable.Sorted_applyOp (P : Platform) (t : MemTable) (op : MemOp)
    (h : StdMap.Sorted t.table_) : StdMap.Sorted (MemTable.applyOp P t op).table_ := by
  cases op with
  | put key value now => exact StdMap.Sorted_assign _ _ _ h
  | delete key now => exact StdMap.Sorted_assign _ _ _ h
  | clear => exact List.Pairwise.nil

theorem MemTable.Sorted_runOps (P : Platform) (ops : List MemOp) :
    ∀ t : MemTable, StdMap.Sorted t.table_ → StdMap.Sorted (MemTable.runOps P t ops).table_ := by
  induction ops with
  | nil => intro t h; exact h
  | cons op rest ih =>
    intro t h
    exact ih _ (MemTable.Sorted_applyOp P t op h)

theorem MemTable.find_runOps (P : Platform) (ops : List MemOp) :
    ∀ (t : MemTable) (k : Bytes),
      StdMap.find (MemTable.runOps P t ops).table_ k =
        MemTable.expected (StdMap.find t.table_) ops k := by
  induction ops with
  | nil => intro t k; rfl
  | cons op rest ih =>
    intro t k
    have h := ih (MemTable.applyOp P t op) k
    simp only [MemTable.runOps, List.foldl_cons] at h ⊢
    rw [h]
    cases op with
    | put key value now =>
      simp only [MemTable.expected]
      congr 1
      funext x
      by_cases hx : x = key
      · subst hx
        simp [MemTable.applyOp, MemTable.Put, StdMap.find_assign_self]
      · simp [MemTable.applyOp, MemTable.Put, StdMap.find_assign_ne _ _ _ _ hx, hx]
    | delete key now =>
      simp only [MemTable.expected]
      congr 1
      funext x
      by_cases hx : x = key
      · subst hx
        simp [MemTable.applyOp, MemTable.Delete, StdMap.find_assign_self]
      · simp [MemTable.applyOp, MemTable.Delete, StdMap.find_assign_ne _ _ _ _ hx, hx]
    | clear =>
      simp only [MemTable.expected]
      congr 1

theorem U64_eq : U64 = 18446744073709551616 := by
  unfold U64
  norm_num

theorem uadd_mod (a b : Nat) : uadd (a % U64) (b % U64) = (a + b) % U64 := by
  unfold uadd
  rw [U64_eq]
  omega

theorem usub_uadd_mod (a a2 b c : Nat) (h : a2 + b = a + c) :
    uadd (usub (a % U64) (b % U64)) (c % U64) = a2 % U64 := by
  unfold uadd usub
  rw [U64_eq]
  omega

theorem usub_of_le (a b : Nat) (hb : b ≤ a) (ha : a < U64) : usub a b = a - b := by
  unfold usub
  rw [U64_eq] at ha ⊢
  omega

theorem MemTable.writtenKeys_expected (ops : List MemOp) :
    ∀ (keys : List Bytes) (base : Bytes → Option Entry),
      (∀ k, (base k).isSome = true ↔ k ∈ keys) →
      ∀ k, (MemTable.expected base ops k).isSome = true ↔
        k ∈ ops.foldl (fun keys op =>
          match op with
          | .put key _ _ => key :: keys
          | .delete key _ => key :: keys
          | .clear => []) keys := by
  induction ops with
  | nil => intro keys base h k; exact h k
  | cons op rest ih =>
    intro keys base h k
    cases op with
    | put key value now =>
      simp only [MemTable.expected, List.foldl_cons]
      apply ih
      intro x
      by_cases hx : x = key
      · simp [hx]
      · simp [hx, h x]
    | delete key now =>
      simp only [MemTable.expected, List.foldl_cons]
      apply ih
      intro x
      by_cases hx : x = key
      · simp [hx]
      · simp [hx, h x]
    | clear =>
      simp only [MemTable.expected, List.foldl_cons]
      apply ih
      intro x
      simp

theorem MemTable.contribution_le_footprint (P : Platform) (m : StdMap Entry) (key : Bytes)
    (old : Entry) (h : (key, old) ∈ m) :
    key.length + old.value.length + P.sizeof_Entry ≤ MemTable.footprint P m := by
  induction m with
  | nil => simp at h
  | cons kw rest ih =>
    simp only [MemTable.footprint, List.map_cons, List.sum_cons] at ih ⊢
    rcases List.mem_cons.mp h with h1 | h1
    · rw [← h1]
      exact Nat.le_add_right _ _
    · exact Nat.le_trans (ih h1) (Nat.le_add_left _ _)

/-- The byte counter of a memtable reached from the empty one is the footprint
of its table, in `size_t` arithmetic. -/
theorem MemTable.size_bytes_runOps (P : Platform) (ops : List MemOp) :
    ∀ t : MemTable, StdMap.Sorted t.table_ →
      t.size_bytes_ = MemTable.footprint P t.table_ % U64 →
      (MemTable.runOps P t ops).size_bytes_ =
        MemTable.footprint P (MemTable.runOps P t ops).table_ % U64 := by
  induction ops with
  | nil => intro t _ h; exact h
  | cons op rest ih =>
    intro t hs h
    apply ih _ (MemTable.Sorted_applyOp P t op hs)
    have key_step : ∀ (key : Bytes) (e : Entry),
        uadd (match StdMap.find t.table_ key with
          | some old => usub t.size_bytes_ (MemTable.EstimateSize P key old)
          | none => t.size_bytes_) (MemTable.EstimateSize P key e) =
        MemTable.footprint P (StdMap.assign t.table_ key e) % U64 := by
      intro key e
      have hf := MemTable.footprint_assign P t.table_ key e hs
      rw [h]
      cases hfind : StdMap.find t.table_ key with
      | none =>
        rw [hfind] at hf
        simp only [Nat.add_zero] at hf
        rw [hf]
        exact uadd_mod _ _
      | some old =>
        rw [hfind] at hf
        exact usub_uadd_mod _ _ _ _ hf
    cases op with
    | put key value now => exact key_step key _
    | delete key now => exact key_step key _
    | clear => simp [MemTable.applyOp, MemTable.Clear, MemTable.footprint]

/-- C21: on a memtable whose map is in key order, after `Delete(k)` the lookup
`Get(k)` returns `false`, the entries that the iteration yields for `k` are one
tombstone with an empty value, and `Size()`, the number of entries iterated,
has grown by one when `k` was absent and is unchanged when `k` was present. -/
theorem C21_memtable_delete (P : Platform) (t : MemTable) (key : Bytes) (now : Nat)
    (h : StdMap.Sorted t.table_) :
    MemTable.Get (MemTable.Delete P t key now) key = none ∧
    (MemTable.entries (MemTable.Delete P t key now)).filter (fun kv => decide (kv.1 = key)) =
      [(key, { value := [], is_deleted := true, timestamp := now })] ∧
    MemTable.Size (MemTable.Delete P t key now) =
      (MemTable.entries (MemTable.Delete P t key now)).length ∧
    MemTable.Size (MemTable.Delete P t key now) =
      (if (StdMap.find t.table_ key).isSome then MemTable.Size t else MemTable.Size t + 1) :=
  ⟨MemTable.Get_Delete_self P t key now, StdMap.filter_assign t.table_ key _ h, rfl,
   StdMap.length_assign t.table_ key _ h⟩

/-- C21 on the memtable after `Put("a", "1")`, `Put("b", "2")`: `Delete("a")`
replaces the live entry, the table keeps two entries. -/
theorem C21_memtable_delete_witness :
    MemTable.Get (MemTable.Delete examplePlatform (MemTable.runOps examplePlatform MemTable.new
      [MemOp.put [97] [49] 1, MemOp.put [98] [50] 2]) [97] 3) [97] = none ∧
    MemTable.entries (MemTable.Delete examplePlatform (MemTable.runOps examplePlatform MemTable.new
      [MemOp.put [97] [49] 1, MemOp.put [98] [50] 2]) [97] 3) =
      [([97], { value := [], is_deleted := true, timestamp := 3 }),
       ([98], { value := [50], is_deleted := false, timestamp := 2 })] ∧
    MemTable.Size (MemTable.Delete examplePlatform (MemTable.runOps examplePlatform MemTable.new
      [MemOp.put [97] [49] 1, MemOp.put [98] [50] 2]) [97] 3) = 2 :=
  ⟨(C21_memtable_delete examplePlatform (MemTable.runOps examplePlatform MemTable.new
      [MemOp.put [97] [49] 1, MemOp.put [98] [50] 2]) [97] 3
      (MemTable.Sorted_runOps examplePlatform _ MemTable.new List.Pairwise.nil)).1,
   by decide, by decide⟩

/-- C22, refuted as stated: in the memtable after `Put("b", "2")` and
`Delete("a")`, where `"a"` holds a tombstone and `"c"` was never written,
`Get("a")` and `Get("c")` give the same result. -/
theorem C22_get_tombstone_equals_absent :
    StdMap.find (MemTable.runOps examplePlatform MemTable.new
      [MemOp.put [98] [50] 1, MemOp.delete [97] 2]).table_ [97] =
      some { value := [], is_deleted := true, timestamp := 2 } ∧
    StdMap.find (MemTable.runOps examplePlatform MemTable.new
      [MemOp.put [98] [50] 1, MemOp.delete [97] 2]).table_ [99] = none ∧
    MemTable.Get (MemTable.runOps examplePlatform MemTable.new
      [MemOp.put [98] [50] 1, MemOp.delete [97] 2]) [97] =
    MemTable.Get (MemTable.runOps examplePlatform MemTable.new
      [MemOp.put [98] [50] 1, MemOp.delete [97] 2]) [99] := by
  decide

/-- C22, amended: `MemTable::Get` is two-valued.  It returns `true` with the
value exactly when the table holds a live entry for the key; for a key that
holds a tombstone and for a key that the table does not hold it returns the
same result, `false`. -/
theorem C22_get_two_valued (t : MemTable) (k1 k2 : Bytes) (e : Entry)
    (h1 : StdMap.find t.table_ k1 = some e) (hd : e.is_deleted = true)
    (h2 : StdMap.find t.table_ k2 = none) :
    MemTable.Get t k1 = none ∧ MemTable.Get t k2 = none ∧
    MemTable.Get t k1 = MemTable.Get t k2 ∧
    ∀ k v, MemTable.Get t k = some v ↔
      ∃ e2, StdMap.find t.table_ k = some e2 ∧ e2.is_deleted = false ∧ e2.value = v := by
  have g1 : MemTable.Get t k1 = none := by simp [MemTable.Get, h1, hd]
  have g2 : MemTable.Get t k2 = none := by simp [MemTable.Get, h2]
  refine ⟨g1, g2, g1.trans g2.symm, ?_⟩
  intro k v
  unfold MemTable.Get
  cases hf : StdMap.find t.table_ k with
  | none => simp
  | some e2 =>
    cases hdel : e2.is_deleted <;> simp [hdel]

/-- C22 amended, on the memtable after `Put("b", "2")` and `Delete("a")`. -/
theorem C22_get_two_valued_witness :
    MemTable.Get (MemTable.runOps examplePlatform MemTable.new
      [MemOp.put [98] [50] 1, MemOp.delete [97] 2]) [97] = none ∧
    MemTable.Get (MemTable.runOps examplePlatform MemTable.new
      [MemOp.put [98] [50] 1, MemOp.delete [97] 2]) [99] = none :=
  ⟨(C22_get_two_valued (MemTable.runOps examplePlatform MemTable.new
      [MemOp.put [98] [50] 1, MemOp.delete [97] 2]) [97] [99]
      { value := [], is_deleted := true, timestamp := 2 } (by decide) rfl (by decide)).1,
   (C22_get_two_valued (MemTable.runOps examplePlatform MemTable.new
      [MemOp.put [98] [50] 1, MemOp.delete [97] 2]) [97] [99]
      { value := [], is_deleted := true, timestamp := 2 } (by decide) rfl (by decide)).2.1⟩

/-- C23: on the memtable that a sequence of `Put`, `Delete` and `Clear` calls
builds from the empty one, the iteration from `Begin()` to `End()` yields keys
in strictly ascending order of unsigned bytes, each key once; the keys yielded
are those written since the last `Clear`; and the entry yielded for a key is
the one of the last call that wrote the key, a tombstone when that call is a
`Delete`. -/
theorem C23_memtable_iteration (P : Platform) (ops : List MemOp) :
    List.Pairwise (fun a b => bytesLt a.1 b.1 = true)
      (MemTable.entries (MemTable.runOps P MemTable.new ops)) ∧
    ((MemTable.entries (MemTable.runOps P MemTable.new ops)).map Prod.fst).Nodup ∧
    (∀ k, k ∈ (MemTable.entries (MemTable.runOps P MemTable.new ops)).map Prod.fst ↔
      k ∈ MemTable.writtenKeys ops) ∧
    (∀ k e, (k, e) ∈ MemTable.entries (MemTable.runOps P MemTable.new ops) ↔
      MemTable.expected (fun _ => none) ops k = some e) := by
  have hs : StdMap.Sorted (MemTable.runOps P MemTable.new ops).table_ :=
    MemTable.Sorted_runOps P ops MemTable.new List.Pairwise.nil
  have hfind : ∀ k, StdMap.find (MemTable.runOps P MemTable.new ops).table_ k =
      MemTable.expected (fun _ => none) ops k := by
    intro k
    rw [MemTable.find_runOps]
    rfl
  have hmem : ∀ k e, (k, e) ∈ MemTable.entries (MemTable.runOps P MemTable.new ops) ↔
      MemTable.expected (fun _ => none) ops k = some e := by
    intro k e
    rw [← hfind]
    exact ⟨fun h => StdMap.find_of_mem_sorted _ k e hs h, fun h => mem_of_assocFind _ k e h⟩
  refine ⟨hs, ?_, ?_, hmem⟩
  · unfold List.Nodup
    rw [List.pairwise_map]
    refine List.Pairwise.imp ?_ hs
    intro a b hab he
    rw [he, bytesLt_irrefl] at hab
    simp at hab
  · intro k
    have hw := MemTable.writtenKeys_expected ops [] (fun _ => none) (by simp) k
    unfold MemTable.writtenKeys
    rw [← hw, List.mem_map]
    constructor
    · rintro ⟨⟨k2, e⟩, hm, rfl⟩
      rw [(hmem k2 e).mp hm]
      rfl
    · intro h
      obtain ⟨e, he⟩ := Option.isSome_iff_exists.mp h
      exact ⟨(k, e), (hmem k e).mpr he, rfl⟩

/-- C23 on the calls `Put("b")`, `Put("\xff")`, `Put("a")`, `Delete("b")`,
`Put("a")`: the iteration yields `a`, the tombstone of `b`, then `\xff`. -/
theorem C23_memtable_iteration_witness :
    MemTable.entries (MemTable.runOps examplePlatform MemTable.new
      [MemOp.put [98] [50] 1, MemOp.put [255] [51] 2, MemOp.put [97] [49] 3,
       MemOp.delete [98] 4, MemOp.put [97] [52] 5]) =
      [([97], { value := [52], is_deleted := false, timestamp := 5 }),
       ([98], { value := [], is_deleted := true, timestamp := 4 }),
       ([255], { value := [51], is_deleted := false, timestamp := 2 })] ∧
    ((MemTable.entries (MemTable.runOps examplePlatform MemTable.new
      [MemOp.put [98] [50] 1, MemOp.put [255] [51] 2, MemOp.put [97] [49] 3,
       MemOp.delete [98] 4, MemOp.put [97] [52] 5])).map Prod.fst).Nodup :=
  ⟨by decide,
   (C23_memtable_iteration examplePlatform
      [MemOp.put [98] [50] 1, MemOp.put [255] [51] 2, MemOp.put [97] [49] 3,
       MemOp.delete [98] 4, MemOp.put [97] [52] 5]).2.1⟩

/-- C24: on the memtable that a sequence of `Put`, `Delete` and `Clear` calls
builds from the empty one, with a footprint below `2^64`, `SizeBytes()` is the
sum over the entries of the table of `key.size() + value.size() + sizeof(Entry)`;
and the amount that the next overwrite of a key subtracts, the contribution of
the entry it replaces, is at most `SizeBytes()`: the subtraction stays at or
above zero and leaves the sum over the other entries. -/
theorem C24_memtable_size_bytes (P : Platform) (ops : List MemOp)
    (hfit : MemTable.footprint P (MemTable.runOps P MemTable.new ops).table_ < U64) :
    MemTable.SizeBytes (MemTable.runOps P MemTable.new ops) =
      MemTable.footprint P (MemTable.runOps P MemTable.new ops).table_ ∧
    ∀ key old, StdMap.find (MemTable.runOps P MemTable.new ops).table_ key = some old →
      MemTable.EstimateSize P key old = key.length + old.value.length + P.sizeof_Entry ∧
      MemTable.EstimateSize P key old ≤ MemTable.SizeBytes (MemTable.runOps P MemTable.new ops) ∧
      usub (MemTable.SizeBytes (MemTable.runOps P MemTable.new ops))
          (MemTable.EstimateSize P key old) =
        MemTable.footprint P (MemTable.runOps P MemTable.new ops).table_ -
          (key.length + old.value.length + P.sizeof_Entry) := by
  have hsize : MemTable.SizeBytes (MemTable.runOps P MemTable.new ops) =
      MemTable.footprint P (MemTable.runOps P MemTable.new ops).table_ := by
    have := MemTable.size_bytes_runOps P ops MemTable.new List.Pairwise.nil rfl
    unfold MemTable.SizeBytes
    rw [this, Nat.mod_eq_of_lt hfit]
  refine ⟨hsize, ?_⟩
  intro key old hfind
  have hle := MemTable.contribution_le_footprint P _ key old (mem_of_assocFind _ _ _ hfind)
  have hest : MemTable.EstimateSize P key old =
      key.length + old.value.length + P.sizeof_Entry :=
    Nat.mod_eq_of_lt (Nat.lt_of_le_of_lt hle hfit)
  rw [hsize, hest]
  exact ⟨rfl, hle, usub_of_le _ _ hle hfit⟩

/-- C24 on the calls `Put("a", "1")`, `Put("bb", "22")`, `Put("a", "")`,
`Delete("bb")` with 48-byte entries: `SizeBytes()` is `49 + 50`. -/
theorem C24_memtable_size_bytes_witness :
    MemTable.SizeBytes (MemTable.runOps examplePlatform MemTable.new
      [MemOp.put [97] [49] 1, MemOp.put [98, 98] [50, 50] 2, MemOp.put [97] [] 3,
       MemOp.delete [98, 98] 4]) = 99 ∧
    MemTable.footprint examplePlatform (MemTable.runOps examplePlatform MemTable.new
      [MemOp.put [97] [49] 1, MemOp.put [98, 98] [50, 50] 2, MemOp.put [97] [] 3,
       MemOp.delete [98, 98] 4]).table_ = 99 :=
  ⟨by decide,
   ((C24_memtable_size_bytes examplePlatform
      [MemOp.put [97] [49] 1, MemOp.put [98, 98] [50, 50] 2, MemOp.put [97] [] 3,
       MemOp.delete [98, 98] 4] (by decide)).1).symm.trans (by decide)⟩

/-! ## C29, C30: failed appends and failed flushes -/

/-- C29: when the append to the log returns `false`, `KVStore::Put` returns
`false` and leaves the memtable, the immutable memtable, the cache, the set of
tables and the files as they were; and so does `KVStore::Delete`. -/
theorem C29_failed_append_aborts_write (P : Platform) (s : KVStore) (key value : Bytes) (env : Env)
    (hput : (WAL.Append P s.wal_ s.fs_ WALRecordType.PUT key value (env.clock 0)
      (env.write_ok 0)).2 = false)
    (hdel : (WAL.Append P s.wal_ s.fs_ WALRecordType.DELETE key [] (env.clock 0)
      (env.write_ok 0)).2 = false) :
    ((KVStore.Put P s key value env).2 = false ∧
      (KVStore.Put P s key value env).1.memtable_ = s.memtable_ ∧
      (KVStore.Put P s key value env).1.immutable_memtable_ = s.immutable_memtable_ ∧
      (KVStore.Put P s key value env).1.cache_ = s.cache_ ∧
      (KVStore.Put P s key value env).1.sstables_ = s.sstables_ ∧
      (KVStore.Put P s key value env).1.fs_ = s.fs_) ∧
    ((KVStore.Delete P s key env).2 = false ∧
      (KVStore.Delete P s key env).1.memtable_ = s.memtable_ ∧
      (KVStore.Delete P s key env).1.immutable_memtable_ = s.immutable_memtable_ ∧
      (KVStore.Delete P s key env).1.cache_ = s.cache_ ∧
      (KVStore.Delete P s key env).1.sstables_ = s.sstables_ ∧
      (KVStore.Delete P s key env).1.fs_ = s.fs_) := by
  have hfs1 := (WAL.Append_false P s.wal_ s.fs_ WALRecordType.PUT key value (env.clock 0)
    (env.write_ok 0) hput).2
  have hfs2 := (WAL.Append_false P s.wal_ s.fs_ WALRecordType.DELETE key [] (env.clock 0)
    (env.write_ok 0) hdel).2
  constructor
  · unfold KVStore.Put
    split
    · rename_i wal1 fs1 heq
      rw [heq] at hfs1
      exact ⟨rfl, rfl, rfl, rfl, rfl, hfs1⟩
    · rename_i wal1 fs1 heq
      rw [heq] at hput
      simp at hput
  · unfold KVStore.Delete
    split
    · rename_i wal1 fs1 heq
      rw [heq] at hfs2
      exact ⟨rfl, rfl, rfl, rfl, rfl, hfs2⟩
    · rename_i wal1 fs1 heq
      rw [heq] at hdel
      simp at hdel

/-- C29 on the store that holds `"a"`, with a device that refuses the write:
`Put("b", "2")` and `Delete("a")` return `false` and `Get("a")` still finds `"1"`. -/
theorem C29_failed_append_aborts_write_witness :
    (KVStore.Put examplePlatform storeWithA [98] [50] failingWriteEnv).2 = false ∧
    (KVStore.Put examplePlatform storeWithA [98] [50] failingWriteEnv).1.memtable_ =
      storeWithA.memtable_ ∧
    (KVStore.Delete examplePlatform storeWithA [98] failingWriteEnv).2 = false ∧
    (KVStore.Get examplePlatform
      (KVStore.Delete examplePlatform storeWithA [97] failingWriteEnv).1 [97] exampleEnv).2 =
      some [49] :=
  ⟨(C29_failed_append_aborts_write examplePlatform storeWithA [98] [50] failingWriteEnv
      (by decide) (by decide)).1.1,
   (C29_failed_append_aborts_write examplePlatform storeWithA [98] [50] failingWriteEnv
      (by decide) (by decide)).1.2.1,
   (C29_failed_append_aborts_write examplePlatform storeWithA [98] [50] failingWriteEnv
      (by decide) (by decide)).2.1,
   by decide⟩

/-- C30, at a flush whose table file cannot be created.  Before the flush the
store answers `Get("a")` with `"1"` and the log holds the record of the `Put`.
`FlushMemTable` truncates the log, then `SSTable::Create` returns `false`: no
table is added, the log is empty, the memtable is empty, and `Get("a")` finds
nothing, in this store and in a store opened afterwards on the same files. -/
theorem C30_flush_clears_log_before_create :
    (KVStore.Get examplePlatform storeWithA [97] exampleEnv).2 = some [49] ∧
    (WAL.ReadAll examplePlatform storeWithA.wal_ storeWithA.fs_).map WALRecord.payload =
      [(WALRecordType.PUT, [97], [49])] ∧
    (SSTable.Create examplePlatform
      (WAL.Clear storeWithA.wal_ storeWithA.fs_ true).2
      (KVStore.GetSSTablePath defaultConfig 0) (KVStore.flushEntries storeWithA.memtable_)
      true false (noTableEnv.open_ok (KVStore.GetSSTablePath defaultConfig 0))).2 = false ∧
    (KVStore.FlushMemTable examplePlatform storeWithA noTableEnv).sstables_ = [] ∧
    WAL.ReadAll examplePlatform (KVStore.FlushMemTable examplePlatform storeWithA noTableEnv).wal_
      (KVStore.FlushMemTable examplePlatform storeWithA noTableEnv).fs_ = [] ∧
    (KVStore.FlushMemTable examplePlatform storeWithA noTableEnv).memtable_ = MemTable.new ∧
    (KVStore.FlushMemTable examplePlatform storeWithA noTableEnv).immutable_memtable_ = none ∧
    (KVStore.Get examplePlatform (KVStore.FlushMemTable examplePlatform storeWithA noTableEnv)
      [97] exampleEnv).2 = none ∧
    (KVStore.new examplePlatform defaultConfig
      (KVStore.FlushMemTable examplePlatform storeWithA noTableEnv).fs_ exampleEnv).map
      (fun s => (KVStore.Get examplePlatform s [97] exampleEnv).2) = some none := by
  decide

/-! ## C25, C26, C27, C28: the cache -/

theorem LRUCache.Linked_of_Sound (c : LRUCache) (truth : Bytes → Option Bytes)
    (h : LRUCache.Sound c truth) : LRUCache.Linked c := by
  obtain ⟨h1, _, h3⟩ := h
  refine ⟨h1, ?_⟩
  intro k it hk
  obtain ⟨e, he, hkey, _⟩ := h3 k it hk
  exact ⟨e, he, hkey⟩

/-- Among nodes of distinct addresses, unlinking a node keeps every other node
in place. -/
theorem LRUCache.listErase_eq_filter (l : List (Nat × CacheEntry)) (it : Nat)
    (h : (l.map Prod.fst).Nodup) :
    LRUCache.listErase l it = l.filter (fun n => decide (n.1 ≠ it)) := by
  induction l with
  | nil => rfl
  | cons n rest ih =>
    obtain ⟨a, e⟩ := n
    simp only [List.map_cons, List.nodup_cons] at h
    by_cases ha : a = it
    · subst ha
      simp only [LRUCache.listErase, if_true]
      rw [List.filter_cons_of_neg (by simp)]
      symm
      rw [List.filter_eq_self]
      intro m hm
      simp only [ne_eq, decide_not, Bool.not_eq_eq_eq_not, Bool.not_true, decide_eq_false_iff_not]
      intro hma
      apply h.1
      rw [← hma]
      exact List.mem_map_of_mem Prod.fst hm
    · simp only [LRUCache.listErase, ha, if_false]
      rw [List.filter_cons_of_pos (by simpa using ha), ih h.2]

theorem LRUCache.listErase_of_none (l : List (Nat × CacheEntry)) (it : Nat)
    (h : assocFind l it = none) : LRUCache.listErase l it = l := by
  induction l with
  | nil => rfl
  | cons n rest ih =>
    obtain ⟨a, e⟩ := n
    by_cases ha : a = it
    · simp [assocFind, ha] at h
    · simp only [assocFind, ha, if_false] at h
      simp only [LRUCache.listErase, ha, if_false]
      rw [ih h]

theorem LRUCache.perm_spliceFront (l : List (Nat × CacheEntry)) (it : Nat) (e : CacheEntry)
    (h : assocFind l it = some e) : ((it, e) :: LRUCache.listErase l it).Perm l := by
  induction l with
  | nil => simp [assocFind] at h
  | cons n rest ih =>
    obtain ⟨a, x⟩ := n
    by_cases ha : a = it
    · subst ha
      simp only [assocFind, if_true, Option.some.injEq] at h
      subst h
      simp only [LRUCache.listErase, if_true]
      exact List.Perm.refl _
    · simp only [assocFind, ha, if_false] at h
      simp only [LRUCache.listErase, ha, if_false]
      exact (List.Perm.swap _ _ _).trans (List.Perm.cons _ (ih h))

theorem LRUCache.storedSize_listErase (l : List (Nat × CacheEntry)) (it : Nat) :
    LRUCache.storedSize (LRUCache.listErase l it) + (LRUCache.deref l it).size =
      LRUCache.storedSize l := by
  induction l with
  | nil => simp [LRUCache.listErase, LRUCache.deref, LRUCache.storedSize, assocFind]
  | cons n rest ih =>
    obtain ⟨a, x⟩ := n
    by_cases ha : a = it
    · simp only [LRUCache.listErase, ha, if_true, LRUCache.deref, assocFind,
        LRUCache.storedSize, List.map_cons, List.sum_cons]
      exact Nat.add_comm _ _
    · have hd : LRUCache.deref ((a, x) :: rest) it = LRUCache.deref rest it := by
        simp [LRUCache.deref, assocFind, ha]
      rw [hd]
      simp only [LRUCache.listErase, ha, if_false, LRUCache.storedSize, List.map_cons,
        List.sum_cons] at ih ⊢
      rw [Nat.add_assoc, ih]

theorem LRUCache.length_listErase_le (l : List (Nat × CacheEntry)) (it : Nat) :
    (LRUCache.listErase l it).length ≤ l.length := by
  induction l with
  | nil => simp [LRUCache.listErase]
  | cons n rest ih =>
    obtain ⟨a, x⟩ := n
    by_cases ha : a = it
    · simp [LRUCache.listErase, ha]
    · simp only [LRUCache.listErase, ha, if_false, List.length_cons]
      omega

theorem LRUCache.capacity_evictN (n : Nat) :
    ∀ c : LRUCache, (LRUCache.evictN n c).capacity_ = c.capacity_ := by
  induction n with
  | zero => intro c; rfl
  | succ n ih =>
    intro c
    simp only [LRUCache.evictN]
    rw [ih]
    unfold LRUCache.Evict
    split <;> rfl

theorem LRUCache.lru_list_Evict (c : LRUCache) :
    (LRUCache.Evict c).lru_list_ = c.lru_list_.dropLast := by
  unfold LRUCache.Evict
  split
  · rename_i h
    rw [List.getLast?_eq_none_iff] at h
    rw [h]
    rfl
  · rfl

/-- `n` evictions leave the list without its last `n` nodes. -/
theorem LRUCache.lru_list_evictN (n : Nat) :
    ∀ c : LRUCache, (LRUCache.evictN n c).lru_list_ = c.lru_list_.take (c.lru_list_.length - n) := by
  induction n with
  | zero => intro c; simp [LRUCache.evictN]
  | succ n ih =>
    intro c
    simp only [LRUCache.evictN]
    rw [ih, LRUCache.lru_list_Evict, List.dropLast_eq_take, List.length_take, List.take_take]
    congr 1
    omega

/-- The eviction loop of `Put`, given as many rounds as the list has nodes,
evicts some number `j` of nodes: before each of the `j` evictions the size
with the new entry exceeded the capacity and the list was not empty, and after
the last one the size with the new entry fits or the list is empty. -/
theorem LRUCache.evictLoop_spec (entry_size : Nat) :
    ∀ (fuel : Nat) (c : LRUCache), c.lru_list_.length ≤ fuel →
      ∃ j, j ≤ c.lru_list_.length ∧
        LRUCache.evictLoop fuel c entry_size = LRUCache.evictN j c ∧
        (∀ i, i < j → c.capacity_ < uadd (LRUCache.evictN i c).current_size_ entry_size ∧
          (LRUCache.evictN i c).lru_list_ ≠ []) ∧
        (uadd (LRUCache.evictN j c).current_size_ entry_size ≤ c.capacity_ ∨
          (LRUCache.evictN j c).lru_list_ = []) := by
  intro fuel
  induction fuel with
  | zero =>
    intro c hlen
    refine ⟨0, Nat.zero_le _, rfl, fun i hi => absurd hi (Nat.not_lt_zero i), Or.inr ?_⟩
    exact List.eq_nil_of_length_eq_zero (Nat.le_zero.mp hlen)
  | succ n ih =>
    intro c hlen
    unfold LRUCache.evictLoop
    by_cases hcond : (decide (uadd c.current_size_ entry_size > c.capacity_) &&
        !c.lru_list_.isEmpty) = true
    · rw [if_pos hcond]
      simp only [Bool.and_eq_true, decide_eq_true_eq, Bool.not_eq_true', List.isEmpty_eq_false_iff_exists_mem] at hcond
      obtain ⟨hover, x, hx⟩ := hcond
      have hne : c.lru_list_ ≠ [] := List.ne_nil_of_mem hx
      have hpos : 0 < c.lru_list_.length := List.length_pos.mpr hne
      have hlen2 : (LRUCache.Evict c).lru_list_.length ≤ n := by
        rw [LRUCache.lru_list_Evict, List.length_dropLast]
        omega
      obtain ⟨j, hj, heq, hbefore, hafter⟩ := ih (LRUCache.Evict c) hlen2
      have hcap : (LRUCache.Evict c).capacity_ = c.capacity_ := LRUCache.capacity_evictN 1 c
      refine ⟨j + 1, ?_, heq, ?_, ?_⟩
      · rw [LRUCache.lru_list_Evict, List.length_dropLast] at hj
        omega
      · intro i hi
        cases i with
        | zero => exact ⟨hover, hne⟩
        | succ i =>
          have := hbefore i (by omega)
          rw [hcap] at this
          exact this
      · rw [hcap] at hafter
        exact hafter
    · rw [if_neg hcond]
      refine ⟨0, Nat.zero_le _, rfl, fun i hi => absurd hi (Nat.not_lt_zero i), ?_⟩
      simp only [Bool.and_eq_true, decide_eq_true_eq, Bool.not_eq_true', not_and,
        Bool.not_eq_false, List.isEmpty_iff] at hcond
      by_cases hover : uadd c.current_size_ entry_size > c.capacity_
      · exact Or.inr (hcond hover)
      · exact Or.inl (Nat.le_of_not_lt hover)

/-- After `Put(k, v)` the lookup of `k` hits the node at the front of the list
and returns `v`. -/
theorem LRUCache.Get_after_Put (P : Platform) (c : LRUCache) (key value : Bytes) :
    (LRUCache.Get (LRUCache.Put P c key value) key).2 = some value := by
  unfold LRUCache.Get LRUCache.Put
  simp only [assocFind_assocSet_self]
  simp [LRUCache.spliceFront, LRUCache.deref, assocFind]

theorem threeEntryCache_linked : LRUCache.Linked threeEntryCache :=
  LRUCache.Linked_of_Sound _ threeEntryTruth
    (LRUCache.Sound_cachePut examplePlatform _ [99] [51] threeEntryTruth
      (LRUCache.Sound_cachePut examplePlatform _ [98] [50] threeEntryTruth
        (LRUCache.Sound_cachePut examplePlatform _ [97] [49] threeEntryTruth
          (LRUCache.Sound_cacheNew 250 threeEntryTruth) rfl) rfl) rfl)

/-- C26: on a cache whose map and list are linked, `Get(k)` of a cached key
returns the value of the node that the map holds for `k`, adds one to the hit
counter (in `size_t` arithmetic), leaves the miss counter, the capacity,
`Size()` and the lookup map as they were, and moves that node to the front of
the recency list, the other nodes keeping their order; `Get(k)` of a key that
is not cached returns `false`, adds one to the miss counter and changes
nothing else. -/
theorem C26_cache_get_frame (c : LRUCache) (key : Bytes) (h : LRUCache.Linked c) :
    (∀ it, assocFind c.cache_map_ key = some it →
      ∃ e, (it, e) ∈ c.lru_list_ ∧ e.key = key ∧
        (LRUCache.Get c key).2 = some e.value ∧
        LRUCache.HitCount (LRUCache.Get c key).1 = (LRUCache.HitCount c + 1) % U64 ∧
        LRUCache.MissCount (LRUCache.Get c key).1 = LRUCache.MissCount c ∧
        LRUCache.Size (LRUCache.Get c key).1 = LRUCache.Size c ∧
        LRUCache.Capacity (LRUCache.Get c key).1 = LRUCache.Capacity c ∧
        (LRUCache.Get c key).1.cache_map_ = c.cache_map_ ∧
        (LRUCache.Get c key).1.lru_list_ =
          (it, e) :: c.lru_list_.filter (fun n => decide (n.1 ≠ it)) ∧
        (LRUCache.Get c key).1.lru_list_.Perm c.lru_list_) ∧
    (assocFind c.cache_map_ key = none →
      (LRUCache.Get c key).2 = none ∧
      (LRUCache.Get c key).1 = { c with misses_ := (c.misses_ + 1) % U64 }) := by
  constructor
  · intro it hfind
    obtain ⟨e, he, hkey⟩ := h.2 key it hfind
    have hf : assocFind c.lru_list_ it = some e := assocFind_of_mem_nodup _ _ _ h.1 he
    refine ⟨e, he, hkey, ?_⟩
    have hget : LRUCache.Get c key =
        ({ c with hits_ := uadd c.hits_ 1,
                  lru_list_ := (it, e) :: LRUCache.listErase c.lru_list_ it }, some e.value) := by
      unfold LRUCache.Get
      simp [hfind, LRUCache.spliceFront, hf, LRUCache.deref, assocFind]
    rw [hget]
    refine ⟨rfl, rfl, rfl, rfl, rfl, rfl, ?_, LRUCache.perm_spliceFront _ _ _ hf⟩
    show (it, e) :: LRUCache.listErase c.lru_list_ it = _
    rw [LRUCache.listErase_eq_filter _ _ h.1]
  · intro hfind
    have hget : LRUCache.Get c key = ({ c with misses_ := uadd c.misses_ 1 }, none) := by
      unfold LRUCache.Get
      simp [hfind]
    rw [hget]
    exact ⟨rfl, rfl⟩

/-- C26 on `threeEntryCache`: `Get("a")` returns `"1"` and moves `a` from the
back to the front, `c` and `b` keeping their order; `Get("z")` misses. -/
theorem C26_cache_get_frame_witness :
    (LRUCache.recency threeEntryCache).map (fun e => e.key) = [[99], [98], [97]] ∧
    (LRUCache.Get threeEntryCache [97]).2 = some [49] ∧
    (LRUCache.recency (LRUCache.Get threeEntryCache [97]).1).map (fun e => e.key) =
      [[97], [99], [98]] ∧
    (LRUCache.Get threeEntryCache [122]).2 = none ∧
    (LRUCache.Get threeEntryCache [122]).1 = { threeEntryCache with misses_ := 1 } :=
  ⟨by decide, by decide, by decide,
   ((C26_cache_get_frame threeEntryCache [122] threeEntryCache_linked).2 (by decide)).1,
   by decide⟩

/-- C27: after `Put(k, v)` the lookup of `k` returns `v` and the new entry for
`k` is at the front of the recency list.  Behind it stays the list as it was
once a previous entry for `k` is unlinked, less its last `j` nodes, the least
recently used ones: before each of the `j` evictions the size with the new
entry exceeded the capacity, and after the last one it fits or no node is
left.  `Size()` is the size after those evictions plus the size of the new
entry. -/
theorem C27_cache_put (P : Platform) (c : LRUCache) (key value : Bytes) :
    (LRUCache.Get (LRUCache.Put P c key value) key).2 = some value ∧
    (LRUCache.recency (LRUCache.Put P c key value)).head? =
      some { key := key, value := value, size := LRUCache.EstimateSize P key value } ∧
    ∃ j, j ≤ (LRUCache.removeKey c key).lru_list_.length ∧
      (LRUCache.Put P c key value).lru_list_.tail =
        (LRUCache.removeKey c key).lru_list_.take
          ((LRUCache.removeKey c key).lru_list_.length - j) ∧
      (∀ i, i < j →
        c.capacity_ < uadd (LRUCache.evictN i (LRUCache.removeKey c key)).current_size_
          (LRUCache.EstimateSize P key value) ∧
        (LRUCache.evictN i (LRUCache.removeKey c key)).lru_list_ ≠ []) ∧
      (uadd (LRUCache.evictN j (LRUCache.removeKey c key)).current_size_
          (LRUCache.EstimateSize P key value) ≤ c.capacity_ ∨
        (LRUCache.evictN j (LRUCache.removeKey c key)).lru_list_ = []) ∧
      LRUCache.Size (LRUCache.Put P c key value) =
        uadd (LRUCache.evictN j (LRUCache.removeKey c key)).current_size_
          (LRUCache.EstimateSize P key value) := by
  have hcap : (LRUCache.removeKey c key).capacity_ = c.capacity_ := by
    unfold LRUCache.removeKey
    split <;> rfl
  obtain ⟨j, hj, heq, hbefore, hafter⟩ := LRUCache.evictLoop_spec
    (LRUCache.EstimateSize P key value) (LRUCache.removeKey c key).lru_list_.length
    (LRUCache.removeKey c key) (Nat.le_refl _)
  rw [hcap] at hafter
  refine ⟨LRUCache.Get_after_Put P c key value, ?_, j, hj, ?_, ?_, hafter, ?_⟩
  · simp [LRUCache.recency, LRUCache.Put]
  · unfold LRUCache.Put
    simp only [List.tail_cons]
    rw [heq, LRUCache.lru_list_evictN]
  · intro i hi
    have := hbefore i hi
    rw [hcap] at this
    exact this
  · unfold LRUCache.Put LRUCache.Size
    simp only
    rw [heq]

/-- C27 on `threeEntryCache` (capacity 250, three entries of 74 bytes):
`Put("d", "4")` evicts `a`, the least recently used entry, and no other. -/
theorem C27_cache_put_witness :
    (LRUCache.Get (LRUCache.Put examplePlatform threeEntryCache [100] [52]) [100]).2 =
      some [52] ∧
    (LRUCache.recency (LRUCache.Put examplePlatform threeEntryCache [100] [52])).map
      (fun e => e.key) = [[100], [99], [98]] ∧
    LRUCache.Size (LRUCache.Put examplePlatform threeEntryCache [100] [52]) = 222 :=
  ⟨(C27_cache_put examplePlatform threeEntryCache [100] [52]).1, by decide, by decide⟩

/-- C28: on a cache whose map and list are linked, `Invalidate(k)` of a cached
key unlinks the node that the map holds for `k`, the other nodes keeping their
order, erases `k` from the map and subtracts the size stored in the node from
`Size()`; `Invalidate(k)` of a key that is not cached changes nothing.  In both
cases a following `Get(k)` misses, the map holds for every other key what it
held, and the counters and the capacity are unchanged. -/
theorem C28_cache_invalidate_frame (c : LRUCache) (key : Bytes) (h : LRUCache.Linked c) :
    (∀ it, assocFind c.cache_map_ key = some it →
      ∃ e, (it, e) ∈ c.lru_list_ ∧ e.key = key ∧
        LRUCache.Size (LRUCache.Invalidate c key) = usub (LRUCache.Size c) e.size ∧
        (LRUCache.Invalidate c key).lru_list_ =
          c.lru_list_.filter (fun n => decide (n.1 ≠ it)) ∧
        (LRUCache.Invalidate c key).cache_map_ = assocErase c.cache_map_ key) ∧
    (assocFind c.cache_map_ key = none → LRUCache.Invalidate c key = c) ∧
    (LRUCache.Get (LRUCache.Invalidate c key) key).2 = none ∧
    (∀ other, other ≠ key →
      assocFind (LRUCache.Invalidate c key).cache_map_ other = assocFind c.cache_map_ other) ∧
    LRUCache.HitCount (LRUCache.Invalidate c key) = LRUCache.HitCount c ∧
    LRUCache.MissCount (LRUCache.Invalidate c key) = LRUCache.MissCount c ∧
    LRUCache.Capacity (LRUCache.Invalidate c key) = LRUCache.Capacity c := by
  refine ⟨?_, ?_, ?_, ?_, ?_, ?_, ?_⟩
  · intro it hfind
    obtain ⟨e, he, hkey⟩ := h.2 key it hfind
    have hf : assocFind c.lru_list_ it = some e := assocFind_of_mem_nodup _ _ _ h.1 he
    refine ⟨e, he, hkey, ?_⟩
    have hinv : LRUCache.Invalidate c key =
        { c with current_size_ := usub c.current_size_ e.size,
                 lru_list_ := LRUCache.listErase c.lru_list_ it,
                 cache_map_ := assocErase c.cache_map_ key } := by
      unfold LRUCache.Invalidate LRUCache.removeKey
      simp [hfind, LRUCache.deref, hf]
    rw [hinv]
    exact ⟨rfl, LRUCache.listErase_eq_filter _ _ h.1, rfl⟩
  · intro hfind
    unfold LRUCache.Invalidate LRUCache.removeKey
    simp only [hfind]
  · exact LRUCache.Get_eq_none _ _ (LRUCache.find_Invalidate_self c key)
  · intro other hne
    unfold LRUCache.Invalidate LRUCache.removeKey
    split
    · rfl
    · exact assocFind_assocErase_ne _ _ _ hne
  · unfold LRUCache.Invalidate LRUCache.removeKey
    split <;> rfl
  · unfold LRUCache.Invalidate LRUCache.removeKey
    split <;> rfl
  · unfold LRUCache.Invalidate LRUCache.removeKey
    split <;> rfl

/-- C28 on `threeEntryCache`: `Invalidate("b")` removes the middle entry and 74
bytes, `Invalidate("z")` changes nothing. -/
theorem C28_cache_invalidate_frame_witness :
    (LRUCache.recency (LRUCache.Invalidate threeEntryCache [98])).map (fun e => e.key) =
      [[99], [97]] ∧
    LRUCache.Size threeEntryCache = 222 ∧
    LRUCache.Size (LRUCache.Invalidate threeEntryCache [98]) = 148 ∧
    (LRUCache.Get (LRUCache.Invalidate threeEntryCache [98]) [98]).2 = none ∧
    LRUCache.Invalidate threeEntryCache [122] = threeEntryCache :=
  ⟨by decide, by decide, by decide,
   (C28_cache_invalidate_frame threeEntryCache [98] threeEntryCache_linked).2.2.1,
   by decide⟩

theorem LRUCache.storedSize_append (a b : List (Nat × CacheEntry)) :
    LRUCache.storedSize (a ++ b) = LRUCache.storedSize a + LRUCache.storedSize b := by
  simp [LRUCache.storedSize]

theorem LRUCache.perm_spliceFront_self (l : List (Nat × CacheEntry)) (it : Nat) :
    (LRUCache.spliceFront l it).Perm l := by
  unfold LRUCache.spliceFront
  cases h : assocFind l it with
  | none => exact List.Perm.refl _
  | some e => exact LRUCache.perm_spliceFront l it e h

theorem LRUCache.current_size_lt (bound : Nat) (c : LRUCache) (h : LRUCache.Bounded bound c)
    (hcap : c.capacity_ < 2 ^ 63) (hbound : bound < 2 ^ 63) : c.current_size_ < 2 ^ 63 := by
  rcases h.fits with hf | hf
  · exact Nat.lt_of_le_of_lt hf hcap
  · rw [h.size]
    match hl : c.lru_list_, hf with
    | [], _ => simp [LRUCache.storedSize]
    | [n], _ =>
      have := h.entries n (by rw [hl]; exact List.mem_singleton.mpr rfl)
      simp only [LRUCache.storedSize, List.map_cons, List.map_nil, List.sum_cons, List.sum_nil,
        Nat.add_zero]
      exact Nat.lt_of_le_of_lt this hbound
    | _ :: _ :: _, hf2 => simp at hf2

theorem two_pow_63_lt_U64 : 2 ^ 63 < U64 := by
  rw [U64_eq]
  norm_num

theorem LRUCache.Bounded_removeKey (bound : Nat) (c : LRUCache) (key : Bytes)
    (h : LRUCache.Bounded bound c) (hcap : c.capacity_ < 2 ^ 63) (hbound : bound < 2 ^ 63) :
    LRUCache.Bounded bound (LRUCache.removeKey c key) := by
  unfold LRUCache.removeKey
  split
  · exact h
  · rename_i it _
    have hsum := LRUCache.storedSize_listErase c.lru_list_ it
    have hlt := LRUCache.current_size_lt bound c h hcap hbound
    have hle : (LRUCache.deref c.lru_list_ it).size ≤ c.current_size_ := by
      rw [h.size]
      omega
    have hsub : usub c.current_size_ (LRUCache.deref c.lru_list_ it).size =
        c.current_size_ - (LRUCache.deref c.lru_list_ it).size :=
      usub_of_le _ _ hle (Nat.lt_trans hlt two_pow_63_lt_U64)
    refine ⟨?_, ?_, ?_⟩
    · show usub c.current_size_ (LRUCache.deref c.lru_list_ it).size =
        LRUCache.storedSize (LRUCache.listErase c.lru_list_ it)
      rw [hsub]
      have := h.size
      omega
    · intro n hn
      exact h.entries n (LRUCache.mem_listErase _ _ _ hn)
    · show usub c.current_size_ (LRUCache.deref c.lru_list_ it).size ≤ c.capacity_ ∨
        (LRUCache.listErase c.lru_list_ it).length ≤ 1
      rcases h.fits with hf | hf
      · left
        rw [hsub]
        omega
      · right
        exact Nat.le_trans (LRUCache.length_listErase_le _ _) hf

theorem LRUCache.Bounded_Evict (bound : Nat) (c : LRUCache)
    (h : LRUCache.Bounded bound c) (hcap : c.capacity_ < 2 ^ 63) (hbound : bound < 2 ^ 63) :
    LRUCache.Bounded bound (LRUCache.Evict c) := by
  unfold LRUCache.Evict
  split
  · exact h
  · rename_i idb eb hlast
    have hsplit : c.lru_list_ = c.lru_list_.dropLast ++ [(idb, eb)] := by
      have := List.dropLast_append_getLast? (idb, eb) (by simpa using hlast)
      exact this.symm
    have hsum : LRUCache.storedSize c.lru_list_ =
        LRUCache.storedSize c.lru_list_.dropLast + eb.size := by
      conv_lhs => rw [hsplit]
      rw [LRUCache.storedSize_append]
      simp [LRUCache.storedSize]
    have hlt := LRUCache.current_size_lt bound c h hcap hbound
    have hle : eb.size ≤ c.current_size_ := by
      rw [h.size]
      omega
    have hsub : usub c.current_size_ eb.size = c.current_size_ - eb.size :=
      usub_of_le _ _ hle (Nat.lt_trans hlt two_pow_63_lt_U64)
    refine ⟨?_, ?_, ?_⟩
    · show usub c.current_size_ eb.size = LRUCache.storedSize c.lru_list_.dropLast
      rw [hsub]
      have := h.size
      omega
    · intro n hn
      exact h.entries n ((List.dropLast_sublist _).subset hn)
    · show usub c.current_size_ eb.size ≤ c.capacity_ ∨ c.lru_list_.dropLast.length ≤ 1
      rcases h.fits with hf | hf
      · left
        rw [hsub]
        omega
      · right
        rw [List.length_dropLast]
        omega

theorem LRUCache.Bounded_evictN (bound : Nat) (n : Nat) :
    ∀ c : LRUCache, LRUCache.Bounded bound c → c.capacity_ < 2 ^ 63 → bound < 2 ^ 63 →
      LRUCache.Bounded bound (LRUCache.evictN n c) := by
  induction n with
  | zero => intro c h _ _; exact h
  | succ n ih =>
    intro c h hcap hbound
    simp only [LRUCache.evictN]
    apply ih _ (LRUCache.Bounded_Evict bound c h hcap hbound) _ hbound
    have hc : (LRUCache.Evict c).capacity_ = c.capacity_ := LRUCache.capacity_evictN 1 c
    rw [hc]
    exact hcap

theorem LRUCache.Bounded_Put (P : Platform) (bound : Nat) (c : LRUCache) (key value : Bytes)
    (h : LRUCache.Bounded bound c) (hcap : c.capacity_ < 2 ^ 63) (hbound : bound < 2 ^ 63)
    (hfit : key.length + value.length + P.sizeof_CacheEntry ≤ bound) :
    LRUCache.Bounded bound (LRUCache.Put P c key value) := by
  have hes : LRUCache.EstimateSize P key value ≤ bound :=
    Nat.le_trans (Nat.mod_le _ _) hfit
  have hcap1 : (LRUCache.removeKey c key).capacity_ = c.capacity_ := by
    unfold LRUCache.removeKey
    split <;> rfl
  have h1 := LRUCache.Bounded_removeKey bound c key h hcap hbound
  obtain ⟨j, _, heq, _, hafter⟩ := LRUCache.evictLoop_spec
    (LRUCache.EstimateSize P key value) (LRUCache.removeKey c key).lru_list_.length
    (LRUCache.removeKey c key) (Nat.le_refl _)
  have h2 := LRUCache.Bounded_evictN bound j _ h1 (by rw [hcap1]; exact hcap) hbound
  have hcap2 : (LRUCache.evictN j (LRUCache.removeKey c key)).capacity_ = c.capacity_ := by
    rw [LRUCache.capacity_evictN, hcap1]
  have hlt := LRUCache.current_size_lt bound _ h2 (by rw [hcap2]; exact hcap) hbound
  unfold LRUCache.Put
  simp only
  rw [heq]
  generalize LRUCache.evictN j (LRUCache.removeKey c key) = c2 at h2 hcap2 hlt hafter
  rw [hcap1] at hafter
  have hadd : uadd c2.current_size_ (LRUCache.EstimateSize P key value) =
      c2.current_size_ + LRUCache.EstimateSize P key value := by
    unfold uadd
    apply Nat.mod_eq_of_lt
    have := two_pow_63_lt_U64
    rw [U64_eq] at this ⊢
    omega
  refine ⟨?_, ?_, ?_⟩
  · show uadd c2.current_size_ (LRUCache.EstimateSize P key value) = _
    rw [hadd, h2.size]
    simp only [LRUCache.storedSize, List.map_cons, List.sum_cons]
    omega
  · intro n hn
    rcases List.mem_cons.mp hn with hn1 | hn1
    · rw [hn1]
      exact hes
    · exact h2.entries n hn1
  · show uadd c2.current_size_ (LRUCache.EstimateSize P key value) ≤ c2.capacity_ ∨
      ((c2.next_node_, _) :: c2.lru_list_).length ≤ 1
    rcases hafter with ha | ha
    · left
      rw [hcap2]
      exact ha
    · right
      rw [ha]
      simp

theorem LRUCache.Bounded_applyOp (P : Platform) (bound : Nat) (c : LRUCache) (op : CacheOp)
    (h : LRUCache.Bounded bound c) (hcap : c.capacity_ < 2 ^ 63) (hbound : bound < 2 ^ 63)
    (hfit : CacheOp.putSize P op ≤ bound) :
    LRUCache.Bounded bound (LRUCache.applyOp P c op) ∧
    (LRUCache.applyOp P c op).capacity_ = c.capacity_ := by
  cases op with
  | put key value =>
    refine ⟨LRUCache.Bounded_Put P bound c key value h hcap hbound hfit, ?_⟩
    simp only [LRUCache.applyOp, LRUCache.Put]
    rw [LRUCache.evictLoop_spec (LRUCache.EstimateSize P key value) _ _ (Nat.le_refl _)
      |>.choose_spec.2.1, LRUCache.capacity_evictN]
    unfold LRUCache.removeKey
    split <;> rfl
  | get key =>
    simp only [LRUCache.applyOp, LRUCache.Get]
    split
    · exact ⟨⟨h.size, h.entries, h.fits⟩, rfl⟩
    · rename_i it _
      have hp := LRUCache.perm_spliceFront_self c.lru_list_ it
      refine ⟨⟨?_, ?_, ?_⟩, rfl⟩
      · show c.current_size_ = LRUCache.storedSize (LRUCache.spliceFront c.lru_list_ it)
        rw [h.size]
        exact ((hp.map _).sum_eq).symm
      · intro n hn
        exact h.entries n (hp.mem_iff.mp hn)
      · show c.current_size_ ≤ c.capacity_ ∨ (LRUCache.spliceFront c.lru_list_ it).length ≤ 1
        rw [hp.length_eq]
        exact h.fits
  | invalidate key =>
    refine ⟨LRUCache.Bounded_removeKey bound c key h hcap hbound, ?_⟩
    simp only [LRUCache.applyOp, LRUCache.Invalidate]
    unfold LRUCache.removeKey
    split <;> rfl
  | clear =>
    refine ⟨⟨rfl, ?_, Or.inl (Nat.zero_le _)⟩, rfl⟩
    intro n hn
    simp [LRUCache.applyOp, LRUCache.Clear] at hn

theorem LRUCache.Bounded_runOps (P : Platform) (bound : Nat) (ops : List CacheOp) :
    ∀ c : LRUCache, LRUCache.Bounded bound c → c.capacity_ < 2 ^ 63 → bound < 2 ^ 63 →
      (∀ op ∈ ops, CacheOp.putSize P op ≤ bound) →
      LRUCache.Bounded bound (LRUCache.runOps P c ops) ∧
      (LRUCache.runOps P c ops).capacity_ = c.capacity_ := by
  induction ops with
  | nil => intro c h _ _ _; exact ⟨h, rfl⟩
  | cons op rest ih =>
    intro c h hcap hbound hfit
    obtain ⟨h1, hc1⟩ := LRUCache.Bounded_applyOp P bound c op h hcap hbound
      (hfit op (List.mem_cons_self _ _))
    obtain ⟨h2, hc2⟩ := ih _ h1 (by rw [hc1]; exact hcap) hbound
      (fun o hm => hfit o (List.mem_cons_of_mem _ hm))
    exact ⟨h2, hc2.trans hc1⟩

/-- C25, refuted as stated: in a cache of capacity 10, after `Put("k", "v")`,
an entry of 74 bytes, `Size()` is 74. -/
theorem C25_oversized_entry_exceeds_capacity :
    LRUCache.Size (LRUCache.runOps examplePlatform (LRUCache.new 10) [CacheOp.put [107] [118]]) = 74 ∧
    LRUCache.Capacity (LRUCache.runOps examplePlatform (LRUCache.new 10)
      [CacheOp.put [107] [118]]) = 10 ∧
    ¬ (LRUCache.Size (LRUCache.runOps examplePlatform (LRUCache.new 10) [CacheOp.put [107] [118]]) ≤
      LRUCache.Capacity (LRUCache.runOps examplePlatform (LRUCache.new 10)
        [CacheOp.put [107] [118]])) := by
  decide

/-- C25, amended: after any sequence of `Put`, `Get`, `Invalidate` and `Clear`
calls on a cache of capacity `cap`, where every entry put has a size of at
most `bound` (capacity and bound below `2^63`), `Size()` is at most
`Capacity()` or the cache holds a single entry; and `Size()` is at most
`Capacity()` when no entry put is larger than the capacity. -/
theorem C25_cache_bounded_unless_oversized (P : Platform) (cap bound : Nat) (ops : List CacheOp)
    (hcap : cap < 2 ^ 63) (hbound : bound < 2 ^ 63)
    (hputs : ∀ op ∈ ops, CacheOp.putSize P op ≤ bound) :
    (LRUCache.Size (LRUCache.runOps P (LRUCache.new cap) ops) ≤
        LRUCache.Capacity (LRUCache.runOps P (LRUCache.new cap) ops) ∨
      (LRUCache.runOps P (LRUCache.new cap) ops).lru_list_.length = 1) ∧
    (bound ≤ cap →
      LRUCache.Size (LRUCache.runOps P (LRUCache.new cap) ops) ≤
        LRUCache.Capacity (LRUCache.runOps P (LRUCache.new cap) ops)) := by
  have hnew : LRUCache.Bounded bound (LRUCache.new cap) :=
    ⟨rfl, by intro n hn; simp [LRUCache.new] at hn, Or.inl (Nat.zero_le _)⟩
  obtain ⟨hb, hc⟩ := LRUCache.Bounded_runOps P bound ops (LRUCache.new cap) hnew hcap hbound hputs
  have hc2 : (LRUCache.runOps P (LRUCache.new cap) ops).capacity_ = cap := hc
  generalize LRUCache.runOps P (LRUCache.new cap) ops = c at hb hc2
  unfold LRUCache.Size LRUCache.Capacity
  have hcases : c.current_size_ ≤ c.capacity_ ∨
      ∃ n, c.lru_list_ = [n] ∧ c.current_size_ = n.2.size ∧ n.2.size ≤ bound := by
    rcases hb.fits with hf | hf
    · exact Or.inl hf
    · match hl : c.lru_list_, hf with
      | [], _ =>
        left
        rw [hb.size, hl]
        simp [LRUCache.storedSize]
      | [n], _ =>
        right
        refine ⟨n, rfl, ?_, hb.entries n (by rw [hl]; exact List.mem_singleton.mpr rfl)⟩
        rw [hb.size, hl]
        simp [LRUCache.storedSize]
      | _ :: _ :: _, hf2 => simp at hf2
  constructor
  · rcases hcases with hf | ⟨n, hl, _, _⟩
    · exact Or.inl hf
    · right
      rw [hl]
      rfl
  · intro hle
    rcases hcases with hf | ⟨n, _, hsz, hn⟩
    · exact hf
    · rw [hsz, hc2]
      exact Nat.le_trans hn hle

/-- C25 amended, on a cache of capacity 200 with entries of 74 bytes: after
three `Put`s, a `Get` and an `Invalidate`, `Size()` is within the capacity. -/
theorem C25_cache_bounded_unless_oversized_witness :
    LRUCache.Size (LRUCache.runOps examplePlatform (LRUCache.new 200)
      [CacheOp.put [97] [49], CacheOp.put [98] [50], CacheOp.get [97], CacheOp.put [99] [51],
       CacheOp.invalidate [99]]) ≤
    LRUCache.Capacity (LRUCache.runOps examplePlatform (LRUCache.new 200)
      [CacheOp.put [97] [49], CacheOp.put [98] [50], CacheOp.get [97], CacheOp.put [99] [51],
       CacheOp.invalidate [99]]) :=
  (C25_cache_bounded_unless_oversized examplePlatform 200 74
    [CacheOp.put [97] [49], CacheOp.put [98] [50], CacheOp.get [97], CacheOp.put [99] [51],
     CacheOp.invalidate [99]] (by norm_num) (by norm_num) (by decide)).2 (by decide)

/-! ## Caches reached from the constructor -/

theorem LRUCache.removeKey_removeKey (c : LRUCache) (key : Bytes) :
    LRUCache.removeKey (LRUCache.removeKey c key) key = LRUCache.removeKey c key := by
  have h := LRUCache.find_removeKey_self c key
  generalize LRUCache.removeKey c key = c1 at h ⊢
  unfold LRUCache.removeKey
  rw [h]

theorem LRUCache.Put_removeKey (P : Platform) (c : LRUCache) (key value : Bytes) :
    LRUCache.Put P (LRUCache.removeKey c key) key value = LRUCache.Put P c key value := by
  unfold LRUCache.Put
  rw [LRUCache.removeKey_removeKey]

/-- A call of the interface keeps the cache sound for some assignment of values
to keys. -/
theorem LRUCache.Sound_applyOp (P : Platform) (c : LRUCache) (op : CacheOp)
    (truth : Bytes → Option Bytes) (h : LRUCache.Sound c truth) :
    ∃ truth2, LRUCache.Sound (LRUCache.applyOp P c op) truth2 := by
  cases op with
  | put key value =>
    refine ⟨fun k => if k = key then some value else truth k, ?_⟩
    have h1 := LRUCache.Sound_removeKey c key truth
      (fun k => if k = key then some value else truth k) h (fun k hk => by simp [hk])
    have h2 := LRUCache.Sound_cachePut P _ key value _ h1 (by simp)
    rw [LRUCache.Put_removeKey] at h2
    exact h2
  | get key => exact ⟨truth, LRUCache.Sound_cacheGet c key truth h⟩
  | invalidate key => exact ⟨truth, LRUCache.Sound_removeKey c key truth truth h (fun _ _ => rfl)⟩
  | clear =>
    refine ⟨truth, ?_, ?_, ?_⟩
    · simp [LRUCache.applyOp, LRUCache.Clear]
    · simp [LRUCache.applyOp, LRUCache.Clear]
    · intro k it hk
      simp [LRUCache.applyOp, LRUCache.Clear, assocFind] at hk

/-- Every cache reached from the constructor has its map and list linked. -/
theorem LRUCache.Linked_runOps (P : Platform) (capacity : Nat) (ops : List CacheOp) :
    LRUCache.Linked (LRUCache.runOps P (LRUCache.new capacity) ops) := by
  have hgen : ∀ (ops : List CacheOp) (c : LRUCache) (truth : Bytes → Option Bytes),
      LRUCache.Sound c truth → ∃ truth2, LRUCache.Sound (LRUCache.runOps P c ops) truth2 := by
    intro ops
    induction ops with
    | nil => intro c truth h; exact ⟨truth, h⟩
    | cons op rest ih =>
      intro c truth h
      obtain ⟨truth1, h1⟩ := LRUCache.Sound_applyOp P c op truth h
      exact ih _ truth1 h1
  obtain ⟨truth2, h2⟩ := hgen ops (LRUCache.new capacity) (fun _ => none)
    (LRUCache.Sound_cacheNew capacity _)
  exact LRUCache.Linked_of_Sound _ truth2 h2

/-! ## C31, C32, C35, C36: loading, sizing, ties, offsets -/

theorem KVStore.MaybeCompact_unfold (P : Platform) (s : KVStore) (env : Env) :
    KVStore.MaybeCompact P s env =
      if s.sstables_.length < s.config_.compaction_threshold then s
      else if (Compaction.SelectFilesForCompaction s.sstables_
          s.config_.compaction_threshold).isEmpty then s
      else KVStore.compactSelection P s env
        (Compaction.SelectFilesForCompaction s.sstables_ s.config_.compaction_threshold) := by
  rfl

/-- C31, on a directory that holds `2.sst` and `10.sst`: the path of id 10 is
less than the path of id 2 as a string, `LoadSSTables` installs the table of
id 10 before the table of id 2, and the newest-first iteration of `Get`, which
runs over the tables in reverse, meets id 2 before id 10. -/
theorem C31_load_orders_paths_as_strings :
    bytesLt (KVStore.GetSSTablePath defaultConfig 10) (KVStore.GetSSTablePath defaultConfig 2) =
      true ∧
    (KVStore.new examplePlatform defaultConfig twoAndTenFs exampleEnv).map
        (fun s => s.sstables_.map (fun t => t.filename_)) =
      some [KVStore.GetSSTablePath defaultConfig 10, KVStore.GetSSTablePath defaultConfig 2] ∧
    (KVStore.new examplePlatform defaultConfig twoAndTenFs exampleEnv).map
        (fun s => s.sstables_.reverse.map (fun t => t.filename_)) =
      some [KVStore.GetSSTablePath defaultConfig 2, KVStore.GetSSTablePath defaultConfig 10] := by
  decide

/-- C32, the integer step of the constructor: `-1 * expected_elements` is
computed in `size_t` and is `2^64 - n` for every `n` from 1 below `2^64`, a
positive number, where the sizing formula has `-n`; for `n = 1000` it is
`18446744073709550616`. -/
theorem C32_bloom_minus_one_wraps :
    BloomFilter.minusOneTimes 1000 = 18446744073709550616 ∧
    ∀ n, 0 < n → n < U64 → BloomFilter.minusOneTimes n = U64 - n := by
  constructor
  · decide
  · intro n h0 h1
    unfold BloomFilter.minusOneTimes
    rw [Nat.mod_eq_of_lt h1]
    have h2 : (U64 - 1) * n = U64 * (n - 1) + (U64 - n) := by
      have h3 : U64 - 1 + 1 = U64 := by rw [U64_eq]
      obtain ⟨m, rfl⟩ : ∃ m, n = m + 1 := ⟨n - 1, by omega⟩
      rw [U64_eq] at h1 ⊢
      simp only [Nat.add_sub_cancel]
      omega
    rw [h2, Nat.mul_add_mod]
    apply Nat.mod_eq_of_lt
    rw [U64_eq]
    omega

/-- C35, two failing inputs.  First, the two table files of `tieFs`: the readers
that `CompactSSTables` opens yield no entry and the output holds no entry for
`k` at all.  Second, readers with a loaded index on the same entries: the
merge keeps the entry of the first table, `old`, in either order of the
readers the one read first. -/
theorem C35_tie_keeps_first_table :
    Compaction.outputEntries
      ([[97, 46, 115, 115, 116], [98, 46, 115, 115, 116]].map (SSTable.new tieFs))
      exampleEnv.junk = [] ∧
    Compaction.outputEntries
      [SSTable.loaded [liveEntry [107] [111, 108, 100] 5],
       SSTable.loaded [liveEntry [107] [110, 101, 119] 5]] exampleEnv.junk =
      [liveEntry [107] [111, 108, 100] 5] ∧
    Compaction.outputEntries
      [SSTable.loaded [liveEntry [107] [110, 101, 119] 5],
       SSTable.loaded [liveEntry [107] [111, 108, 100] 5]] exampleEnv.junk =
      [liveEntry [107] [110, 101, 119] 5] := by
  decide

set_option maxRecDepth 16384 in
/-- C36, at the entry list of `SSTableTest.CreateAndRead`: the index record of the
one entry has offset 0, the file starts with the header there (the magic
number, then the count and the flags, 13 bytes), decoding a record at offset 0
fails, and the data record of the entry starts at offset 13. -/
theorem C36_index_offsets_ignore_header :
    SSTable.buildIndex testEntries 0 = [{ key := testKey, offset := 0, size := 35 }] ∧
    (SSTable.fileContent examplePlatform testEntries true true).take 13 =
      SSTable.WriteHeader 1 true true ∧
    SSTable.decodeEntry ((SSTable.fileContent examplePlatform testEntries true true).drop 0) =
      none ∧
    SSTable.readEntry (some (SSTable.fileContent examplePlatform testEntries true true)) 0
      exampleEnv.junk = exampleEnv.junk ∧
    (SSTable.decodeEntry
      ((SSTable.fileContent examplePlatform testEntries true true).drop 13)).map Prod.fst =
      some { key := testKey, value := testValue, is_deleted := false, timestamp := 12345 } := by
  decide

/-! ## Scans over an index in key order -/

theorem U32_eq : U32 = 2 ^ 32 := rfl

theorem flipBit_mod_ne (v i n : Nat) (h : i < n) : flipBit v i % 2 ^ n ≠ v % 2 ^ n := by
  intro e
  have h1 := congrArg (fun x => Nat.testBit x i) e
  simp only [flipBit, Nat.testBit_mod_two_pow, Nat.testBit_xor, Nat.testBit_two_pow_self, h,
    decide_True, Bool.true_and] at h1
  cases hb : v.testBit i <;> simp [hb] at h1

theorem flipBit_mod_eq (v i n : Nat) (h : n ≤ i) : flipBit v i % 2 ^ n = v % 2 ^ n := by
  apply Nat.eq_of_testBit_eq
  intro j
  simp only [flipBit, Nat.testBit_mod_two_pow, Nat.testBit_xor]
  by_cases hj : j < n
  · have hne : i ≠ j := by omega
    rw [Nat.testBit_two_pow_of_ne hne]
    simp
  · simp [hj]

theorem flipByte_ne (c : Fin 256) (i : Nat) (h : i < 8) : flipByte c i ≠ c := by
  intro e
  have h1 : (flipByte c i).val % 2 ^ 8 = c.val % 2 ^ 8 := by rw [e]
  have h2 : (flipByte c i).val % 2 ^ 8 = flipBit c.val i % 2 ^ 8 := by
    simp [flipByte, flipBit]
  rw [h2] at h1
  exact flipBit_mod_ne c.val i 8 h h1

theorem WAL.charValue_lt (P : Platform) (c : Fin 256) : WAL.charValue P c < U32 := by
  have := c.isLt
  unfold WAL.charValue
  rw [U32_eq]
  split <;> omega

theorem WAL.charValue_injective (P : Platform) (c d : Fin 256)
    (h : WAL.charValue P c = WAL.charValue P d) : c = d := by
  have hc := c.isLt
  have hd := d.isLt
  apply Fin.ext
  unfold WAL.charValue at h
  rw [U32_eq] at h
  cases hs : P.char_signed
  · simpa [hs] using h
  · simp only [hs, Bool.true_and, decide_eq_true_eq] at h
    split at h <;> split at h <;> omega

theorem WAL.foldl_sumChars (P : Platform) (l : Bytes) :
    ∀ a : Nat, (l.foldl (fun acc c => (acc + WAL.charValue P c) % U32) a) % U32 =
      (a + WAL.sumChars P l) % U32 := by
  induction l with
  | nil => intro a; simp [WAL.sumChars]
  | cons c rest ih =>
    intro a
    simp only [List.foldl_cons, WAL.sumChars, List.map_cons, List.sum_cons] at ih ⊢
    rw [ih, Nat.mod_add_mod, Nat.add_assoc]

theorem WAL.foldl_lt (P : Platform) (l : Bytes) :
    ∀ a : Nat, a < U32 → l.foldl (fun acc c => (acc + WAL.charValue P c) % U32) a < U32 := by
  induction l with
  | nil => intro a h; exact h
  | cons c rest ih =>
    intro a _
    exact ih _ (Nat.mod_lt _ (by decide))

/-- The checksum is the sum of the characters of the key and of the value, the
type and the timestamp, modulo `2^32`. -/
theorem WAL.ComputeChecksum_eq (P : Platform) (r : WALRecord) :
    WAL.ComputeChecksum P r =
      (WAL.sumChars P r.key + WAL.sumChars P r.value + r.type + r.timestamp) % U32 := by
  unfold WAL.ComputeChecksum
  simp only
  have h1 := WAL.foldl_sumChars P r.key 0
  have h1lt := WAL.foldl_lt P r.key 0 (by decide)
  rw [Nat.mod_eq_of_lt h1lt, Nat.zero_add] at h1
  have h2 := WAL.foldl_sumChars P r.value
    (r.key.foldl (fun acc c => (acc + WAL.charValue P c) % U32) 0)
  have h2lt := WAL.foldl_lt P r.value _ h1lt
  rw [Nat.mod_eq_of_lt h2lt] at h2
  rw [h2, h1]
  generalize WAL.sumChars P r.key = k
  generalize WAL.sumChars P r.value = v
  have hu : U32 = 4294967296 := by decide
  rw [hu]
  omega

theorem WAL.sumChars_append (P : Platform) (a b : Bytes) :
    WAL.sumChars P (a ++ b) = WAL.sumChars P a + WAL.sumChars P b := by
  simp [WAL.sumChars]

theorem add_mod_ne_of_mod_ne (a x y m : Nat) (h : x % m ≠ y % m) :
    (a + x) % m ≠ (a + y) % m := by
  intro e
  exact h (Nat.ModEq.add_left_cancel' a e)

/-- Replacing one character of a string by another one changes the sum of its
characters modulo `2^32`. -/
theorem WAL.sumChars_replace_ne (P : Platform) (pre post : Bytes) (c d : Fin 256) (a : Nat)
    (h : d ≠ c) :
    (a + WAL.sumChars P (pre ++ d :: post)) % U32 ≠ (a + WAL.sumChars P (pre ++ c :: post)) % U32 := by
  have hs : ∀ x : Fin 256, a + WAL.sumChars P (pre ++ x :: post) =
      (a + WAL.sumChars P pre + WAL.sumChars P post) + WAL.charValue P x := by
    intro x
    rw [WAL.sumChars_append]
    simp only [WAL.sumChars, List.map_cons, List.sum_cons]
    omega
  rw [hs d, hs c]
  apply add_mod_ne_of_mod_ne
  rw [Nat.mod_eq_of_lt (WAL.charValue_lt P d), Nat.mod_eq_of_lt (WAL.charValue_lt P c)]
  intro e
  exact h (WAL.charValue_injective P d c e)

/-- C37, refuted as stated: the record that `Append(PUT, "b", "2")` writes at
time 6 has a correct checksum, and with bit 40 of its timestamp flipped (the
timestamp becomes `6 + 2^40`) and the stored checksum kept, `VerifyChecksum`
still returns `true`. -/
theorem C37_high_timestamp_bit_undetected :
    WAL.VerifyChecksum examplePlatform goodRecord = true ∧
    flipBit goodRecord.timestamp 40 = 1099511627782 ∧
    WAL.VerifyChecksum examplePlatform
      { goodRecord with timestamp := flipBit goodRecord.timestamp 40 } = true := by
  decide

/-- C37, amended: for a record with a correct checksum, flipping one bit of the
type, one bit of a character of the key or of the value, or one of the 32
low-order bits of the timestamp, the stored checksum kept, makes
`VerifyChecksum` return `false`; flipping one of the high-order bits of the
timestamp, from bit 32 on, leaves the checksum as it is and `VerifyChecksum`
returns `true`. -/
theorem C37_checksum_detects_low_bits (P : Platform) (r : WALRecord)
    (hv : WAL.VerifyChecksum P r = true) :
    (∀ i, i < 32 → WAL.VerifyChecksum P { r with type := flipBit r.type i } = false) ∧
    (∀ pre c post i, r.key = pre ++ c :: post → i < 8 →
      WAL.VerifyChecksum P { r with key := pre ++ flipByte c i :: post } = false) ∧
    (∀ pre c post i, r.value = pre ++ c :: post → i < 8 →
      WAL.VerifyChecksum P { r with value := pre ++ flipByte c i :: post } = false) ∧
    (∀ i, i < 32 →
      WAL.VerifyChecksum P { r with timestamp := flipBit r.timestamp i } = false) ∧
    (∀ i, 32 ≤ i →
      WAL.VerifyChecksum P { r with timestamp := flipBit r.timestamp i } = true) := by
  have hc : r.checksum = WAL.ComputeChecksum P r := by
    simpa [WAL.VerifyChecksum] using hv
  rw [WAL.ComputeChecksum_eq] at hc
  refine ⟨?_, ?_, ?_, ?_, ?_⟩
  · intro i hi
    simp only [WAL.VerifyChecksum, WAL.ComputeChecksum_eq, hc, decide_eq_false_iff_not]
    have h := add_mod_ne_of_mod_ne
      (WAL.sumChars P r.key + WAL.sumChars P r.value + r.timestamp) (flipBit r.type i) r.type U32
      (flipBit_mod_ne r.type i 32 hi)
    intro e
    apply h
    rw [show WAL.sumChars P r.key + WAL.sumChars P r.value + r.timestamp + flipBit r.type i =
        WAL.sumChars P r.key + WAL.sumChars P r.value + flipBit r.type i + r.timestamp by omega,
      show WAL.sumChars P r.key + WAL.sumChars P r.value + r.timestamp + r.type =
        WAL.sumChars P r.key + WAL.sumChars P r.value + r.type + r.timestamp by omega]
    exact e.symm
  · intro pre c post i hk hi
    simp only [WAL.VerifyChecksum, WAL.ComputeChecksum_eq, hc, decide_eq_false_iff_not]
    have h := WAL.sumChars_replace_ne P pre post c (flipByte c i)
      (WAL.sumChars P r.value + r.type + r.timestamp) (flipByte_ne c i hi)
    rw [← hk] at h
    intro e
    apply h
    rw [show WAL.sumChars P r.value + r.type + r.timestamp +
          WAL.sumChars P (pre ++ flipByte c i :: post) =
        WAL.sumChars P (pre ++ flipByte c i :: post) + WAL.sumChars P r.value + r.type +
          r.timestamp by omega,
      show WAL.sumChars P r.value + r.type + r.timestamp + WAL.sumChars P r.key =
        WAL.sumChars P r.key + WAL.sumChars P r.value + r.type + r.timestamp by omega]
    exact e.symm
  · intro pre c post i hk hi
    simp only [WAL.VerifyChecksum, WAL.ComputeChecksum_eq, hc, decide_eq_false_iff_not]
    have h := WAL.sumChars_replace_ne P pre post c (flipByte c i)
      (WAL.sumChars P r.key + r.type + r.timestamp) (flipByte_ne c i hi)
    rw [← hk] at h
    intro e
    apply h
    rw [show WAL.sumChars P r.key + r.type + r.timestamp +
          WAL.sumChars P (pre ++ flipByte c i :: post) =
        WAL.sumChars P r.key + WAL.sumChars P (pre ++ flipByte c i :: post) + r.type +
          r.timestamp by omega,
      show WAL.sumChars P r.key + r.type + r.timestamp + WAL.sumChars P r.value =
        WAL.sumChars P r.key + WAL.sumChars P r.value + r.type + r.timestamp by omega]
    exact e.symm
  · intro i hi
    simp only [WAL.VerifyChecksum, WAL.ComputeChecksum_eq, hc, decide_eq_false_iff_not]
    have h := add_mod_ne_of_mod_ne
      (WAL.sumChars P r.key + WAL.sumChars P r.value + r.type) (flipBit r.timestamp i)
      r.timestamp U32 (flipBit_mod_ne r.timestamp i 32 hi)
    intro e
    exact h e.symm
  · intro i hi
    simp only [WAL.VerifyChecksum, WAL.ComputeChecksum_eq, hc, decide_eq_true_eq]
    have h := flipBit_mod_eq r.timestamp i 32 hi
    rw [U32_eq]
    omega

/-- C37 amended, on the record that `Append(PUT, "b", "2")` writes at time 6:
flipping bit 3 of the type, bit 7 of the key character, or bit 31 of the
timestamp is detected. -/
theorem C37_checksum_detects_low_bits_witness :
    WAL.VerifyChecksum examplePlatform { goodRecord with type := flipBit goodRecord.type 3 } =
      false ∧
    WAL.VerifyChecksum examplePlatform { goodRecord with key := [] ++ flipByte 98 7 :: [] } =
      false ∧
    WAL.VerifyChecksum examplePlatform
      { goodRecord with timestamp := flipBit goodRecord.timestamp 31 } = false :=
  ⟨(C37_checksum_detects_low_bits examplePlatform goodRecord (by decide)).1 3 (by decide),
   (C37_checksum_detects_low_bits examplePlatform goodRecord (by decide)).2.1 [] 98 [] 7 rfl
     (by decide),
   (C37_checksum_detects_low_bits examplePlatform goodRecord (by decide)).2.2.2.1 31 (by decide)⟩

/-! ## C34: the engine facade -/

/-- After `put(k, v)` the lookup of `k` returns `v`, whether or not the `put`
flushed the memtable. -/
theorem LSMEngine.get_put (L : LsmParams) (e : LSMEngine) (key value : Bytes) :
    LSMEngine.get L (LSMEngine.put L e key value) key = some value := by
  unfold LSMEngine.put
  simp only
  split
  · simp [LSMEngine.get, LSMEngine.flush_memtable, LSMEngine.generate_sstable_filename,
      LsmMemTable.get, StdMap.find, assocFind, LSMEngine.searchTables, LsmTable.might_contain,
      LsmTable.get, LsmMemTable.get_all_sorted, LsmMemTable.put,
      show assocFind (StdMap.assign e.active_memtable_ key value) key = some value from
        StdMap.find_assign_self _ _ _]
  · simp [LSMEngine.get, LsmMemTable.get, LsmMemTable.put, StdMap.find_assign_self]

/-- C34: on every engine state, after `put(k, v)` followed by `remove(k)`, the
lookup `get(k, out)` returns `true` with `out` set to the sentinel
`"__TOMBSTONE__"`, whether or not a `put` flushed the memtable; in particular
on a new engine with the key `key1` and the value `value1` of
`LSMEngineTest.Remove`. -/
theorem C34_remove_yields_sentinel :
    (∀ (L : LsmParams) (e : LSMEngine) (key value : Bytes),
      LSMEngine.get L (LSMEngine.remove L (LSMEngine.put L e key value) key) key =
        some LSMEngine.tombstoneValue) ∧
    LSMEngine.get exampleLsmParams
      (LSMEngine.remove exampleLsmParams
        (LSMEngine.put exampleLsmParams (LSMEngine.new [100, 98]) [107, 101, 121, 49]
          [118, 97, 108, 117, 101, 49]) [107, 101, 121, 49]) [107, 101, 121, 49] =
      some [95, 95, 84, 79, 77, 66, 83, 84, 79, 78, 69, 95, 95] :=
  ⟨fun L e key value => LSMEngine.get_put L _ key LSMEngine.tombstoneValue, by decide⟩

/-! ## C40: the lookup map and the recency list agree -/

theorem usub_mod_of_add (a a2 b : Nat) (h : a2 + b = a) : usub (a % U64) b = a2 % U64 := by
  unfold usub
  rw [U64_eq]
  omega

theorem uadd_mod_left (a b : Nat) : uadd (a % U64) b = (a + b) % U64 := by
  unfold uadd
  rw [U64_eq]
  omega

theorem LRUCache.Consistent_new (P : Platform) (capacity : Nat) :
    LRUCache.Consistent P (LRUCache.new capacity) :=
  { sound := ⟨fun _ => none, LRUCache.Sound_cacheNew capacity _⟩,
    listed := by intro n hn; simp [LRUCache.new] at hn,
    sizes := by intro n hn; simp [LRUCache.new] at hn,
    total := by simp [LRUCache.new, LRUCache.storedSize] }

theorem LRUCache.Consistent_removeKey (P : Platform) (c : LRUCache) (key : Bytes)
    (h : LRUCache.Consistent P c) : LRUCache.Consistent P (LRUCache.removeKey c key) := by
  obtain ⟨truth, hsound⟩ := h.sound
  have hsound2 := LRUCache.Sound_removeKey c key truth truth hsound (fun _ _ => rfl)
  refine ⟨⟨truth, hsound2⟩, ?_, ?_, ?_⟩
  · unfold LRUCache.removeKey
    split
    · exact h.listed
    · rename_i it hfind
      intro n hn
      have hn1 : n ∈ c.lru_list_ := LRUCache.mem_listErase _ _ _ hn
      have hl := h.listed n hn1
      have hne : n.2.key ≠ key := by
        intro e
        rw [e, hfind] at hl
        have hit : it = n.1 := Option.some.inj hl
        have hnot := LRUCache.not_mem_listErase c.lru_list_ it hsound.1
        have hmem : n.1 ∈ (LRUCache.listErase c.lru_list_ it).map Prod.fst :=
          List.mem_map_of_mem Prod.fst hn
        rw [← hit] at hmem
        exact hnot hmem
      show assocFind (assocErase c.cache_map_ key) n.2.key = some n.1
      rw [assocFind_assocErase_ne _ _ _ hne]
      exact hl
  · unfold LRUCache.removeKey
    split
    · exact h.sizes
    · intro n hn
      exact h.sizes n (LRUCache.mem_listErase _ _ _ hn)
  · unfold LRUCache.removeKey
    split
    · exact h.total
    · rename_i it _
      show usub c.current_size_ (LRUCache.deref c.lru_list_ it).size =
        LRUCache.storedSize (LRUCache.listErase c.lru_list_ it) % U64
      rw [h.total]
      exact usub_mod_of_add _ _ _ (LRUCache.storedSize_listErase c.lru_list_ it)

theorem LRUCache.Consistent_Evict (P : Platform) (c : LRUCache)
    (h : LRUCache.Consistent P c) : LRUCache.Consistent P (LRUCache.Evict c) := by
  obtain ⟨truth, hsound⟩ := h.sound
  have hsound2 := LRUCache.Sound_Evict c truth hsound
  refine ⟨⟨truth, hsound2⟩, ?_, ?_, ?_⟩
  · unfold LRUCache.Evict
    split
    · exact h.listed
    · rename_i idb eb hlast
      have hsplit : c.lru_list_ = c.lru_list_.dropLast ++ [(idb, eb)] := by
        have := List.dropLast_append_getLast? (idb, eb) (by simpa using hlast)
        exact this.symm
      intro n hn
      have hn1 : n ∈ c.lru_list_ := (List.dropLast_sublist _).subset hn
      have hl := h.listed n hn1
      have hlast1 : (idb, eb) ∈ c.lru_list_ := by
        rw [hsplit]
        simp
      have hb := h.listed (idb, eb) hlast1
      have hne : n.2.key ≠ eb.key := by
        intro e
        rw [e] at hl
        simp only at hb
        rw [hb] at hl
        have hid : idb = n.1 := Option.some.inj hl
        have hnd := hsound.1
        rw [hsplit, List.map_append, List.nodup_append] at hnd
        apply hnd.2.2 (List.mem_map_of_mem Prod.fst hn)
        rw [← hid]
        simp
      show assocFind (assocErase c.cache_map_ eb.key) n.2.key = some n.1
      rw [assocFind_assocErase_ne _ _ _ hne]
      exact hl
  · unfold LRUCache.Evict
    split
    · exact h.sizes
    · intro n hn
      exact h.sizes n ((List.dropLast_sublist _).subset hn)
  · unfold LRUCache.Evict
    split
    · exact h.total
    · rename_i idb eb hlast
      have hsplit : c.lru_list_ = c.lru_list_.dropLast ++ [(idb, eb)] := by
        have := List.dropLast_append_getLast? (idb, eb) (by simpa using hlast)
        exact this.symm
      have hsum : LRUCache.storedSize c.lru_list_.dropLast + eb.size =
          LRUCache.storedSize c.lru_list_ := by
        conv_rhs => rw [hsplit]
        rw [LRUCache.storedSize_append]
        simp [LRUCache.storedSize]
      show usub c.current_size_ eb.size = LRUCache.storedSize c.lru_list_.dropLast % U64
      rw [h.total]
      exact usub_mod_of_add _ _ _ hsum

theorem LRUCache.Consistent_evictN (P : Platform) (n : Nat) :
    ∀ c : LRUCache, LRUCache.Consistent P c → LRUCache.Consistent P (LRUCache.evictN n c) := by
  induction n with
  | zero => intro c h; exact h
  | succ n ih =>
    intro c h
    exact ih _ (LRUCache.Consistent_Evict P c h)

theorem LRUCache.find_evictN_of_none (key : Bytes) (n : Nat) :
    ∀ c : LRUCache, assocFind c.cache_map_ key = none →
      assocFind (LRUCache.evictN n c).cache_map_ key = none := by
  induction n with
  | zero => intro c h; exact h
  | succ n ih =>
    intro c h
    exact ih _ (LRUCache.find_Evict_of_none c key h)

theorem LRUCache.Consistent_Put (P : Platform) (c : LRUCache) (key value : Bytes)
    (h : LRUCache.Consistent P c) : LRUCache.Consistent P (LRUCache.Put P c key value) := by
  obtain ⟨truth, hsound⟩ := h.sound
  obtain ⟨truth2, hsound2⟩ := LRUCache.Sound_applyOp P c (CacheOp.put key value) truth hsound
  have h1 := LRUCache.Consistent_removeKey P c key h
  obtain ⟨j, _, heq, _, _⟩ := LRUCache.evictLoop_spec
    (LRUCache.EstimateSize P key value) (LRUCache.removeKey c key).lru_list_.length
    (LRUCache.removeKey c key) (Nat.le_refl _)
  have h2 := LRUCache.Consistent_evictN P j _ h1
  have hnone := LRUCache.find_evictN_of_none key j _ (LRUCache.find_removeKey_self c key)
  refine ⟨⟨truth2, hsound2⟩, ?_, ?_, ?_⟩
  · unfold LRUCache.Put
    simp only
    rw [heq]
    intro n hn
    rcases List.mem_cons.mp hn with hn1 | hn1
    · rw [hn1]
      exact assocFind_assocSet_self _ _ _
    · have hl := h2.listed n hn1
      have hne : n.2.key ≠ key := by
        intro e
        rw [e, hnone] at hl
        exact absurd hl (by simp)
      show assocFind (assocSet _ key _) n.2.key = some n.1
      rw [assocFind_assocSet_ne _ _ _ _ hne]
      exact hl
  · unfold LRUCache.Put
    simp only
    rw [heq]
    intro n hn
    rcases List.mem_cons.mp hn with hn1 | hn1
    · rw [hn1]
    · exact h2.sizes n hn1
  · unfold LRUCache.Put
    simp only
    rw [heq, h2.total]
    simp only [LRUCache.storedSize, List.map_cons, List.sum_cons]
    rw [uadd_mod_left, Nat.add_comm]

theorem LRUCache.Consistent_applyOp (P : Platform) (c : LRUCache) (op : CacheOp)
    (h : LRUCache.Consistent P c) : LRUCache.Consistent P (LRUCache.applyOp P c op) := by
  cases op with
  | put key value => exact LRUCache.Consistent_Put P c key value h
  | get key =>
    obtain ⟨truth, hsound⟩ := h.sound
    refine ⟨⟨truth, LRUCache.Sound_cacheGet c key truth hsound⟩, ?_, ?_, ?_⟩
    · simp only [LRUCache.applyOp, LRUCache.Get]
      split
      · exact h.listed
      · rename_i it _
        intro n hn
        exact h.listed n ((LRUCache.perm_spliceFront_self c.lru_list_ it).mem_iff.mp hn)
    · simp only [LRUCache.applyOp, LRUCache.Get]
      split
      · exact h.sizes
      · rename_i it _
        intro n hn
        exact h.sizes n ((LRUCache.perm_spliceFront_self c.lru_list_ it).mem_iff.mp hn)
    · simp only [LRUCache.applyOp, LRUCache.Get]
      split
      · exact h.total
      · rename_i it _
        show c.current_size_ = LRUCache.storedSize (LRUCache.spliceFront c.lru_list_ it) % U64
        rw [h.total]
        congr 1
        exact (((LRUCache.perm_spliceFront_self c.lru_list_ it).map _).sum_eq).symm
  | invalidate key => exact LRUCache.Consistent_removeKey P c key h
  | clear =>
    obtain ⟨truth, hsound⟩ := h.sound
    obtain ⟨truth2, hsound2⟩ := LRUCache.Sound_applyOp P c CacheOp.clear truth hsound
    refine ⟨⟨truth2, hsound2⟩, ?_, ?_, ?_⟩
    · intro n hn
      simp [LRUCache.applyOp, LRUCache.Clear] at hn
    · intro n hn
      simp [LRUCache.applyOp, LRUCache.Clear] at hn
    · simp [LRUCache.applyOp, LRUCache.Clear, LRUCache.storedSize]

theorem LRUCache.Consistent_runOps (P : Platform) (ops : List CacheOp) :
    ∀ c : LRUCache, LRUCache.Consistent P c → LRUCache.Consistent P (LRUCache.runOps P c ops) := by
  induction ops with
  | nil => intro c h; exact h
  | cons op rest ih =>
    intro c h
    exact ih _ (LRUCache.Consistent_applyOp P c op h)

/-- In a consistent cache no key occurs twice in the recency list. -/
theorem LRUCache.Consistent_nodup_keys (P : Platform) (c : LRUCache)
    (h : LRUCache.Consistent P c) : ((LRUCache.recency c).map (fun e => e.key)).Nodup := by
  obtain ⟨truth, hsound⟩ := h.sound
  have hnd := hsound.1
  unfold LRUCache.recency
  rw [List.map_map]
  apply List.Nodup.map_on _ (List.Nodup.of_map _ hnd)
  intro x hx y hy hkey
  simp only [Function.comp] at hkey
  have hx1 := h.listed x hx
  have hy1 := h.listed y hy
  rw [hkey, hy1] at hx1
  have haddr : y.1 = x.1 := Option.some.inj hx1
  have fx := assocFind_of_mem_nodup c.lru_list_ x.1 x.2 hnd hx
  have fy := assocFind_of_mem_nodup c.lru_list_ y.1 y.2 hnd hy
  rw [haddr, fx] at fy
  have h2 : x.2 = y.2 := Option.some.inj fy
  exact Prod.ext haddr.symm h2

/-- C40: after any sequence of `Get`, `Put`, `Invalidate` and `Clear` calls on a
cache built by the constructor, the keys of the lookup map are the keys of the
recency list, no key occurs twice in the list, every entry of the map points
at the node of the list that carries its key, every stored size is
`key.size() + value.size() + sizeof(CacheEntry)` in `size_t`, and `Size()` is
the sum of the stored sizes in `size_t`, hence the sum itself when that is
below `2^64`. -/
theorem C40_cache_map_list_consistent (P : Platform) (capacity : Nat) (ops : List CacheOp) :
    (∀ k, (assocFind (LRUCache.runOps P (LRUCache.new capacity) ops).cache_map_ k).isSome = true ↔
      k ∈ (LRUCache.recency (LRUCache.runOps P (LRUCache.new capacity) ops)).map
        (fun e => e.key)) ∧
    ((LRUCache.recency (LRUCache.runOps P (LRUCache.new capacity) ops)).map
      (fun e => e.key)).Nodup ∧
    (∀ k it, assocFind (LRUCache.runOps P (LRUCache.new capacity) ops).cache_map_ k = some it →
      ∃ e, (it, e) ∈ (LRUCache.runOps P (LRUCache.new capacity) ops).lru_list_ ∧ e.key = k) ∧
    (∀ e ∈ LRUCache.recency (LRUCache.runOps P (LRUCache.new capacity) ops),
      e.size = (e.key.length + e.value.length + P.sizeof_CacheEntry) % U64) ∧
    LRUCache.Size (LRUCache.runOps P (LRUCache.new capacity) ops) =
      LRUCache.storedSize (LRUCache.runOps P (LRUCache.new capacity) ops).lru_list_ % U64 ∧
    (LRUCache.storedSize (LRUCache.runOps P (LRUCache.new capacity) ops).lru_list_ < U64 →
      LRUCache.Size (LRUCache.runOps P (LRUCache.new capacity) ops) =
        LRUCache.storedSize (LRUCache.runOps P (LRUCache.new capacity) ops).lru_list_) := by
  have h := LRUCache.Consistent_runOps P ops _ (LRUCache.Consistent_new P capacity)
  generalize LRUCache.runOps P (LRUCache.new capacity) ops = c at h
  obtain ⟨truth, hsound⟩ := h.sound
  refine ⟨?_, LRUCache.Consistent_nodup_keys P c h, ?_, ?_, h.total, ?_⟩
  · intro k
    unfold LRUCache.recency
    rw [List.map_map, List.mem_map]
    constructor
    · intro hk
      obtain ⟨it, hit⟩ := Option.isSome_iff_exists.mp hk
      obtain ⟨e, he, hkey, _⟩ := hsound.2.2 k it hit
      exact ⟨(it, e), he, hkey⟩
    · rintro ⟨n, hn, rfl⟩
      simp only [Function.comp]
      rw [h.listed n hn]
      rfl
  · intro k it hk
    obtain ⟨e, he, hkey, _⟩ := hsound.2.2 k it hk
    exact ⟨e, he, hkey⟩
  · intro e he
    unfold LRUCache.recency at he
    rw [List.mem_map] at he
    obtain ⟨n, hn, rfl⟩ := he
    exact h.sizes n hn
  · intro hlt
    unfold LRUCache.Size
    rw [h.total, Nat.mod_eq_of_lt hlt]

/-- C40 on a cache of capacity 250 with entries of 74 bytes, after four `Put`s
(one of them an overwrite, one evicting), a `Get` and an `Invalidate`: the map
and the list hold the keys `d` and `a`, and `Size()` is 148. -/
theorem C40_cache_map_list_consistent_witness :
    (LRUCache.recency (LRUCache.runOps examplePlatform (LRUCache.new 250)
      [CacheOp.put [97] [49], CacheOp.put [98] [50], CacheOp.put [97] [51], CacheOp.put [99] [52],
       CacheOp.get [97], CacheOp.put [100] [53], CacheOp.invalidate [99]])).map
      (fun e => e.key) = [[100], [97]] ∧
    (LRUCache.runOps examplePlatform (LRUCache.new 250)
      [CacheOp.put [97] [49], CacheOp.put [98] [50], CacheOp.put [97] [51], CacheOp.put [99] [52],
       CacheOp.get [97], CacheOp.put [100] [53], CacheOp.invalidate [99]]).cache_map_.map
      Prod.fst = [[100], [97]] ∧
    LRUCache.Size (LRUCache.runOps examplePlatform (LRUCache.new 250)
      [CacheOp.put [97] [49], CacheOp.put [98] [50], CacheOp.put [97] [51], CacheOp.put [99] [52],
       CacheOp.get [97], CacheOp.put [100] [53], CacheOp.invalidate [99]]) = 148 ∧
    ((LRUCache.recency (LRUCache.runOps examplePlatform (LRUCache.new 250)
      [CacheOp.put [97] [49], CacheOp.put [98] [50], CacheOp.put [97] [51], CacheOp.put [99] [52],
       CacheOp.get [97], CacheOp.put [100] [53], CacheOp.invalidate [99]])).map
      (fun e => e.key)).Nodup :=
  ⟨by decide, by decide, by decide,
   (C40_cache_map_list_consistent examplePlatform 250
      [CacheOp.put [97] [49], CacheOp.put [98] [50], CacheOp.put [97] [51], CacheOp.put [99] [52],
       CacheOp.get [97], CacheOp.put [100] [53], CacheOp.invalidate [99]]).2.1⟩

/-! ## C39: table ids and the next id -/

theorem takeWhile_append_cons {α : Type} (p : α → Bool) (l1 l2 : List α) (x : α)
    (h1 : ∀ a ∈ l1, p a = true) (hx : p x = false) :
    (l1 ++ x :: l2).takeWhile p = l1 := by
  induction l1 with
  | nil => simp [List.takeWhile, hx]
  | cons a rest ih =>
    rw [List.cons_append, List.takeWhile_cons, if_pos (h1 a (List.mem_cons_self _ _)),
      ih (fun b hb => h1 b (List.mem_cons_of_mem _ hb))]

/-- The digits that `std::to_string` writes: at least one, all decimal, and
read back by the digit loop of `std::stoull` as the number written. -/
theorem decimalDigits_spec (fuel : Nat) :
    ∀ (n : Nat) (acc : Bytes), n < 10 ^ (fuel + 1) →
      ∃ ds : Bytes, decimalDigits fuel n acc = ds ++ acc ∧ ds ≠ [] ∧
        (∀ d ∈ ds, 48 ≤ d.val ∧ d.val ≤ 57) ∧
        ∀ a, ds.foldl (fun acc d => acc * 10 + (d.val - 48)) a = a * 10 ^ ds.length + n := by
  have hone : ∀ (n : Nat) (acc : Bytes), n < 10 →
      ∃ ds : Bytes, (⟨(48 + n % 10) % 256, Nat.mod_lt _ (by decide)⟩ : Fin 256) :: acc = ds ++ acc ∧
        ds ≠ [] ∧ (∀ d ∈ ds, 48 ≤ d.val ∧ d.val ≤ 57) ∧
        ∀ a, ds.foldl (fun acc d => acc * 10 + (d.val - 48)) a = a * 10 ^ ds.length + n := by
    intro n acc hn
    refine ⟨[⟨(48 + n % 10) % 256, Nat.mod_lt _ (by decide)⟩], rfl, by simp, ?_, ?_⟩
    · intro d hd
      rw [List.mem_singleton.mp hd]
      simp only
      omega
    · intro a
      simp only [List.foldl_cons, List.foldl_nil, List.length_singleton, Nat.pow_one]
      omega
  induction fuel with
  | zero =>
    intro n acc hn
    simp only [decimalDigits]
    exact hone n acc (by simpa using hn)
  | succ fuel ih =>
    intro n acc hn
    unfold decimalDigits
    by_cases h0 : n / 10 = 0
    · rw [if_pos h0]
      exact hone n acc (by omega)
    · rw [if_neg h0]
      have hlt : n / 10 < 10 ^ (fuel + 1) := by
        rw [Nat.pow_succ] at hn
        omega
      obtain ⟨ds, heq, _, hdig, hval⟩ := ih (n / 10)
        ((⟨(48 + n % 10) % 256, Nat.mod_lt _ (by decide)⟩ : Fin 256) :: acc) hlt
      refine ⟨ds ++ [⟨(48 + n % 10) % 256, Nat.mod_lt _ (by decide)⟩], ?_, by simp, ?_, ?_⟩
      · rw [heq]
        simp
      · intro d hd
        rcases List.mem_append.mp hd with h1 | h1
        · exact hdig d h1
        · rw [List.mem_singleton.mp h1]
          simp only
          omega
      · intro a
        rw [List.foldl_append, hval a]
        simp only [List.foldl_cons, List.foldl_nil, List.length_append, List.length_singleton,
          Nat.pow_succ]
        rw [← Nat.mul_assoc]
        generalize a * 10 ^ ds.length = ap
        omega

theorem ten_pow_twenty : U64 ≤ 10 ^ 20 := by
  rw [U64_eq]
  norm_num

/-- `std::stoull` reads back what `std::to_string` wrote, also when other
characters than digits follow. -/
theorem stoull_to_string (id : Nat) (rest : Bytes) (hid : id < U64)
    (hrest : rest.head?.all (fun c => !(decide (48 ≤ c.val) && decide (c.val ≤ 57))) = true) :
    ∃ ds : Bytes, to_string id = ds ∧ (∀ d ∈ ds, 48 ≤ d.val ∧ d.val ≤ 57) ∧
      stoull (ds ++ rest) = some id := by
  obtain ⟨ds, heq, hne, hdig, hval⟩ := decimalDigits_spec 19 id []
    (Nat.lt_of_lt_of_le hid ten_pow_twenty)
  rw [List.append_nil] at heq
  refine ⟨ds, heq, hdig, ?_⟩
  obtain ⟨d0, ds1, rfl⟩ := List.exists_cons_of_ne_nil hne
  have hd0 := hdig d0 (List.mem_cons_self _ _)
  have htake : ((d0 :: ds1) ++ rest).takeWhile (fun c => decide (48 ≤ c.val) && decide (c.val ≤ 57)) =
      d0 :: ds1 := by
    cases rest with
    | nil =>
      rw [List.append_nil, List.takeWhile_eq_self_iff]
      intro d hd
      have := hdig d hd
      simp [this.1, this.2]
    | cons r rs =>
      apply takeWhile_append_cons
      · intro d hd
        have := hdig d hd
        simp [this.1, this.2]
      · simp only [List.head?_cons, Option.all_some, Bool.not_eq_true'] at hrest
        exact hrest
  have hv := hval 0
  simp only [Nat.zero_mul, Nat.zero_add] at hv
  unfold stoull
  have hdrop : ((d0 :: ds1) ++ rest).dropWhile (fun c => c = 32 || (9 ≤ c.val && c.val ≤ 13)) =
      (d0 :: ds1) ++ rest := by
    have h32 : d0 ≠ 32 := by
      intro e
      have h : d0.val = 32 := by rw [e]; rfl
      omega
    have hws : ¬ ((decide (d0 = 32) || (decide (9 ≤ d0.val) && decide (d0.val ≤ 13))) = true) := by
      simp only [Bool.or_eq_true, decide_eq_true_eq, Bool.and_eq_true, not_or, not_and]
      exact ⟨h32, fun _ => by omega⟩
    rw [List.cons_append, List.dropWhile_cons, if_neg hws]
  simp only [hdrop]
  have hhead : ((d0 :: ds1) ++ rest).head? = some d0 := rfl
  have h43 : d0 ≠ 43 := by
    intro e
    have h : d0.val = 43 := by rw [e]; rfl
    omega
  have h45 : d0 ≠ 45 := by
    intro e
    have h : d0.val = 45 := by rw [e]; rfl
    omega
  simp only [hhead, Option.some.injEq, h43, h45, decide_False, Bool.or_self, Bool.false_eq_true,
    if_false, htake, hv, List.isEmpty_cons]
  rw [if_neg (Nat.not_le.mpr hid)]

/-- The id that `LoadSSTables` reads from the path that `GetSSTablePath` builds
for an id is that id. -/
theorem stoull_GetSSTablePath (config : Config) (id : Nat) (hid : id < U64) :
    stoull ((pathFilename (KVStore.GetSSTablePath config id)).takeWhile (fun c => c ≠ 46)) =
      some id := by
  obtain ⟨ds, heq, hdig, hst⟩ := stoull_to_string id [] hid rfl
  rw [List.append_nil] at hst
  have hname : pathFilename (KVStore.GetSSTablePath config id) = ds ++ [46, 115, 115, 116] := by
    unfold pathFilename KVStore.GetSSTablePath
    rw [heq]
    have hrev : (config.data_dir ++ [47] ++ ds ++ [46, 115, 115, 116]).reverse =
        ([116, 115, 115, 46] ++ ds.reverse) ++ 47 :: config.data_dir.reverse := by
      simp
    rw [hrev, takeWhile_append_cons _ _ _ _ _ (by simp)]
    · simp
    · intro a ha
      rcases List.mem_append.mp ha with h1 | h1
      · simp only [List.mem_cons, List.mem_singleton, List.not_mem_nil, or_false] at h1
        rcases h1 with rfl | rfl | rfl | rfl <;> decide
      · have := hdig a (List.mem_reverse.mp h1)
        simp only [ne_eq, decide_not, Bool.not_eq_true', decide_eq_false_iff_not]
        intro e
        have h : a.val = 47 := by rw [e]; rfl
        omega
  rw [hname, takeWhile_append_cons _ _ _ _ _ (by simp)]
  · exact hst
  · intro a ha
    have := hdig a ha
    simp only [ne_eq, decide_not, Bool.not_eq_true', decide_eq_false_iff_not]
    intro e
    have h : a.val = 46 := by rw [e]; rfl
    omega

/-- `GetSSTablePath` gives different paths to different ids. -/
theorem KVStore.GetSSTablePath_injective (config : Config) (a b : Nat) (ha : a < U64) (hb : b < U64)
    (h : KVStore.GetSSTablePath config a = KVStore.GetSSTablePath config b) : a = b := by
  have h1 := stoull_GetSSTablePath config a ha
  rw [h, stoull_GetSSTablePath config b hb] at h1
  exact (Option.some.inj h1).symm

theorem SSTable.filename_new (fs : FileSystem) (filename : Bytes) :
    (SSTable.new fs filename).filename_ = filename := by
  unfold SSTable.new
  simp only [SSTable.LoadIndex, SSTable.LoadBloomFilter]
  split <;> rfl

theorem mem_sortedInsert (x y : Bytes) (l : List Bytes) :
    y ∈ sortedInsert x l ↔ y = x ∨ y ∈ l := by
  induction l with
  | nil => simp [sortedInsert]
  | cons a rest ih =>
    unfold sortedInsert
    split
    · simp only [List.mem_cons, ih]
      constructor
      · rintro (h | h | h)
        · exact Or.inr (Or.inl h)
        · exact Or.inl h
        · exact Or.inr (Or.inr h)
      · rintro (h | h | h)
        · exact Or.inr (Or.inl h)
        · exact Or.inl h
        · exact Or.inr (Or.inr h)
    · simp

theorem mem_sortStrings (y : Bytes) (l : List Bytes) : y ∈ sortStrings l ↔ y ∈ l := by
  induction l with
  | nil => simp [sortStrings]
  | cons a rest ih =>
    simp only [sortStrings, List.foldr_cons, mem_sortedInsert, List.mem_cons]
    simp only [sortStrings] at ih
    rw [ih]

theorem sstableId_GetSSTablePath (config : Config) (id : Nat) (hid : id < U64) :
    sstableId (KVStore.GetSSTablePath config id) = some id :=
  stoull_GetSSTablePath config id hid

/-- The loop of `LoadSSTables` over files whose names carry an id below
`2^64 - 1`: it opens every file, in the order given, and the next id ends at
least at the start value, above every id met, and at the start value or one
past an id met. -/
theorem KVStore.loadLoop_ids (fs : FileSystem) (files : List Bytes) :
    ∀ (tables : List SSTable) (next : Nat),
      (∀ f ∈ files, ∃ id, sstableId f = some id ∧ id + 1 < U64) →
      ∃ tables2 next2, KVStore.loadLoop fs files tables next = some (tables2, next2) ∧
        tables2.map (fun t => t.filename_) = tables.map (fun t => t.filename_) ++ files ∧
        next ≤ next2 ∧
        (∀ f ∈ files, ∃ id, sstableId f = some id ∧ id < next2) ∧
        (next2 = next ∨ ∃ f ∈ files, ∃ id, sstableId f = some id ∧ next2 = id + 1) := by
  induction files with
  | nil =>
    intro tables next _
    refine ⟨tables, next, rfl, by simp, Nat.le_refl _, ?_, Or.inl rfl⟩
    intro f hm
    simp at hm
  | cons file rest ih =>
    intro tables next hfiles
    obtain ⟨id, hst, hid⟩ := hfiles file (List.mem_cons_self _ _)
    have hadd : uadd id 1 = id + 1 := by
      unfold uadd
      exact Nat.mod_eq_of_lt hid
    obtain ⟨tables2, next2, heq, hnames, hle, habove, hlast⟩ :=
      ih (tables ++ [SSTable.new fs file]) (max next (id + 1))
        (fun f hf => hfiles f (List.mem_cons_of_mem _ hf))
    refine ⟨tables2, next2, ?_, ?_, ?_, ?_, ?_⟩
    · unfold KVStore.loadLoop
      unfold sstableId at hst
      simp only
      rw [hst]
      simp only [hadd]
      exact heq
    · rw [hnames]
      simp [SSTable.filename_new]
    · exact Nat.le_trans (Nat.le_max_left _ _) hle
    · intro f hm
      rcases List.mem_cons.mp hm with h1 | h1
      · refine ⟨id, by rw [h1]; exact hst, ?_⟩
        have := Nat.le_max_right next (id + 1)
        omega
      · exact habove f h1
    · rcases hlast with h1 | ⟨f, hm, id2, hf, h2⟩
      · rcases Nat.le_total next (id + 1) with h3 | h3
        · right
          refine ⟨file, List.mem_cons_self _ _, id, hst, ?_⟩
          rw [h1, Nat.max_eq_right h3]
        · left
          rw [h1, Nat.max_eq_left h3]
      · exact Or.inr ⟨f, List.mem_cons_of_mem _ hm, id2, hf, h2⟩

/-- The constructor on a directory whose `.sst` files all carry an id below
`2^64 - 1`: it returns a store whose tables are those files in string order
and whose next id is above every id, and zero or one past one of them. -/
theorem KVStore.new_ids (P : Platform) (config : Config) (fs : FileSystem) (env : Env)
    (hids : ∀ f ∈ sstFiles fs config.data_dir, ∃ id, sstableId f = some id ∧ id + 1 < U64) :
    ∃ s, KVStore.new P config fs env = some s ∧ s.config_ = config ∧
      s.sstables_.map (fun t => t.filename_) = sortStrings (sstFiles fs config.data_dir) ∧
      (∀ f ∈ sstFiles fs config.data_dir, ∃ id, sstableId f = some id ∧ id < s.next_sstable_id_) ∧
      (s.next_sstable_id_ = 0 ∨ ∃ f ∈ sstFiles fs config.data_dir, ∃ id,
        sstableId f = some id ∧ s.next_sstable_id_ = id + 1) := by
  have hfs : sstFiles (WAL.new fs (KVStore.walPath config)
      (env.open_ok (KVStore.walPath config))).2 config.data_dir = sstFiles fs config.data_dir := by
    unfold WAL.new
    split
    · exact sstFiles_create fs _ _ (hasSstExtension_walPath config)
    · rfl
  obtain ⟨tables, next, heq, hnames, _, habove, hlast⟩ :=
    KVStore.loadLoop_ids (WAL.new fs (KVStore.walPath config)
      (env.open_ok (KVStore.walPath config))).2 (sortStrings (sstFiles fs config.data_dir)) [] 0 (by
      intro f hf
      exact hids f ((mem_sortStrings f _).mp hf))
  have hload : KVStore.LoadSSTables config (WAL.new fs (KVStore.walPath config)
      (env.open_ok (KVStore.walPath config))).2 0 = some (tables, next) := by
    unfold KVStore.LoadSSTables
    have h := hfs
    unfold sstFiles at h
    rw [h]
    exact heq
  have hnew : ∃ s, KVStore.new P config fs env = some s ∧ s.config_ = config ∧
      s.sstables_ = tables ∧ s.next_sstable_id_ = next := by
    unfold KVStore.new
    simp only
    rw [hload]
    exact ⟨_, rfl, rfl, rfl, rfl⟩
  obtain ⟨s, hs, hc, ht, hx⟩ := hnew
  refine ⟨s, hs, hc, ?_, ?_, ?_⟩
  · rw [ht]
    simpa using hnames
  · intro f hf
    rw [hx]
    exact habove f ((mem_sortStrings f _).mpr hf)
  · rw [hx]
    rcases hlast with h1 | ⟨f, hm, id, hf, h2⟩
    · exact Or.inl h1
    · exact Or.inr ⟨f, (mem_sortStrings f _).mp hm, id, hf, h2⟩

/-- A store with the same tables and the same next id keeps `IdInv`. -/
theorem KVStore.IdInv_congr (s s2 : KVStore) (h1 : s2.sstables_ = s.sstables_)
    (h2 : s2.next_sstable_id_ = s.next_sstable_id_) (h : KVStore.IdInv s) : KVStore.IdInv s2 := by
  unfold KVStore.IdInv at h ⊢
  rw [h1, h2]
  exact h

theorem KVStore.IdStep_FlushMemTable (P : Platform) (s : KVStore) (env : Env) :
    KVStore.IdStep s (KVStore.FlushMemTable P s env) := by
  unfold KVStore.FlushMemTable
  split
  · exact Or.inl ⟨rfl, rfl, rfl⟩
  · simp only [KVStore.MaybeCompact_eq]
    refine Or.inr ⟨rfl, rfl, ?_⟩
    simp only
    split
    · exact Or.inr ⟨_, rfl, SSTable.filename_new _ _⟩
    · exact Or.inl rfl

theorem KVStore.IdStep_of_same (s s1 s2 : KVStore) (h1 : KVStore.sameTables s s1)
    (h2 : KVStore.IdStep s1 s2) : KVStore.IdStep s s2 := by
  obtain ⟨hc, ht, hn⟩ := h1
  unfold KVStore.IdStep KVStore.sameTables at h2 ⊢
  rw [hc, ht, hn] at h2
  exact h2

theorem KVStore.sameTables_batchLoop (P : Platform) (env : Env) (entries : List (Bytes × Bytes)) :
    ∀ (i : Nat) (s : KVStore), KVStore.sameTables s (KVStore.batchLoop P env entries i s).1 := by
  induction entries with
  | nil => intro i s; exact ⟨rfl, rfl, rfl⟩
  | cons kv rest ih =>
    intro i s
    obtain ⟨key, value⟩ := kv
    unfold KVStore.batchLoop
    split
    · exact ⟨rfl, rfl, rfl⟩
    · exact ih _ _

theorem KVStore.IdStep_step (P : Platform) (s : KVStore) (op : Op) (env : Env) :
    KVStore.IdStep s (KVStore.step P s op env) := by
  cases op with
  | put key value =>
    simp only [KVStore.step]
    rcases KVStore.Put_cases P s key value env with ⟨_, wal1, fs1, h1⟩ | ⟨_, wal1, fs1, h1 | h1⟩
    · rw [h1]
      exact Or.inl ⟨rfl, rfl, rfl⟩
    · rw [h1]
      exact Or.inl ⟨rfl, rfl, rfl⟩
    · rw [h1]
      exact KVStore.IdStep_of_same s _ _ ⟨rfl, rfl, rfl⟩ (KVStore.IdStep_FlushMemTable P _ env)
  | delete key =>
    simp only [KVStore.step]
    rcases KVStore.Delete_cases P s key env with ⟨_, wal1, fs1, h1⟩ | ⟨_, wal1, fs1, h1⟩
    · rw [h1]
      exact Or.inl ⟨rfl, rfl, rfl⟩
    · rw [h1]
      exact Or.inl ⟨rfl, rfl, rfl⟩
  | putBatch entries =>
    simp only [KVStore.step]
    have hb := KVStore.sameTables_batchLoop P env entries 0 s
    unfold KVStore.PutBatch
    split
    · rename_i s1 heq
      rw [heq] at hb
      exact Or.inl hb
    · rename_i s1 heq
      rw [heq] at hb
      simp only
      split
      · exact KVStore.IdStep_of_same s _ _ hb (KVStore.IdStep_FlushMemTable P _ env)
      · exact Or.inl hb
  | get key =>
    simp only [KVStore.step]
    unfold KVStore.Get
    repeat (first | exact Or.inl ⟨rfl, rfl, rfl⟩ | split)
  | flush =>
    simp only [KVStore.step]
    unfold KVStore.Flush
    split
    · exact KVStore.IdStep_FlushMemTable P s env
    · exact Or.inl ⟨rfl, rfl, rfl⟩
  | compact =>
    simp only [KVStore.step, KVStore.Compact, KVStore.MaybeCompact_eq]
    exact Or.inl ⟨rfl, rfl, rfl⟩

/-- A call keeps `IdInv` while the next id stays below `2^64 - 1`, and moves
the next id up by at most one. -/
theorem KVStore.IdInv_of_IdStep (s s2 : KVStore) (hstep : KVStore.IdStep s s2)
    (hn : s.next_sstable_id_ + 1 < U64) (h : KVStore.IdInv s) :
    KVStore.IdInv s2 ∧ s2.config_ = s.config_ ∧ s.next_sstable_id_ ≤ s2.next_sstable_id_ ∧
      s2.next_sstable_id_ ≤ s.next_sstable_id_ + 1 := by
  have hadd : uadd s.next_sstable_id_ 1 = s.next_sstable_id_ + 1 := by
    unfold uadd
    exact Nat.mod_eq_of_lt hn
  rcases hstep with ⟨hc, ht, hx⟩ | ⟨hc, hx, ht⟩
  · exact ⟨KVStore.IdInv_congr s s2 ht hx h, hc, by omega, by omega⟩
  · rw [hadd] at hx
    refine ⟨?_, hc, by omega, by omega⟩
    intro t hm
    rcases ht with ht | ⟨t2, ht, hname⟩
    · rw [ht] at hm
      obtain ⟨id, h1, h2⟩ := h t hm
      exact ⟨id, h1, by omega⟩
    · rw [ht] at hm
      rcases List.mem_append.mp hm with h3 | h3
      · obtain ⟨id, h1, h2⟩ := h t h3
        exact ⟨id, h1, by omega⟩
      · rw [List.mem_singleton.mp h3, hname]
        exact ⟨s.next_sstable_id_, sstableId_GetSSTablePath _ _ (by omega), by omega⟩

/-- A run keeps `IdInv` while the next id cannot reach `2^64 - 1`, and never
lowers the next id. -/
theorem KVStore.IdInv_run (P : Platform) (ops : List (Op × Env)) :
    ∀ s : KVStore, s.next_sstable_id_ + ops.length < U64 → KVStore.IdInv s →
      KVStore.IdInv (KVStore.run P s ops) ∧ (KVStore.run P s ops).config_ = s.config_ ∧
        s.next_sstable_id_ ≤ (KVStore.run P s ops).next_sstable_id_ ∧
        (KVStore.run P s ops).next_sstable_id_ ≤ s.next_sstable_id_ + ops.length := by
  induction ops with
  | nil =>
    intro s _ h
    exact ⟨h, rfl, Nat.le_refl _, Nat.le_refl _⟩
  | cons oe rest ih =>
    intro s hn h
    obtain ⟨op, env⟩ := oe
    simp only [List.length_cons] at hn
    obtain ⟨h1, h2, h3, h4⟩ :=
      KVStore.IdInv_of_IdStep s _ (KVStore.IdStep_step P s op env) (by omega) h
    obtain ⟨h5, h6, h7, h8⟩ := ih (KVStore.step P s op env) (by omega) h1
    simp only [KVStore.run, List.length_cons]
    exact ⟨h5, h6.trans h2, by omega, by omega⟩

/-- Under `IdInv` the path of the next id names no table of the store. -/
theorem KVStore.next_path_fresh (s : KVStore) (hn : s.next_sstable_id_ < U64)
    (h : KVStore.IdInv s) :
    ∀ t ∈ s.sstables_, t.filename_ ≠ KVStore.GetSSTablePath s.config_ s.next_sstable_id_ := by
  intro t hm he
  obtain ⟨id, h1, h2⟩ := h t hm
  rw [he, sstableId_GetSSTablePath _ _ hn] at h1
  have := Option.some.inj h1
  omega

/-- A call adds at most the table whose path is that of the next id before it. -/
theorem KVStore.IdStep_tables (s s2 : KVStore) (h : KVStore.IdStep s s2) :
    ∀ t ∈ s2.sstables_, t ∈ s.sstables_ ∨
      t.filename_ = KVStore.GetSSTablePath s.config_ s.next_sstable_id_ := by
  intro t hm
  rcases h with ⟨_, ht, _⟩ | ⟨_, _, ht | ⟨t2, ht, hname⟩⟩
  · rw [ht] at hm
    exact Or.inl hm
  · rw [ht] at hm
    exact Or.inl hm
  · rw [ht] at hm
    rcases List.mem_append.mp hm with h3 | h3
    · exact Or.inl h3
    · rw [List.mem_singleton.mp h3]
      exact Or.inr hname

/-- The body of a compaction in `KVStore::MaybeCompact`, for any selection and
whatever the merge returns, keeps every table id below the next id. -/
theorem KVStore.IdInv_compactSelection (P : Platform) (s : KVStore) (env : Env)
    (files_to_compact : List Bytes) (hn : s.next_sstable_id_ + 1 < U64) (h : KVStore.IdInv s) :
    KVStore.IdInv (KVStore.compactSelection P s env files_to_compact) := by
  have hadd : uadd s.next_sstable_id_ 1 = s.next_sstable_id_ + 1 := by
    unfold uadd
    exact Nat.mod_eq_of_lt hn
  unfold KVStore.compactSelection
  simp only
  split
  · intro t hm
    simp only [hadd] at hm ⊢
    rcases List.mem_append.mp hm with h3 | h3
    · obtain ⟨id, h1, h2⟩ := h t (List.mem_of_mem_filter h3)
      exact ⟨id, h1, by omega⟩
    · rw [List.mem_singleton.mp h3, SSTable.filename_new]
      exact ⟨s.next_sstable_id_, sstableId_GetSSTablePath _ _ (by omega), by omega⟩
  · intro t hm
    simp only [hadd] at hm ⊢
    obtain ⟨id, h1, h2⟩ := h t hm
    exact ⟨id, h1, by omega⟩

/-- C39: on a data directory whose `.sst` file names all carry an id below
`2^64 - 1`, the constructor returns a store whose tables are those files and
whose `next_sstable_id_` is above the id of every one of them, zero when there
is none and otherwise one past the id of one of them, that is the maximum id
plus one.  After every later run of calls (puts, deletes, batches, gets,
flushes, compactions) that cannot carry the counter to `2^64 - 1`, every table
of the store has an id below `next_sstable_id_`, the counter has not gone
down, the path `GetSSTablePath(next_sstable_id_)` names no table of the store,
and one more call adds at most the table whose path is that one. -/
theorem C39_next_id_above_every_table (P : Platform) (config : Config) (fs : FileSystem)
    (env : Env)
    (hids : ∀ f ∈ sstFiles fs config.data_dir, ∃ id, sstableId f = some id ∧ id + 1 < U64) :
    ∃ s, KVStore.new P config fs env = some s ∧
      s.sstables_.map (fun t => t.filename_) = sortStrings (sstFiles fs config.data_dir) ∧
      (∀ f ∈ sstFiles fs config.data_dir, ∃ id, sstableId f = some id ∧ id < s.next_sstable_id_) ∧
      (sstFiles fs config.data_dir = [] → s.next_sstable_id_ = 0) ∧
      (sstFiles fs config.data_dir ≠ [] → ∃ f ∈ sstFiles fs config.data_dir, ∃ id,
        sstableId f = some id ∧ s.next_sstable_id_ = id + 1) ∧
      ∀ ops : List (Op × Env), s.next_sstable_id_ + ops.length < U64 →
        (∀ t ∈ (KVStore.run P s ops).sstables_, ∃ id,
          sstableId t.filename_ = some id ∧ id < (KVStore.run P s ops).next_sstable_id_) ∧
        s.next_sstable_id_ ≤ (KVStore.run P s ops).next_sstable_id_ ∧
        (∀ t ∈ (KVStore.run P s ops).sstables_,
          t.filename_ ≠ KVStore.GetSSTablePath (KVStore.run P s ops).config_
            (KVStore.run P s ops).next_sstable_id_) ∧
        ∀ (op : Op) (env2 : Env), ∀ t ∈ (KVStore.step P (KVStore.run P s ops) op env2).sstables_,
          t ∈ (KVStore.run P s ops).sstables_ ∨
          t.filename_ = KVStore.GetSSTablePath (KVStore.run P s ops).config_
            (KVStore.run P s ops).next_sstable_id_ := by
  obtain ⟨s, hs, _, hnames, habove, hlast⟩ := KVStore.new_ids P config fs env hids
  have hinv : KVStore.IdInv s := by
    intro t hm
    have h1 : t.filename_ ∈ s.sstables_.map (fun t => t.filename_) := List.mem_map_of_mem _ hm
    rw [hnames] at h1
    exact habove _ ((mem_sortStrings _ _).mp h1)
  refine ⟨s, hs, hnames, habove, ?_, ?_, ?_⟩
  · intro hnil
    rcases hlast with h1 | ⟨f, hm, _⟩
    · exact h1
    · rw [hnil] at hm
      simp at hm
  · intro hne
    rcases hlast with h1 | h1
    · obtain ⟨f, rest, hl⟩ := List.exists_cons_of_ne_nil hne
      obtain ⟨id, _, h2⟩ := habove f (by rw [hl]; exact List.mem_cons_self _ _)
      omega
    · exact h1
  · intro ops hn
    obtain ⟨h1, _, h3, _⟩ := KVStore.IdInv_run P ops s hn hinv
    have hlt : (KVStore.run P s ops).next_sstable_id_ < U64 := by
      have := (KVStore.IdInv_run P ops s hn hinv).2.2.2
      omega
    exact ⟨h1, h3, KVStore.next_path_fresh _ hlt h1,
      fun op env2 => KVStore.IdStep_tables _ _ (KVStore.IdStep_step P _ op env2)⟩

/-- C39 at the directory `twoAndTenFs`, which holds `2.sst` and `10.sst`: the
constructor returns a store whose next id is 11, above both ids. -/
theorem C39_next_id_above_every_table_witness :
    (∀ f ∈ sstFiles twoAndTenFs defaultConfig.data_dir,
      ∃ id, sstableId f = some id ∧ id + 1 < U64) ∧
    ∃ s, KVStore.new examplePlatform defaultConfig twoAndTenFs exampleEnv = some s ∧
      s.next_sstable_id_ = 11 ∧
      ∀ f ∈ sstFiles twoAndTenFs defaultConfig.data_dir,
        ∃ id, sstableId f = some id ∧ id < s.next_sstable_id_ := by
  have hids : ∀ f ∈ sstFiles twoAndTenFs defaultConfig.data_dir,
      ∃ id, sstableId f = some id ∧ id + 1 < U64 := by
    intro f hf
    have h : sstFiles twoAndTenFs defaultConfig.data_dir =
        [KVStore.GetSSTablePath defaultConfig 2, KVStore.GetSSTablePath defaultConfig 10] := by
      decide
    rw [h] at hf
    simp only [List.mem_cons, List.mem_singleton, List.not_mem_nil, or_false] at hf
    rcases hf with rfl | rfl
    · exact ⟨2, by decide, by decide⟩
    · exact ⟨10, by decide, by decide⟩
  obtain ⟨s, hs, _, habove, _, _, _⟩ :=
    C39_next_id_above_every_table examplePlatform defaultConfig twoAndTenFs exampleEnv hids
  refine ⟨hids, s, hs, ?_, habove⟩
  have h : (KVStore.new examplePlatform defaultConfig twoAndTenFs exampleEnv).map
      (fun s => s.next_sstable_id_) = some 11 := by decide
  rw [hs] at h
  exact Option.some.inj h

/-! ## Calls that are left through an exception -/

theorem thrownFlushStore_spec :
    KVStore.new x86Platform headerConfig [] exampleEnv = some headerStore ∧
    KVStore.PutEnding x86Platform headerStore [107] [111, 108, 100] exampleEnv =
      Ending.returned (storeWithOld, true) ∧
    KVStore.FlushEnding x86Platform storeWithOld exampleEnv = Ending.thrown thrownFlushStore ∧
    thrownFlushStore.immutable_memtable_.bind (fun m => MemTable.Get m [107]) =
      some [111, 108, 100] := by
  decide

/-! ## C5, C13: what has reached the disk -/

/-- C5 (failing input): on the store that the constructor builds in an empty
directory under the configuration of `kvstore.h`, `Put("a", "1")` returns `true`
and `Get("a")` returns `"1"`; the 23 bytes of the log record are with the
stream of the log.  While the stream has handed over none of them, or any
number short of all, a second store constructed over the files on the disk
recovers nothing and answers `Get("a")` with `false`; only with all 23 bytes
on the disk does it answer `"1"`. -/
theorem C5_unflushed_log_recovers_nothing :
    KVStore.new x86Platform headerConfig [] exampleEnv = some headerStore ∧
    KVStore.PutEnding x86Platform headerStore [97] [49] exampleEnv =
      Ending.returned (storeWithUnflushedA, true) ∧
    (KVStore.Get x86Platform storeWithUnflushedA [97] exampleEnv).2 = some [49] ∧
    (WAL.content storeWithUnflushedA.wal_ storeWithUnflushedA.fs_).length = 23 ∧
    (KVStore.new x86Platform headerConfig
      (WAL.onDisk storeWithUnflushedA.wal_ storeWithUnflushedA.fs_ 0) exampleEnv).map
      (fun s2 => (KVStore.Get x86Platform s2 [97] exampleEnv).2) = some none ∧
    (∀ flushed, flushed < 23 →
      (KVStore.new x86Platform headerConfig
        (WAL.onDisk storeWithUnflushedA.wal_ storeWithUnflushedA.fs_ flushed) exampleEnv).map
        (fun s2 => (KVStore.Get x86Platform s2 [97] exampleEnv).2) = some none) ∧
    (KVStore.new x86Platform headerConfig
      (WAL.onDisk storeWithUnflushedA.wal_ storeWithUnflushedA.fs_ 23) exampleEnv).map
      (fun s2 => (KVStore.Get x86Platform s2 [97] exampleEnv).2) = some (some [49]) := by
  decide

/-! ## C3, C6, C7, C10, C11, C12, C17: the failing runs -/

/-- When the active memtable holds a tombstone for `key`, the cache holds no
entry for `key` and the immutable memtable holds the live value `v` for it,
`Get(key)` returns `v`. -/
theorem KVStore.Get_past_tombstone (P : Platform) (s : KVStore) (key v : Bytes) (env : Env)
    (e : Entry) (hfind : StdMap.find s.memtable_.table_ key = some e)
    (hdel : e.is_deleted = true) (hcache : assocFind s.cache_.cache_map_ key = none)
    (himm : s.immutable_memtable_.bind (fun m => MemTable.Get m key) = some v) :
    (KVStore.Get P s key env).2 = some v := by
  have hm : MemTable.Get s.memtable_ key = none := by
    simp [MemTable.Get, hfind, hdel]
  have hc : (LRUCache.Get s.cache_ key).2 = none := LRUCache.Get_eq_none _ _ hcache
  rw [KVStore.Get_result, hc, hm, himm]
  rfl

/-- C3 (failing input), under the configuration of `kvstore.h` on x86-64.  On the
store built in an empty directory, `Put("k", "old")` returns `true` and the
`Flush()` that follows is left through the exception of the filter
constructor, which the caller catches: the memtable with `"old"` stays behind
as immutable memtable.  Then `Put("k", "v")` returns `true`, `Delete("k")`
returns `true`, and `Get("k")` returns `true` with `"old"`. -/
theorem C3_get_after_delete_returns_stale :
    KVStore.new x86Platform headerConfig [] exampleEnv = some headerStore ∧
    KVStore.PutEnding x86Platform headerStore [107] [111, 108, 100] exampleEnv =
      Ending.returned (storeWithOld, true) ∧
    KVStore.FlushEnding x86Platform storeWithOld exampleEnv = Ending.thrown thrownFlushStore ∧
    KVStore.PutEnding x86Platform thrownFlushStore [107] [118] exampleEnv =
      Ending.returned ((KVStore.Put x86Platform thrownFlushStore [107] [118] exampleEnv).1, true) ∧
    (KVStore.Delete x86Platform
      (KVStore.Put x86Platform thrownFlushStore [107] [118] exampleEnv).1 [107] exampleEnv).2 =
      true ∧
    (KVStore.Get x86Platform putDeletedAfterThrow [107] exampleEnv).2 =
      some [111, 108, 100] := by
  decide

/-- C6 (failing input), under the configuration of `kvstore.h` on x86-64.  After
`Put("k", "old")` and a `Flush()` left through the exception of the filter
constructor, `Delete("k")` returns `true` and leaves the cache without an
entry for `"k"`.  The `Get("k")` that follows passes the tombstone, finds
`"old"` in the immutable memtable and puts it into the cache; the next
`Get("k")` is answered from the cache, with `"old"`: the hit counter goes from
0 to 1. -/
theorem C6_deleted_value_served_from_cache :
    KVStore.FlushEnding x86Platform storeWithOld exampleEnv = Ending.thrown thrownFlushStore ∧
    (KVStore.Delete x86Platform thrownFlushStore [107] exampleEnv).2 = true ∧
    (LRUCache.Get deletedAfterThrow.cache_ [107]).2 = none ∧
    (KVStore.Get x86Platform deletedAfterThrow [107] exampleEnv).2 = some [111, 108, 100] ∧
    (LRUCache.Get (KVStore.Get x86Platform deletedAfterThrow [107] exampleEnv).1.cache_
      [107]).2 = some [111, 108, 100] ∧
    (KVStore.Get x86Platform (KVStore.Get x86Platform deletedAfterThrow [107] exampleEnv).1
      [107] exampleEnv).2 = some [111, 108, 100] ∧
    LRUCache.HitCount (KVStore.Get x86Platform deletedAfterThrow [107] exampleEnv).1.cache_ = 0 ∧
    LRUCache.HitCount (KVStore.Get x86Platform
      (KVStore.Get x86Platform deletedAfterThrow [107] exampleEnv).1 [107] exampleEnv).1.cache_ =
      1 := by
  decide

/-- C7 (failing input), under the configuration of `kvstore.h` on x86-64.  After
`Put("k", "old")`, a `Flush()` left through the exception of the filter
constructor and `Delete("k")`, the active memtable holds a tombstone for `"k"`,
the cache holds no entry for `"k"` and the immutable memtable holds the live
value `"old"`: `Get("k")` returns `true` with `"old"`, whereas `Scan("k", "k", 10)`
of the same store, which erases a key at a tombstone of the memtable, returns
nothing.  In every store value of that shape `Get` returns the value of the
immutable memtable. -/
theorem C7_get_passes_memtable_tombstone :
    KVStore.FlushEnding x86Platform storeWithOld exampleEnv = Ending.thrown thrownFlushStore ∧
    (KVStore.Delete x86Platform thrownFlushStore [107] exampleEnv).2 = true ∧
    (StdMap.find deletedAfterThrow.memtable_.table_ [107]).map (fun e => e.is_deleted) =
      some true ∧
    assocFind deletedAfterThrow.cache_.cache_map_ [107] = none ∧
    deletedAfterThrow.immutable_memtable_.bind (fun m => MemTable.Get m [107]) =
      some [111, 108, 100] ∧
    (KVStore.Get x86Platform deletedAfterThrow [107] exampleEnv).2 = some [111, 108, 100] ∧
    KVStore.Scan deletedAfterThrow [107] [107] 10 exampleEnv = [] ∧
    (∀ (P : Platform) (s : KVStore) (key v : Bytes) (env : Env) (e : Entry),
      StdMap.find s.memtable_.table_ key = some e → e.is_deleted = true →
      assocFind s.cache_.cache_map_ key = none →
      s.immutable_memtable_.bind (fun m => MemTable.Get m key) = some v →
      (KVStore.Get P s key env).2 = some v) :=
  ⟨by decide, by decide, by decide, by decide, by decide, by decide, by decide,
    fun P s key v env e h1 h2 h3 h4 => KVStore.Get_past_tombstone P s key v env e h1 h2 h3 h4⟩

/-- C10 (failing input).  `Deserialize` ends as the constructor call
`BloomFilter bf(1)` does, whatever bytes it is given: on no platform does its
result depend on the serialized filter.  On x86-64 the constructor is left
through the exception of `bits_.resize`, for one element as for the hundred
of `BloomFilterTest.Serialization`, so `Deserialize` returns no filter at all;
on a platform where the constructor returns, `Deserialize` returns the empty
placeholder. -/
theorem C10_deserialize_ignores_data :
    (∀ (P : Platform) (data1 data2 : Bytes),
      BloomFilter.DeserializeEnding P data1 = BloomFilter.DeserializeEnding P data2) ∧
    (∀ data : Bytes, BloomFilter.DeserializeEnding x86Platform data = Ending.thrown ()) ∧
    BloomFilter.newEnding x86Platform 100 = Ending.thrown () ∧
    (∀ (P : Platform) (data : Bytes), P.vector_resize_ok (P.bloom_bits 1) = true →
      BloomFilter.DeserializeEnding P data = Ending.returned (BloomFilter.Deserialize P data) ∧
      (BloomFilter.Deserialize P data).bits_ = List.replicate (P.bloom_bits 1) false) := by
  refine ⟨fun P data1 data2 => rfl, ?_, by decide, ?_⟩
  · intro data
    show BloomFilter.newEnding x86Platform 1 = Ending.thrown ()
    decide
  · intro P data h
    constructor
    · simp [BloomFilter.DeserializeEnding, BloomFilter.newEnding, BloomFilter.Deserialize, h]
    · rfl

/-- C11 (failing input).  With `use_bloom_filter = false`, `SSTable::Create`
returns `true` on every platform, file system, path and entry list when the
file opens, and the file holds what `Create` wrote; a table opened on that
file answers `Get` with `false` for every key.  At the entry list of
`SSTableTest.CreateAndRead`: the record of `test_key` is in the file, at
offset 13, and `Get("test_key")` is `false`.  With the default arguments
(`use_bloom_filter = true`) the same call is left through the exception of
the filter constructor on x86-64 and returns nothing. -/
theorem C11_get_not_found_after_create :
    (∀ (P : Platform) (fs : FileSystem) (filename : Bytes) (entries : List SSTableEntry)
        (use_compression : Bool) (key : Bytes) (junk : SSTableEntry),
      SSTable.CreateEnding P fs filename entries use_compression false true =
        Ending.returned (FileSystem.write fs filename
          (SSTable.fileContent P entries use_compression false), true) ∧
      FileSystem.read (FileSystem.write fs filename
          (SSTable.fileContent P entries use_compression false)) filename =
        some (SSTable.fileContent P entries use_compression false) ∧
      SSTable.Get P (SSTable.new (FileSystem.write fs filename
          (SSTable.fileContent P entries use_compression false)) filename) key junk = none) ∧
    SSTable.CreateEnding x86Platform [] testSstPath testEntries true false true =
      Ending.returned (testFsPlain, true) ∧
    ((FileSystem.read testFsPlain testSstPath).bind
      (fun content => SSTable.decodeEntry (content.drop 13))).map Prod.fst =
      some { key := testKey, value := testValue, is_deleted := false, timestamp := 12345 } ∧
    SSTable.Get x86Platform (SSTable.new testFsPlain testSstPath) testKey exampleEnv.junk = none ∧
    SSTable.CreateEnding x86Platform [] testSstPath testEntries true true true =
      Ending.thrown [(testSstPath, SSTable.WriteHeader 1 true true ++
        (testEntries.map SSTable.encodeEntry).flatten ++
        SSTable.WriteIndex (SSTable.buildIndex testEntries 0))] := by
  refine ⟨?_, by decide, by decide, by decide, by decide⟩
  intro P fs filename entries use_compression key junk
  refine ⟨?_, ?_, SSTable.Get_new P _ filename key junk⟩
  · simp [SSTable.CreateEnding, SSTable.Create]
  · simp [FileSystem.read, FileSystem.write, assocFind_assocSet_self]

/-- C12 (failing input).  Whatever file `SSTable::Create` wrote, on every
platform: the table that the constructor opens on it has an empty `first_key_`
and an empty `last_key_`, and `MayContain` is `false` for every key but the
empty string.  At the entry list of `SSTableTest.CreateAndRead`, written with
`use_bloom_filter = false`: `Create` returns `true` and `MayContain("test_key")`
is `false`. -/
theorem C12_range_check_rejects_stored_key :
    (∀ (P : Platform) (fs : FileSystem) (filename : Bytes) (entries : List SSTableEntry)
        (use_compression use_bloom_filter : Bool),
      (SSTable.new (FileSystem.write fs filename
          (SSTable.fileContent P entries use_compression use_bloom_filter)) filename).first_key_ =
        [] ∧
      (SSTable.new (FileSystem.write fs filename
          (SSTable.fileContent P entries use_compression use_bloom_filter)) filename).last_key_ =
        [] ∧
      ∀ key : Bytes, key ≠ [] →
        SSTable.MayContain P (SSTable.new (FileSystem.write fs filename
          (SSTable.fileContent P entries use_compression use_bloom_filter)) filename) key =
          false) ∧
    SSTable.CreateEnding x86Platform [] testSstPath testEntries true false true =
      Ending.returned (testFsPlain, true) ∧
    testEntries.map (fun e => e.key) = [testKey] ∧
    SSTable.MayContain x86Platform (SSTable.new testFsPlain testSstPath) testKey = false := by
  refine ⟨?_, by decide, by decide, by decide⟩
  intro P fs filename entries use_compression use_bloom_filter
  exact ⟨SSTable.first_key_new _ _, SSTable.last_key_new _ _,
    fun key h => SSTable.MayContain_new P _ filename key h⟩

/-- Whatever files it is given, `Compaction::CompactSSTables` hands an empty
entry list to `SSTable::Create`: the tables it opens yield no entry. -/
theorem Compaction.outputEntries_new (fs : FileSystem) (files : List Bytes)
    (junk : SSTableEntry) :
    Compaction.outputEntries (files.map (SSTable.new fs)) junk = [] := by
  unfold Compaction.outputEntries
  have h : ∀ (l : List Bytes) (m : StdMap SSTableEntry),
      (l.map (SSTable.new fs)).foldl
        (fun m t => (SSTable.Scan t [] [126] (U64 - 1) junk).foldl Compaction.mergeEntry m) m =
        m := by
    intro l
    induction l with
    | nil => intro m; rfl
    | cons f rest ih =>
      intro m
      rw [List.map_cons, List.foldl_cons,
        SSTable.Scan_index_nil _ _ _ _ _ (SSTable.index_new fs f)]
      exact ih m
  rw [h]
  rfl

/-- C17 (failing input).  The file `/tmp/test.sst` is written by `SSTable::Create`,
without bloom filter, from the one live entry `("a", "1")`; the call returns
`true` and the record is in the file.  The table that `CompactSSTables` opens
on it yields no entry, so the entry list of the output is empty, as it is for
every list of input files; on x86-64 the call then ends in the constructor
`BloomFilter bf(0)`, which divides by zero. -/
theorem C17_compaction_loses_live_keys :
    SSTable.CreateEnding x86Platform [] testSstPath [liveEntry [97] [49] 1] true false true =
      Ending.returned (liveAFs, true) ∧
    ((FileSystem.read liveAFs testSstPath).bind
      (fun content => SSTable.decodeEntry (content.drop 13))).map Prod.fst =
      some (liveEntry [97] [49] 1) ∧
    Compaction.outputEntries ([testSstPath].map (SSTable.new liveAFs)) exampleEnv.junk = [] ∧
    Compaction.CompactSSTablesEnding x86Platform liveAFs exampleEnv [testSstPath]
      [111, 117, 116] true = Ending.killed ∧
    (∀ (fs : FileSystem) (files : List Bytes) (junk : SSTableEntry),
      Compaction.outputEntries (files.map (SSTable.new fs)) junk = []) :=
  ⟨by decide, by decide, by decide, by decide,
    fun fs files junk => Compaction.outputEntries_new fs files junk⟩

/-! ## C14, C33: reading records back -/

theorem takeExact_length (n : Nat) (input a b : Bytes) (h : takeExact n input = some (a, b)) :
    b.length + n = input.length := by
  unfold takeExact at h
  split at h
  · rename_i hle
    simp only [Option.some.injEq, Prod.mk.injEq] at h
    rw [← h.2, List.length_drop]
    omega
  · simp at h

/-- A record that `ReadRecord` decodes takes at least 21 bytes of the input. -/
theorem WAL.ReadRecord_length (input : Bytes) (r : WALRecord) (rest : Bytes)
    (h : WAL.ReadRecord input = some (r, rest)) : rest.length + 21 ≤ input.length := by
  unfold WAL.ReadRecord at h
  split at h
  · simp at h
  · rename_i type r1 h1
    split at h
    · simp at h
    · rename_i key_len r2 h2
      split at h
      · simp at h
      · rename_i key r3 h3
        split at h
        · simp at h
        · rename_i value_len r4 h4
          split at h
          · simp at h
          · rename_i value r5 h5
            split at h
            · simp at h
            · rename_i timestamp r6 h6
              split at h
              · simp at h
              · rename_i checksum r7 h7
                simp only [Option.some.injEq, Prod.mk.injEq] at h
                have e1 := takeExact_length _ _ _ _ h1
                have e2 := takeExact_length _ _ _ _ h2
                have e3 := takeExact_length _ _ _ _ h3
                have e4 := takeExact_length _ _ _ _ h4
                have e5 := takeExact_length _ _ _ _ h5
                have e6 := takeExact_length _ _ _ _ h6
                have e7 := takeExact_length _ _ _ _ h7
                rw [← h.2]
                omega

theorem WAL.readLoop_eq_filter (P : Platform) :
    ∀ (fuel : Nat) (input : Bytes),
      WAL.readLoop P fuel input = (WAL.decodeAll fuel input).filter (WAL.VerifyChecksum P) := by
  intro fuel
  induction fuel with
  | zero => intro input; rfl
  | succ n ih =>
    intro input
    unfold WAL.readLoop WAL.decodeAll
    cases h : WAL.ReadRecord input with
    | none => rfl
    | some rr =>
      obtain ⟨record, rest⟩ := rr
      simp only
      rw [ih rest]
      by_cases hv : WAL.VerifyChecksum P record = true
      · rw [if_pos hv, List.filter_cons_of_pos hv]
      · rw [if_neg hv, List.filter_cons_of_neg hv]

/-- As many rounds as the input has bytes decode all that can be decoded: more
rounds give the same records. -/
theorem WAL.decodeAll_fuel :
    ∀ (n fuel1 fuel2 : Nat) (input : Bytes), input.length ≤ n → n ≤ fuel1 → n ≤ fuel2 →
      WAL.decodeAll fuel1 input = WAL.decodeAll fuel2 input := by
  intro n
  induction n with
  | zero =>
    intro fuel1 fuel2 input hlen _ _
    have hnil : input = [] := List.length_eq_zero.mp (Nat.le_zero.mp hlen)
    subst hnil
    cases fuel1 <;> cases fuel2 <;> rfl
  | succ m ih =>
    intro fuel1 fuel2 input hlen h1 h2
    obtain ⟨f1, rfl⟩ : ∃ f, fuel1 = f + 1 := ⟨fuel1 - 1, by omega⟩
    obtain ⟨f2, rfl⟩ : ∃ f, fuel2 = f + 1 := ⟨fuel2 - 1, by omega⟩
    unfold WAL.decodeAll
    cases h : WAL.ReadRecord input with
    | none => rfl
    | some rr =>
      obtain ⟨record, rest⟩ := rr
      simp only
      have hl := WAL.ReadRecord_length input record rest h
      rw [ih f1 f2 rest (by omega) (by omega) (by omega)]

/-- C14, amended: for every content of the log file, `ReadAll` returns the
records that `ReadRecord` decodes from the file one behind the other, in file
order, less those whose checksum fails: every record returned has a checksum
that verifies, a record whose checksum fails is skipped and reading goes on
behind it.  Reading ends only where `ReadRecord` fails, not for lack of
rounds: more rounds decode the same records.  On a file made of whole records
`ReadAll` returns exactly the records whose checksum verifies, those behind a
failing record included. -/
theorem C14_read_all_skips_bad_checksums (P : Platform) (w : WAL) (fs : FileSystem) :
    WAL.ReadAll P w fs =
      (WAL.decodeAll (WAL.content w fs).length (WAL.content w fs)).filter
        (WAL.VerifyChecksum P) ∧
    (∀ r ∈ WAL.ReadAll P w fs, WAL.VerifyChecksum P r = true) ∧
    (∀ fuel, (WAL.content w fs).length ≤ fuel →
      WAL.decodeAll fuel (WAL.content w fs) =
        WAL.decodeAll (WAL.content w fs).length (WAL.content w fs)) ∧
    (∀ rs : List WALRecord, (∀ r ∈ rs, WALRecord.WellFormed r) →
      FileSystem.read fs w.filename_ = some (WAL.encodeAll rs) →
      WAL.ReadAll P w fs = rs.filter (WAL.VerifyChecksum P)) := by
  have hread : WAL.ReadAll P w fs =
      WAL.readLoop P (WAL.content w fs).length (WAL.content w fs) := by
    unfold WAL.ReadAll WAL.content
    cases FileSystem.read fs w.filename_ with
    | none => rfl
    | some content => rfl
  refine ⟨?_, ?_, ?_, ?_⟩
  · rw [hread, WAL.readLoop_eq_filter]
  · intro r hr
    rw [hread] at hr
    exact WAL.readLoop_valid P _ _ r hr
  · intro fuel hfuel
    exact WAL.decodeAll_fuel _ _ _ _ (Nat.le_refl _) hfuel (Nat.le_refl _)
  · intro rs hwf hcontent
    exact WAL.ReadAll_of_content P w fs rs (by unfold WAL.content; rw [hcontent]; rfl) hwf

/-- C14 amended, on a log of three records of which the second has a wrong
checksum, followed by three stray bytes: the three records are decoded, the
first and the third are returned. -/
theorem C14_read_all_skips_bad_checksums_witness :
    WAL.decodeAll 100
      (WAL.encodeAll [goodRecord, badRecord, goodRecord2] ++ [1, 2, 3]) =
      [goodRecord, badRecord, goodRecord2] ∧
    WAL.ReadAll examplePlatform exampleWal
      [(exampleWal.filename_, WAL.encodeAll [goodRecord, badRecord, goodRecord2] ++ [1, 2, 3])] =
      [goodRecord, goodRecord2] ∧
    WAL.ReadAll examplePlatform exampleWal
      [(exampleWal.filename_, WAL.encodeAll [goodRecord, badRecord, goodRecord2] ++ [1, 2, 3])] =
      (WAL.decodeAll
        (WAL.content exampleWal
          [(exampleWal.filename_,
            WAL.encodeAll [goodRecord, badRecord, goodRecord2] ++ [1, 2, 3])]).length
        (WAL.content exampleWal
          [(exampleWal.filename_,
            WAL.encodeAll [goodRecord, badRecord, goodRecord2] ++ [1, 2, 3])])).filter
        (WAL.VerifyChecksum examplePlatform) :=
  ⟨by decide, by decide,
   (C14_read_all_skips_bad_checksums examplePlatform exampleWal
    [(exampleWal.filename_,
      WAL.encodeAll [goodRecord, badRecord, goodRecord2] ++ [1, 2, 3])]).1⟩

/-- Without bloom filter `SSTable::Create` returns, on every platform. -/
theorem SSTable.CreateEnding_plain (P : Platform) (fs : FileSystem) (filename : Bytes)
    (entries : List SSTableEntry) (use_compression open_ok : Bool) :
    SSTable.CreateEnding P fs filename entries use_compression false open_ok =
      Ending.returned (SSTable.Create P fs filename entries use_compression false open_ok) := by
  simp [SSTable.CreateEnding]

/-- With `enable_bloom_filter = false` every flush returns, and returns what
`KVStore.FlushMemTable` gives. -/
theorem KVStore.FlushMemTableEnding_plain (P : Platform) (s : KVStore) (env : Env)
    (h : s.config_.enable_bloom_filter = false) :
    KVStore.FlushMemTableEnding P s env = Ending.returned (KVStore.FlushMemTable P s env) := by
  unfold KVStore.FlushMemTableEnding
  split
  · rename_i he
    simp [KVStore.FlushMemTable, he]
  · simp only [h, SSTable.CreateEnding_plain]

/-- With `enable_bloom_filter = false` every `Put` returns, and returns what
`KVStore.Put` gives. -/
theorem KVStore.PutEnding_plain (P : Platform) (s : KVStore) (key value : Bytes) (env : Env)
    (h : s.config_.enable_bloom_filter = false) :
    KVStore.PutEnding P s key value env = Ending.returned (KVStore.Put P s key value env) := by
  unfold KVStore.PutEnding KVStore.Put
  split
  · rfl
  · simp only
    split
    · rename_i wal1 fs1 _ _
      rw [KVStore.FlushMemTableEnding_plain P
        { s with wal_ := wal1, fs_ := fs1,
                 memtable_ := MemTable.Put P s.memtable_ key value (env.clock 1),
                 cache_ := LRUCache.Invalidate s.cache_ key,
                 should_flush_ := true } env h]
    · rfl

/-- With `enable_bloom_filter = false` every `Flush` returns, and returns what
`KVStore.Flush` gives. -/
theorem KVStore.FlushEnding_plain (P : Platform) (s : KVStore) (env : Env)
    (h : s.config_.enable_bloom_filter = false) :
    KVStore.FlushEnding P s env = Ending.returned (KVStore.Flush P s env) := by
  unfold KVStore.FlushEnding KVStore.Flush
  split
  · exact KVStore.FlushMemTableEnding_plain P s env h
  · rfl

end kvstore
